import Mathlib

/-!
# Verification of the `spatial-engine` core spatial index

Shallow embedding of the flat-buffer octree, its pool-backed node and AABB
stores, and the ray/box traversal kernels from `packages/core/src` of the
`spatial-engine` repository, together with proofs about the behaviour its
specification describes.

Coordinates are modelled as rationals.  The JavaScript number semantics that
matter for the intersection kernel (division by zero producing infinities,
`0 * Infinity` producing `NaN`, and `NaN`-rejecting comparisons) are captured
by the `FVal` type below; finite arithmetic is exact in the model.
-/

namespace SpatialEngine

/-! ## IEEE-style extended values

`FVal` models the values flowing through `rayIntersectsAABB`: finite numbers,
the two infinities produced by `1/0`, and `NaN` produced by `0 * Infinity`.
Comparisons mirror JavaScript `<=` / `<` (false whenever an operand is `NaN`),
and `fmin`/`fmax` mirror `Math.min`/`Math.max` (`NaN` propagates).
-/

inductive FVal where
  | fin (q : ℚ)
  | pinf
  | ninf
  | nan
deriving DecidableEq, Repr

namespace FVal

/-- JavaScript `x <= y` on extended values: `false` when an operand is NaN. -/
def fle : FVal → FVal → Bool
  | nan, _ => false
  | _, nan => false
  | ninf, _ => true
  | _, pinf => true
  | pinf, y => y == pinf
  | x, ninf => x == ninf
  | fin a, fin b => decide (a ≤ b)

/-- JavaScript `x < y` on extended values: `false` when an operand is NaN. -/
def flt : FVal → FVal → Bool
  | nan, _ => false
  | _, nan => false
  | pinf, _ => false
  | _, ninf => false
  | ninf, y => !(y == ninf)
  | x, pinf => !(x == pinf)
  | fin a, fin b => decide (a < b)

/-- `Math.min`: NaN propagates, otherwise the smaller value. -/
def fmin (x y : FVal) : FVal :=
  if x = nan ∨ y = nan then nan else if flt y x then y else x

/-- `Math.max`: NaN propagates, otherwise the larger value. -/
def fmax (x y : FVal) : FVal :=
  if x = nan ∨ y = nan then nan else if flt x y then y else x

/-- IEEE multiplication restricted to the shapes the kernel produces:
a finite value times a finite-or-infinite value (`0 * ±∞ = NaN`). -/
def mul : FVal → FVal → FVal
  | nan, _ => nan
  | _, nan => nan
  | fin a, fin b => fin (a * b)
  | fin a, pinf => if a = 0 then nan else if 0 < a then pinf else ninf
  | fin a, ninf => if a = 0 then nan else if 0 < a then ninf else pinf
  | pinf, fin b => if b = 0 then nan else if 0 < b then pinf else ninf
  | ninf, fin b => if b = 0 then nan else if 0 < b then ninf else pinf
  | pinf, pinf => pinf
  | pinf, ninf => ninf
  | ninf, pinf => ninf
  | ninf, ninf => pinf

/-- JavaScript `1 / d` for a rational read out of the ray buffer:
`1/0 = Infinity`, otherwise the exact finite reciprocal. -/
def recip (d : ℚ) : FVal :=
  if d = 0 then pinf else fin d⁻¹

/-- IEEE division of finite values, used to state the specification formula
`t1 = (mn.A - o.A) / d.A`: division by zero yields a signed infinity, and
`0 / 0` yields NaN. -/
def fdiv (a d : ℚ) : FVal :=
  if d = 0 then (if a = 0 then nan else if 0 < a then pinf else ninf)
  else fin (a / d)

end FVal

/-! ## Flat geometric records -/

/-- An axis-aligned bounding box record: six coordinates
`minX, minY, minZ, maxX, maxY, maxZ` (layout of `aabb.ts`). -/
structure Aabb where
  minX : ℚ
  minY : ℚ
  minZ : ℚ
  maxX : ℚ
  maxY : ℚ
  maxZ : ℚ
deriving DecidableEq, Repr

/-- The zero-initialised AABB record (fresh `Float32Array` contents, and the
`?? 0` fallback for out-of-range reads). -/
def zeroAabb : Aabb := ⟨0, 0, 0, 0, 0, 0⟩

/-- `min ≤ max` on each axis (the data-model invariant of §3 of the spec). -/
def wfAabb (a : Aabb) : Prop :=
  a.minX ≤ a.maxX ∧ a.minY ≤ a.maxY ∧ a.minZ ≤ a.maxZ

instance (a : Aabb) : Decidable (wfAabb a) := by unfold wfAabb; infer_instance

/-- Box `a` is contained in box `b` on every axis (inclusive). -/
def aabbSub (a b : Aabb) : Prop :=
  b.minX ≤ a.minX ∧ b.minY ≤ a.minY ∧ b.minZ ≤ a.minZ ∧
  a.maxX ≤ b.maxX ∧ a.maxY ≤ b.maxY ∧ a.maxZ ≤ b.maxZ

instance (a b : Aabb) : Decidable (aabbSub a b) := by unfold aabbSub; infer_instance

/-- A ray record: origin and direction, layout `[ox, oy, oz, dx, dy, dz]`
(`ray.ts`). -/
structure Ray where
  ox : ℚ
  oy : ℚ
  oz : ℚ
  dx : ℚ
  dy : ℚ
  dz : ℚ
deriving DecidableEq, Repr

/-! ## The ray–AABB intersection kernel (`ray.ts`, `rayIntersectsAABB`)

The branchless slab test: per-axis reciprocals, per-axis `t1`/`t2`, `tmin` as
the max of per-axis minima, `tmax` as the min of per-axis maxima; `-1` when
`tmax < 0` or NOT `tmin ≤ tmax` (which also rejects NaN); otherwise `tmin`
when `tmin ≥ 0`, else `tmax`. -/

open FVal in
/-- Shallow embedding of `rayIntersectsAABB` from `ray.ts` (lines 86–119). -/
def rayIntersectsAABB (r : Ray) (b : Aabb) : FVal :=
  let idx := recip r.dx
  let idy := recip r.dy
  let idz := recip r.dz
  let t1x := mul (fin (b.minX - r.ox)) idx
  let t2x := mul (fin (b.maxX - r.ox)) idx
  let t1y := mul (fin (b.minY - r.oy)) idy
  let t2y := mul (fin (b.maxY - r.oy)) idy
  let t1z := mul (fin (b.minZ - r.oz)) idz
  let t2z := mul (fin (b.maxZ - r.oz)) idz
  let tmin := fmax (fmax (fmin t1x t2x) (fmin t1y t2y)) (fmin t1z t2z)
  let tmax := fmin (fmin (fmax t1x t2x) (fmax t1y t2y)) (fmax t1z t2z)
  if flt tmax (fin 0) || !(fle tmin tmax) then fin (-1)
  else if fle (fin 0) tmin then tmin else tmax

open FVal in
/-- The per-axis slab bounds written the way the specification states them
(§4.1): `t1 = (mn.A - o.A) / d.A` and `t2 = (mx.A - o.A) / d.A` with IEEE
division. -/
def slabTmin (r : Ray) (b : Aabb) : FVal :=
  fmax (fmax (fmin (fdiv (b.minX - r.ox) r.dx) (fdiv (b.maxX - r.ox) r.dx))
             (fmin (fdiv (b.minY - r.oy) r.dy) (fdiv (b.maxY - r.oy) r.dy)))
       (fmin (fdiv (b.minZ - r.oz) r.dz) (fdiv (b.maxZ - r.oz) r.dz))

open FVal in
/-- Specification-side `tmax`: min of the per-axis maxima of the division
formulas. -/
def slabTmax (r : Ray) (b : Aabb) : FVal :=
  fmin (fmin (fmax (fdiv (b.minX - r.ox) r.dx) (fdiv (b.maxX - r.ox) r.dx))
             (fmax (fdiv (b.minY - r.oy) r.dy) (fdiv (b.maxY - r.oy) r.dy)))
       (fmax (fdiv (b.minZ - r.oz) r.dz) (fdiv (b.maxZ - r.oz) r.dz))

theorem fdiv_eq_mul_recip (a d : ℚ) : FVal.fdiv a d = FVal.mul (FVal.fin a) (FVal.recip d) := by
  unfold FVal.fdiv FVal.mul FVal.recip
  by_cases hd : d = 0
  · simp [hd]
  · simp [hd, div_eq_mul_inv]

/-! ## The generic index pool (`object-pool.ts`)

A LIFO free-list over integer indices.  The `Int32Array` plus `top` pointer of
the source is modelled by the list of currently free indices with the top of
the stack at the head; the constructor fills it so that the first `acquire`
returns `0`. -/

/-- Errors surfaced by the embedded operations.  `range` models a JavaScript
`RangeError`; `fuelOut` marks a run that exhausted the structural recursion
fuel of the model (no counterpart in the source, which recurses natively; all
theorems are about runs that do not exhaust fuel). -/
inductive Exn where
  | range
  | fuelOut
deriving DecidableEq, Repr

/-- `ObjectPool` from `object-pool.ts`: fixed capacity, LIFO free stack. -/
structure ObjectPool where
  capacity : ℕ
  freeStack : List ℕ
deriving DecidableEq, Repr

namespace ObjectPool

/-- The constructor: all indices available, `0` on top. -/
def mk' (capacity : ℕ) : ObjectPool :=
  ⟨capacity, List.range capacity⟩

/-- `acquire()`: pop the top free index, or `none` when exhausted. -/
def acquire (p : ObjectPool) : ObjectPool × Option ℕ :=
  match p.freeStack with
  | [] => (p, none)
  | i :: rest => (⟨p.capacity, rest⟩, some i)

/-- `release(i)`: push an index back; `RangeError` when out of range or when
the stack is already full (double-release guard). -/
def release (p : ObjectPool) (i : ℕ) : ObjectPool × Option Exn :=
  if i ≥ p.capacity then (p, some Exn.range)
  else if p.freeStack.length ≥ p.capacity then (p, some Exn.range)
  else (⟨p.capacity, i :: p.freeStack⟩, none)

/-- `available`. -/
def available (p : ObjectPool) : ℕ := p.freeStack.length

end ObjectPool

/-! ## The AABB pool (`aabb.ts`, reconstructed at `src/unnamed/part_008`)

A flat buffer of 6-float records with bump allocation and a LIFO free-list
that starts empty (the constructor drains the underlying `ObjectPool`).
Out-of-range buffer reads return `0` per component (`?? 0`), and out-of-range
writes are dropped (typed-array semantics), which `List.getD` / `List.set`
reproduce exactly. -/

structure AABBPool where
  cap : ℕ
  buf : List Aabb
  count : ℕ
  freeList : ObjectPool
deriving DecidableEq, Repr

namespace AABBPool

/-- The constructor: zeroed buffer, bump counter `0`, drained free-list. -/
def mk' (capacity : ℕ) : AABBPool :=
  ⟨capacity, List.replicate capacity zeroAabb, 0, ⟨capacity, []⟩⟩

/-- `allocate()`: prefer the most recently released slot, else bump. -/
def allocate (p : AABBPool) : AABBPool × ℕ :=
  match p.freeList.acquire with
  | (fl, some recycled) => ({ p with freeList := fl }, recycled)
  | (_, none) => ({ p with count := p.count + 1 }, p.count)

/-- `release(i)`: push the slot on the free-list (its errors propagate). -/
def release (p : AABBPool) (i : ℕ) : AABBPool × Option Exn :=
  match p.freeList.release i with
  | (fl, e) => ({ p with freeList := fl }, e)

/-- `set(i, ...)`: write the six components (out-of-range writes dropped). -/
def set (p : AABBPool) (i : ℕ) (a : Aabb) : AABBPool :=
  { p with buf := p.buf.set i a }

/-- The whole record at `i` (out-of-range reads zero). -/
def getAabb (p : AABBPool) (i : ℕ) : Aabb :=
  p.buf.getD i zeroAabb

/-- `size`: the bump counter, unaffected by `release`. -/
def size (p : AABBPool) : ℕ := p.count

/-- `reset()`: bump counter to zero and free-list drained. -/
def reset (p : AABBPool) : AABBPool :=
  { p with count := 0, freeList := ⟨p.freeList.capacity, []⟩ }

end AABBPool

/-! ## The octree node pool (`octree-node.ts`)

Fixed-stride node records over a flat zero-initialised buffer: AABB, first
child (`-1` = leaf), parent (`-1` = root), object count and up to
`MAX_OBJECTS_PER_NODE = 8` inline object-index slots.  The count plus the
first `count` slots are modelled by the list `objs`.  Reads past the end of
the buffer fall back to the sentinels (`?? -1` for the links, `?? 0`
otherwise), which the `phantomNode` default reproduces; writes past the end
are dropped (`List.set`). -/

/-- `MAX_OBJECTS_PER_NODE`. -/
def MAX_OBJECTS_PER_NODE : ℕ := 8

/-- One node record of the flat node buffer. -/
structure NodeRec where
  box : Aabb
  firstChild : ℤ
  parent : ℤ
  objs : List ℕ
deriving DecidableEq, Repr

/-- A zero-initialised in-capacity buffer slot (fresh `Float32Array`). -/
def zeroNode : NodeRec := ⟨zeroAabb, 0, 0, []⟩

/-- The record an out-of-range read produces: the `?? -1` fallbacks for the
links and `?? 0` for the rest. -/
def phantomNode : NodeRec := ⟨zeroAabb, -1, -1, []⟩

structure OctreeNodePool where
  cap : ℕ
  count : ℕ
  buf : List NodeRec
deriving DecidableEq, Repr

namespace OctreeNodePool

/-- The constructor: a zeroed buffer of `capacity` node slots. -/
def mk' (capacity : ℕ) : OctreeNodePool :=
  ⟨capacity, 0, List.replicate capacity zeroNode⟩

/-- Read the record at `i`, with the out-of-range fallbacks. -/
def node (p : OctreeNodePool) (i : ℕ) : NodeRec :=
  p.buf.getD i phantomNode

/-- Field-wise in-place update of slot `i` (dropped when out of range). -/
def modifyNode (p : OctreeNodePool) (i : ℕ) (f : NodeRec → NodeRec) : OctreeNodePool :=
  { p with buf := p.buf.set i (f (p.node i)) }

/-- `allocate()`: initialise the sentinel fields of the next slot (the AABB
floats are left as they are) and bump the counter.  No capacity check: past
the end of the buffer the sentinel writes are dropped. -/
def allocate (p : OctreeNodePool) : OctreeNodePool × ℕ :=
  let q := p.modifyNode p.count fun nd => { nd with firstChild := -1, parent := -1, objs := [] }
  ({ q with count := q.count + 1 }, p.count)

/-- `reset()`. -/
def reset (p : OctreeNodePool) : OctreeNodePool := { p with count := 0 }

/-- `setAABB`. -/
def setAABB (p : OctreeNodePool) (i : ℕ) (a : Aabb) : OctreeNodePool :=
  p.modifyNode i fun nd => { nd with box := a }

/-- `getAABB` as a whole record (per-component reads fall back to `0`). -/
def getAABB (p : OctreeNodePool) (i : ℕ) : Aabb := (p.node i).box

/-- `setFirstChild`. -/
def setFirstChild (p : OctreeNodePool) (i : ℕ) (c : ℤ) : OctreeNodePool :=
  p.modifyNode i fun nd => { nd with firstChild := c }

/-- `getFirstChild` (`?? -1`). -/
def getFirstChild (p : OctreeNodePool) (i : ℕ) : ℤ := (p.node i).firstChild

/-- `setParent`. -/
def setParent (p : OctreeNodePool) (i : ℕ) (par : ℤ) : OctreeNodePool :=
  p.modifyNode i fun nd => { nd with parent := par }

/-- `getParent` (`?? -1`). -/
def getParent (p : OctreeNodePool) (i : ℕ) : ℤ := (p.node i).parent

/-- `getObjectCount` (`?? 0`). -/
def getObjectCount (p : OctreeNodePool) (i : ℕ) : ℕ := (p.node i).objs.length

/-- `addObject`: append to the inline slots; `RangeError` when the node
already holds `MAX_OBJECTS_PER_NODE` objects.  An out-of-range `i` reads a
count of `0` and its writes are dropped, so it "succeeds" silently. -/
def addObject (p : OctreeNodePool) (i : ℕ) (obj : ℕ) : OctreeNodePool × Option Exn :=
  if (p.node i).objs.length ≥ MAX_OBJECTS_PER_NODE then (p, some Exn.range)
  else (p.modifyNode i fun nd => { nd with objs := nd.objs ++ [obj] }, none)

/-- `getObject` at a slot (`?? 0`). -/
def getObject (p : OctreeNodePool) (i : ℕ) (slot : ℕ) : ℕ :=
  (p.node i).objs.getD slot 0

/-- `clearObjects`: zero the count (slots are no longer visible). -/
def clearObjects (p : OctreeNodePool) (i : ℕ) : OctreeNodePool :=
  p.modifyNode i fun nd => { nd with objs := [] }

/-- `removeObject`: swap-with-last at the first matching slot and shrink the
count by one; returns whether the object was present. -/
def removeObject (p : OctreeNodePool) (i : ℕ) (obj : ℕ) : OctreeNodePool × Bool :=
  match (p.node i).objs.indexOf? obj with
  | none => (p, false)
  | some k =>
    (p.modifyNode i fun nd =>
      { nd with objs := (nd.objs.set k (nd.objs.getLastD 0)).dropLast }, true)

/-- `size`. -/
def size (p : OctreeNodePool) : ℕ := p.count

end OctreeNodePool

/-! ## The octree (`octree.ts`)

State: borrowed node pool and AABB pool, root node index, the object-to-node
`Map`, and the reusable traversal stack.  The JavaScript `Map` is an
insertion-ordered association list with unique keys; `Map.set` overwrites in
place or appends, `Map.delete` removes the single entry. -/

/-- `Map.prototype.get`. -/
def mapGet : List (ℕ × ℕ) → ℕ → Option ℕ
  | [], _ => none
  | (k, v) :: t, key => if k = key then some v else mapGet t key

/-- `Map.prototype.set`. -/
def mapSet : List (ℕ × ℕ) → ℕ → ℕ → List (ℕ × ℕ)
  | [], key, v => [(key, v)]
  | (k, v') :: t, key, v => if k = key then (key, v) :: t else (k, v') :: mapSet t key v

/-- `Map.prototype.delete`. -/
def mapDelete : List (ℕ × ℕ) → ℕ → List (ℕ × ℕ)
  | [], _ => []
  | (k, v) :: t, key => if k = key then t else (k, v) :: mapDelete t key

/-- `aabbOverlapsBox` from `octree.ts` (lines 9–27): inclusive per-axis
overlap of the stored AABB against the query box. -/
def aabbOverlapsBox (a q : Aabb) : Bool :=
  a.minX ≤ q.maxX && a.maxX ≥ q.minX &&
  a.minY ≤ q.maxY && a.maxY ≥ q.minY &&
  a.minZ ≤ q.maxZ && a.maxZ ≥ q.minZ

structure Octree where
  np : OctreeNodePool
  ap : AABBPool
  root : ℕ
  objectNodeMap : List (ℕ × ℕ)
  stack : List ℕ
deriving DecidableEq, Repr

namespace Octree

/-- The constructor: allocate the root from the node pool. -/
def mk' (np : OctreeNodePool) (ap : AABBPool) : Octree :=
  ⟨np.allocate.1, ap, np.allocate.2, [], []⟩

/-- `setBounds`. -/
def setBounds (s : Octree) (a : Aabb) : Octree :=
  { s with np := s.np.setAABB s.root a }

/-- The AABB currently stored for object `i`. -/
def aabbAt (s : Octree) (i : ℕ) : Aabb := s.ap.getAabb i

/-- `fitsInNode`: the object's AABB is fully contained in the node's AABB
(inclusive on both ends). -/
def fitsInNode (s : Octree) (obj : ℕ) (nodeIdx : ℕ) : Bool :=
  let a := s.aabbAt obj
  let b := s.np.getAABB nodeIdx
  a.minX ≥ b.minX && a.minY ≥ b.minY && a.minZ ≥ b.minZ &&
  a.maxX ≤ b.maxX && a.maxY ≤ b.maxY && a.maxZ ≤ b.maxZ

/-- The octant AABB assigned to child `i` during subdivision: bit 0 → X half,
bit 1 → Y half, bit 2 → Z half; bit clear = lower half `[min, mid]`, bit set
= upper half `[mid, max]`. -/
def octantBox (b : Aabb) (i : ℕ) : Aabb :=
  let midX := (b.minX + b.maxX) / 2
  let midY := (b.minY + b.maxY) / 2
  let midZ := (b.minZ + b.maxZ) / 2
  ⟨if i.testBit 0 then midX else b.minX,
   if i.testBit 1 then midY else b.minY,
   if i.testBit 2 then midZ else b.minZ,
   if i.testBit 0 then b.maxX else midX,
   if i.testBit 1 then b.maxY else midY,
   if i.testBit 2 then b.maxZ else midZ⟩

mutual

/-- `insertIntoNode` (octree.ts lines 260–306), with explicit recursion fuel.
Internal node: descend into the first fitting child, else keep the straddling
object here.  Leaf: append while below `MAX_OBJECTS_PER_NODE`, else subdivide
and retry inside a `try`/`catch` that swallows `RangeError` (the
degenerate-insert guard). -/
def insertIntoNode : ℕ → Octree → ℕ → ℕ → Octree × Option Exn
  | 0, s, _, _ => (s, some Exn.fuelOut)
  | fuel + 1, s, nodeIdx, obj =>
    let fc := s.np.getFirstChild nodeIdx
    if fc ≠ -1 then
      match (List.range 8).find? (fun i => s.fitsInNode obj (fc.toNat + i)) with
      | some i => insertIntoNode fuel s (fc.toNat + i) obj
      | none =>
        match s.np.addObject nodeIdx obj with
        | (np', some e) => ({ s with np := np' }, some e)
        | (np', none) =>
          ({ s with np := np', objectNodeMap := mapSet s.objectNodeMap obj nodeIdx }, none)
    else if s.np.getObjectCount nodeIdx < MAX_OBJECTS_PER_NODE then
      match s.np.addObject nodeIdx obj with
      | (np', some e) => ({ s with np := np' }, some e)
      | (np', none) =>
        ({ s with np := np', objectNodeMap := mapSet s.objectNodeMap obj nodeIdx }, none)
    else
      match subdivide fuel s nodeIdx with
      | (s1, some Exn.range) => (s1, none)
      | (s1, some Exn.fuelOut) => (s1, some Exn.fuelOut)
      | (s1, none) =>
        match insertIntoNode fuel s1 nodeIdx obj with
        | (s2, some Exn.range) => (s2, none)
        | (s2, e) => (s2, e)
termination_by fuel _ _ _ => (fuel, 0, 0)
decreasing_by
  · exact Prod.Lex.left _ _ (Nat.lt_succ_self _)
  · exact Prod.Lex.left _ _ (Nat.lt_succ_self _)
  · exact Prod.Lex.left _ _ (Nat.lt_succ_self _)

/-- The redistribution loop at the end of `subdivide`: re-insert each saved
object from the subdivided node, deleting its map entry first; a thrown
exception aborts the loop and propagates. -/
def redistribute : ℕ → Octree → ℕ → List ℕ → Octree × Option Exn
  | _, s, _, [] => (s, none)
  | fuel, s, nodeIdx, obj :: rest =>
    let s := { s with objectNodeMap := mapDelete s.objectNodeMap obj }
    match insertIntoNode fuel s nodeIdx obj with
    | (s1, some e) => (s1, some e)
    | (s1, none) => redistribute fuel s1 nodeIdx rest
termination_by fuel _ _ objs => (fuel, 1, objs.length)
decreasing_by
  · exact Prod.Lex.right _ (Prod.Lex.left _ _ (by omega))
  · exact Prod.Lex.right _ (Prod.Lex.right _ (Nat.lt_succ_self _))

/-- `subdivide` (octree.ts lines 309–358): allocate 8 consecutive children,
assign octant AABBs and parent pointers, then redistribute the node's
objects. -/
def subdivide : ℕ → Octree → ℕ → Octree × Option Exn
  | fuel, s, nodeIdx =>
    let box := s.np.getAABB nodeIdx
    let firstChild := s.np.allocate.2
    let np1 := s.np.allocate.1
    let np2 := (List.range 7).foldl (fun np _ => np.allocate.1) np1
    let np3 := np2.setFirstChild nodeIdx (firstChild : ℤ)
    let np4 := (List.range 8).foldl
      (fun np i => ((np.setAABB (firstChild + i) (octantBox box i)).setParent (firstChild + i) (nodeIdx : ℤ)))
      np3
    let saved := (np4.node nodeIdx).objs
    let np5 := np4.clearObjects nodeIdx
    redistribute fuel { s with np := np5 } nodeIdx saved
termination_by fuel _ _ => (fuel, 2, 0)
decreasing_by
  · exact Prod.Lex.right _ (Prod.Lex.left _ _ (by omega))

end

/-- Fuel supplied to `insertIntoNode` by the public operations.  Any recursion
chain in a run whose node pool stays within capacity descends through
strictly increasing node indices, so this bound is never reached there; a run
that does exhaust it reports `Exn.fuelOut`, which the reachability relation
below rules out. -/
def insertFuel (s : Octree) : ℕ := 2 * s.np.cap + 2

/-- `insert(objectIndex)`. -/
def insert (s : Octree) (obj : ℕ) : Octree × Option Exn :=
  insertIntoNode (insertFuel s) s s.root obj

/-- The parent-link walk of `update` step 5: follow `parent` links from `a`
until a node whose AABB fully contains the object is found (`-1` when the
chain is exhausted). -/
def walkUp (s : Octree) (obj : ℕ) : ℕ → ℤ → ℤ
  | 0, a => a
  | fuel + 1, a =>
    if a = -1 then a
    else if s.fitsInNode obj a.toNat then a
    else walkUp s obj fuel (s.np.getParent a.toNat)

/-- `update(objectIndex, ...)` (octree.ts lines 81–117): overwrite the AABB,
return silently for untracked objects, keep a still-fitting object in place,
otherwise remove it and re-insert from the lowest fitting ancestor (root when
none fits). -/
def update (s : Octree) (obj : ℕ) (a : Aabb) : Octree × Option Exn :=
  let s := { s with ap := s.ap.set obj a }
  match mapGet s.objectNodeMap obj with
  | none => (s, none)
  | some currentNode =>
    if s.fitsInNode obj currentNode then (s, none)
    else
      let np' := (s.np.removeObject currentNode obj).1
      let s := { s with np := np', objectNodeMap := mapDelete s.objectNodeMap obj }
      let anc := walkUp s obj (s.np.count + 1) (s.np.getParent currentNode)
      let ancestorNode := if anc = -1 then s.root else anc.toNat
      insertIntoNode (insertFuel s) s ancestorNode obj

/-- `remove(objectIndex)` (octree.ts lines 123–128). -/
def remove (s : Octree) (obj : ℕ) : Octree :=
  match mapGet s.objectNodeMap obj with
  | none => s
  | some nodeIdx =>
    { s with np := (s.np.removeObject nodeIdx obj).1,
             objectNodeMap := mapDelete s.objectNodeMap obj }

/-- The iterative stack loop of `raycast`: pop a node, fold the closest-hit
update over its objects, push the children whose AABBs the ray intersects.
Returns the final best pair and the final contents of the reused stack. -/
def rayLoop (s : Octree) (r : Ray) : ℕ → List ℕ → FVal × ℤ → (FVal × ℤ) × List ℕ
  | 0, stack, best => (best, stack)
  | _ + 1, [], best => (best, [])
  | fuel + 1, nodeIdx :: rest, best =>
    let best := (s.np.node nodeIdx).objs.foldl
      (fun (b : FVal × ℤ) objIdx =>
        let t := rayIntersectsAABB r (s.ap.getAabb objIdx)
        if FVal.fle (FVal.fin 0) t && FVal.flt t b.1 then (t, (objIdx : ℤ)) else b)
      best
    let fc := s.np.getFirstChild nodeIdx
    let stack :=
      if fc ≠ -1 then
        (List.range 8).foldl
          (fun st i =>
            if FVal.fle (FVal.fin 0) (rayIntersectsAABB r (s.np.getAABB (fc.toNat + i)))
            then (fc.toNat + i) :: st else st)
          rest
      else rest
    rayLoop s r fuel stack best

/-- `raycast` (octree.ts lines 141–190): early-out against the root AABB,
then the iterative DFS; `none` when no object index was recorded. -/
def raycast (s : Octree) (r : Ray) : Option (ℕ × FVal) × Octree :=
  if FVal.flt (rayIntersectsAABB r (s.np.getAABB s.root)) (FVal.fin 0) then (none, s)
  else
    let res := rayLoop s r (s.np.count + 1) [s.root] (FVal.pinf, -1)
    (if res.1.2 = -1 then none else some (res.1.2.toNat, res.1.1), { s with stack := res.2 })

/-- The iterative stack loop of `queryBox`: pop a node, append its
overlapping objects to the result list, push overlapping children. -/
def queryLoop (s : Octree) (q : Aabb) : ℕ → List ℕ → List ℕ → List ℕ × List ℕ
  | 0, stack, acc => (acc, stack)
  | _ + 1, [], acc => (acc, [])
  | fuel + 1, nodeIdx :: rest, acc =>
    let acc := acc ++ (s.np.node nodeIdx).objs.filter
      (fun objIdx => aabbOverlapsBox (s.ap.getAabb objIdx) q)
    let fc := s.np.getFirstChild nodeIdx
    let stack :=
      if fc ≠ -1 then
        (List.range 8).foldl
          (fun st i =>
            if aabbOverlapsBox (s.np.getAABB (fc.toNat + i)) q
            then (fc.toNat + i) :: st else st)
          rest
      else rest
    queryLoop s q fuel stack acc

/-- `queryBox` (octree.ts lines 208–256). -/
def queryBox (s : Octree) (q : Aabb) : List ℕ × Octree :=
  if !aabbOverlapsBox (s.np.getAABB s.root) q then ([], s)
  else
    let res := queryLoop s q (s.np.count + 1) [s.root] []
    (res.1, { s with stack := res.2 })

/-- Modelled from the spec: `Octree.clear()` is exercised by the test suite
(`octree.test.ts`, "Octree – clear()") but its implementation is absent from
the sources; §3 "Lifecycle" of the specification pins it down: "A full
`reset` on the node pool (and `clear` on the octree) returns all node memory
to the bump allocator and re-allocates a fresh root", and the tests
additionally require the AABB pool bump counter to return to `0` and the
tracking map to empty. -/
def clear (s : Octree) : Octree :=
  let np := s.np.reset
  { np := np.allocate.1, ap := s.ap.reset, root := np.allocate.2,
    objectNodeMap := [], stack := s.stack }

/-- The freshly constructed octree over fresh pools, with the world bounds
set: `new Octree(new OctreeNodePool(npCap), new AABBPool(apCap))` followed by
`setBounds`. -/
def initial (npCap apCap : ℕ) (bounds : Aabb) : Octree :=
  (Octree.mk' (OctreeNodePool.mk' npCap) (AABBPool.mk' apCap)).setBounds bounds

/-- A caller writing an AABB record into the pool (`aabbPool.set`), the step
that precedes `insert` in the intended call sequence. -/
def writeAabb (s : Octree) (i : ℕ) (a : Aabb) : Octree :=
  { s with ap := s.ap.set i a }

/-- The sum of `objectCount` over all allocated nodes. -/
def sumObjectCounts (s : Octree) : ℕ :=
  ((List.range s.np.count).map fun n => (s.np.node n).objs.length).sum

/-- Object `i` is live: tracked by the object-to-node map. -/
def live (s : Octree) (i : ℕ) : Prop := (mapGet s.objectNodeMap i).isSome

end Octree

open Octree

/-- States reachable by a valid operation sequence: construction with the
world bounds, then AABB writes for untracked objects, inserts of fresh
objects whose AABB is well-formed and inside the root bounds, updates to
well-formed in-bounds boxes, removes, and queries.  The side conditions on
`insert`/`update` say the run completed within the recursion fuel of the
model and never pushed the node pool past its capacity (past capacity the
flat buffer silently drops writes, which the specification's sizing
assumptions exclude). -/
inductive Reach : Octree → Prop where
  | init (npCap apCap : ℕ) (bounds : Aabb) (hcap : 1 ≤ npCap) (hwf : wfAabb bounds) :
      Reach (initial npCap apCap bounds)
  | writeAabb {s} (h : Reach s) (i : ℕ) (a : Aabb)
      (huntracked : mapGet s.objectNodeMap i = none) :
      Reach (writeAabb s i a)
  | insert {s} (h : Reach s) (obj : ℕ)
      (huntracked : mapGet s.objectNodeMap obj = none)
      (hwf : wfAabb (s.aabbAt obj))
      (hfits : aabbSub (s.aabbAt obj) (s.np.getAABB s.root))
      (hfuel : (insert s obj).2 ≠ some Exn.fuelOut)
      (hcap : (insert s obj).1.np.count ≤ s.np.cap) :
      Reach (insert s obj).1
  | update {s} (h : Reach s) (obj : ℕ) (a : Aabb)
      (hwf : wfAabb ((s.ap.set obj a).getAabb obj))
      (hfits : aabbSub ((s.ap.set obj a).getAabb obj) (s.np.getAABB s.root))
      (hfuel : (update s obj a).2 ≠ some Exn.fuelOut)
      (hcap : (update s obj a).1.np.count ≤ s.np.cap) :
      Reach (update s obj a).1
  | remove {s} (h : Reach s) (obj : ℕ) : Reach (remove s obj)
  | raycast {s} (h : Reach s) (r : Ray) : Reach (raycast s r).2
  | queryBox {s} (h : Reach s) (q : Aabb) : Reach (queryBox s q).2

/-- The state invariant maintained by every valid operation sequence: buffer
sizing, the tree shape of the child/parent links, well-formed and nested node
AABBs, and the two-way correspondence between the object-to-node map and the
per-node object lists. -/
structure Inv (s : Octree) : Prop where
  buflen_np : s.np.buf.length = s.np.cap
  count_le : s.np.count ≤ s.np.cap
  root_lt : s.root < s.np.count
  root_parent : s.np.getParent s.root = -1
  fc_spec : ∀ n, n < s.np.count → s.np.getFirstChild n = -1 ∨
    ∃ c : ℕ, s.np.getFirstChild n = (c : ℤ) ∧ n < c ∧ c + 8 ≤ s.np.count ∧
      ∀ i, i < 8 → s.np.getParent (c + i) = (n : ℤ) ∧
        aabbSub (s.np.getAABB (c + i)) (s.np.getAABB n)
  parent_spec : ∀ m, m < s.np.count → m ≠ s.root →
    ∃ p : ℕ, s.np.getParent m = (p : ℤ) ∧ p < m ∧
      ∃ c : ℕ, s.np.getFirstChild p = (c : ℤ) ∧ c ≤ m ∧ m < c + 8
  boxes_wf : ∀ n, n < s.np.count → wfAabb (s.np.getAABB n)
  map_node_lt : ∀ obj n, mapGet s.objectNodeMap obj = some n → n < s.np.count
  map_in_list : ∀ obj n, mapGet s.objectNodeMap obj = some n → obj ∈ (s.np.node n).objs
  list_in_map : ∀ n, n < s.np.count → ∀ obj, obj ∈ (s.np.node n).objs →
    mapGet s.objectNodeMap obj = some n
  lists_nodup : ∀ n, n < s.np.count → (s.np.node n).objs.Nodup
  objs_le : ∀ n, n < s.np.count → (s.np.node n).objs.length ≤ MAX_OBJECTS_PER_NODE
  fits_inv : ∀ obj n, mapGet s.objectNodeMap obj = some n →
    aabbSub (s.aabbAt obj) (s.np.getAABB n)
  aabb_wf : ∀ obj n, mapGet s.objectNodeMap obj = some n → wfAabb (s.aabbAt obj)
  keys_nodup : (s.objectNodeMap.map Prod.fst).Nodup
  sum_eq : sumObjectCounts s = s.objectNodeMap.length
  stack_nil : s.stack = []

/-! ## Basic lemmas about the pool primitives -/

namespace OctreeNodePool

theorem node_modify_self {p : OctreeNodePool} {i : ℕ} {f : NodeRec → NodeRec}
    (h : i < p.buf.length) : (p.modifyNode i f).node i = f (p.node i) := by
  simp [node, modifyNode, List.getD, List.getElem?_set_self, h]

theorem node_modify_other {p : OctreeNodePool} {i j : ℕ} {f : NodeRec → NodeRec}
    (h : j ≠ i) : (p.modifyNode i f).node j = p.node j := by
  simp [node, modifyNode, List.getD, List.getElem?_set_ne (Ne.symm h)]

theorem modify_oob {p : OctreeNodePool} {i : ℕ} {f : NodeRec → NodeRec}
    (h : p.buf.length ≤ i) : p.modifyNode i f = p := by
  have : p.buf.set i (f (p.node i)) = p.buf := List.set_eq_of_length_le h
  simp [modifyNode, this]

@[simp] theorem modify_buflen (p : OctreeNodePool) (i : ℕ) (f : NodeRec → NodeRec) :
    (p.modifyNode i f).buf.length = p.buf.length := by
  simp [modifyNode]

@[simp] theorem modify_count (p : OctreeNodePool) (i : ℕ) (f : NodeRec → NodeRec) :
    (p.modifyNode i f).count = p.count := rfl

@[simp] theorem modify_cap (p : OctreeNodePool) (i : ℕ) (f : NodeRec → NodeRec) :
    (p.modifyNode i f).cap = p.cap := rfl

@[simp] theorem allocate_count (p : OctreeNodePool) : (p.allocate.1).count = p.count + 1 := rfl

@[simp] theorem allocate_idx (p : OctreeNodePool) : p.allocate.2 = p.count := rfl

@[simp] theorem allocate_cap (p : OctreeNodePool) : (p.allocate.1).cap = p.cap := rfl

@[simp] theorem allocate_buflen (p : OctreeNodePool) :
    (p.allocate.1).buf.length = p.buf.length := by
  simp [allocate]

theorem allocate_node_other {p : OctreeNodePool} {j : ℕ} (h : j ≠ p.count) :
    (p.allocate.1).node j = p.node j := by
  show ({ p.modifyNode p.count _ with count := _ }).node j = _
  rw [show ({ p.modifyNode p.count _ with count := (p.modifyNode p.count _).count + 1 } :
    OctreeNodePool).node j = (p.modifyNode p.count _).node j from rfl]
  exact node_modify_other h

theorem allocate_node_self {p : OctreeNodePool} (h : p.count < p.buf.length) :
    (p.allocate.1).node p.count =
      { p.node p.count with firstChild := -1, parent := -1, objs := [] } := by
  show ({ p.modifyNode p.count _ with count := _ }).node p.count = _
  rw [show ({ p.modifyNode p.count _ with count := (p.modifyNode p.count _).count + 1 } :
    OctreeNodePool).node p.count = (p.modifyNode p.count _).node p.count from rfl]
  exact node_modify_self h

end OctreeNodePool

/-! ## Lemmas about the association-list model of the JavaScript `Map` -/

@[simp] theorem mapGet_nil (k : ℕ) : mapGet [] k = none := rfl

theorem mapGet_set_self (m : List (ℕ × ℕ)) (k v : ℕ) : mapGet (mapSet m k v) k = some v := by
  induction m with
  | nil => simp [mapSet, mapGet]
  | cons hd t ih =>
    by_cases h : hd.1 = k
    · simp [mapSet, mapGet, h]
    · simp [mapSet, mapGet, h, ih]

theorem mapGet_set_other (m : List (ℕ × ℕ)) {k k' : ℕ} (v : ℕ) (h : k' ≠ k) :
    mapGet (mapSet m k v) k' = mapGet m k' := by
  induction m with
  | nil => simp [mapSet, mapGet, Ne.symm h]
  | cons hd t ih =>
    obtain ⟨a, b⟩ := hd
    by_cases hh : a = k
    · subst hh
      simp [mapSet, mapGet, Ne.symm h]
    · by_cases hh' : a = k'
      · subst hh'
        simp [mapSet, mapGet, hh]
      · simp [mapSet, mapGet, hh, hh', ih]

theorem mapGet_eq_none_of_not_mem_keys {m : List (ℕ × ℕ)} {k : ℕ}
    (h : k ∉ m.map Prod.fst) : mapGet m k = none := by
  induction m with
  | nil => rfl
  | cons hd t ih =>
    simp only [List.map_cons, List.mem_cons, not_or] at h
    simp only [mapGet, if_neg (fun he : hd.1 = k => h.1 he.symm)]
    exact ih h.2

theorem mapGet_delete_other (m : List (ℕ × ℕ)) {k k' : ℕ} (h : k' ≠ k) :
    mapGet (mapDelete m k) k' = mapGet m k' := by
  induction m with
  | nil => simp [mapDelete]
  | cons hd t ih =>
    obtain ⟨a, b⟩ := hd
    by_cases hh : a = k
    · subst hh
      simp [mapDelete, mapGet, Ne.symm h]
    · by_cases hh' : a = k'
      · subst hh'
        simp [mapDelete, mapGet, hh]
      · simp [mapDelete, mapGet, hh, hh', ih]

theorem mapGet_delete_self (m : List (ℕ × ℕ)) (k : ℕ) (hnd : (m.map Prod.fst).Nodup) :
    mapGet (mapDelete m k) k = none := by
  induction m with
  | nil => simp [mapDelete]
  | cons hd t ih =>
    obtain ⟨a, b⟩ := hd
    simp only [List.map_cons, List.nodup_cons] at hnd
    by_cases hh : a = k
    · subst hh
      simp only [mapDelete, if_pos rfl]
      exact mapGet_eq_none_of_not_mem_keys hnd.1
    · simp [mapDelete, mapGet, hh, ih hnd.2]

/-! ## The swap-with-last removal of `removeObject` -/

theorem indexOf?_decomp {l : List ℕ} {obj k : ℕ} (h : l.indexOf? obj = some k) :
    ∃ A B, l = A ++ obj :: B ∧ A.length = k ∧ obj ∉ A := by
  induction l generalizing k with
  | nil => simp at h
  | cons x xs ih =>
    rw [List.indexOf?_cons] at h
    by_cases hx : x = obj
    · subst hx
      rw [if_pos (by simp)] at h
      obtain rfl : (0 : ℕ) = k := by simpa using h
      exact ⟨[], xs, rfl, rfl, by simp⟩
    · rw [if_neg (by simpa using hx)] at h
      obtain ⟨k', hk', rfl⟩ := Option.map_eq_some'.1 h
      obtain ⟨A, B, rfl, hlen, hnm⟩ := ih hk'
      exact ⟨x :: A, B, rfl, by simp [hlen], by simp [Ne.symm hx, hnm]⟩

theorem set_append_cons (A : List ℕ) (v obj : ℕ) (B : List ℕ) :
    (A ++ obj :: B).set A.length v = A ++ v :: B := by
  induction A with
  | nil => simp
  | cons a A ih => simp [List.set, ih]

/-- Swap-with-last removal produces a permutation of `erase`. -/
theorem swapRemove_perm {l : List ℕ} {obj k : ℕ} (h : l.indexOf? obj = some k) :
    ((l.set k (l.getLastD 0)).dropLast).Perm (l.erase obj) := by
  obtain ⟨A, B, rfl, hlen, hnm⟩ := indexOf?_decomp h
  subst hlen
  rw [List.erase_append_right _ (by simpa using hnm), List.erase_cons_head]
  rcases List.eq_nil_or_concat' B with rfl | ⟨C, w, rfl⟩
  · have hlast : (A ++ [obj]).getLastD 0 = obj := List.getLastD_concat _ _ _
    rw [hlast, set_append_cons, List.dropLast_concat]
    simp
  · have hlast : (A ++ obj :: (C ++ [w])).getLastD 0 = w := by
      rw [show A ++ obj :: (C ++ [w]) = (A ++ obj :: C) ++ [w] by simp]
      exact List.getLastD_concat _ _ _
    rw [hlast, set_append_cons,
      show A ++ w :: (C ++ [w]) = (A ++ w :: C) ++ [w] by simp, List.dropLast_concat]
    exact List.Perm.append_left A (List.perm_append_singleton w C).symm

theorem swapRemove_len {l : List ℕ} {obj k : ℕ} (h : l.indexOf? obj = some k) :
    ((l.set k (l.getLastD 0)).dropLast).length + 1 = l.length := by
  have hperm := (swapRemove_perm h).length_eq
  rw [hperm]
  obtain ⟨A, B, rfl, _, hnm⟩ := indexOf?_decomp h
  rw [List.erase_append_right _ (by simpa using hnm), List.erase_cons_head]
  simp
  omega

namespace OctreeNodePool

theorem removeObject_not_mem {p : OctreeNodePool} {i obj : ℕ}
    (h : obj ∉ (p.node i).objs) : p.removeObject i obj = (p, false) := by
  unfold removeObject
  rw [List.indexOf?_eq_none_iff.2 (fun x hx => by
    simp only [beq_iff_eq]
    exact fun he => h (he ▸ hx))]

theorem removeObject_mem {p : OctreeNodePool} {i obj : ℕ}
    (h : obj ∈ (p.node i).objs) (hlen : i < p.buf.length) :
    (p.removeObject i obj).2 = true ∧
    (((p.removeObject i obj).1).node i).objs.Perm ((p.node i).objs.erase obj) ∧
    (∀ j, j ≠ i → ((p.removeObject i obj).1).node j = p.node j) ∧
    ((p.removeObject i obj).1).node i = { p.node i with
      objs := (((p.node i).objs.set ((p.node i).objs.indexOf obj) ((p.node i).objs.getLastD 0)).dropLast) } ∧
    ((p.removeObject i obj).1).count = p.count ∧
    ((p.removeObject i obj).1).cap = p.cap ∧
    ((p.removeObject i obj).1).buf.length = p.buf.length := by
  unfold removeObject
  cases hidx : (p.node i).objs.indexOf? obj with
  | none =>
    exact absurd (List.indexOf?_eq_none_iff.1 hidx obj h) (by simp)
  | some k =>
    refine ⟨rfl, ?_, ?_, ?_, rfl, rfl, by simp⟩
    · rw [node_modify_self hlen]
      exact swapRemove_perm hidx
    · intro j hj
      exact node_modify_other hj
    · rw [node_modify_self hlen]
      have : (p.node i).objs.indexOf obj = k := by
        rw [List.indexOf_eq_indexOf?, hidx]
      rw [this]

end OctreeNodePool

/-! ## Counting lemmas -/

/-- Summing a pointwise function over `List.range` agrees with the `Finset`
sum. -/
theorem range_map_sum (f : ℕ → ℕ) (n : ℕ) :
    ((List.range n).map f).sum = ∑ i in Finset.range n, f i := rfl

/-- Changing the summand at a single index. -/
theorem sum_range_update {f f' : ℕ → ℕ} {count i : ℕ} (hi : i < count)
    (hother : ∀ j, j ≠ i → f' j = f j) :
    ((List.range count).map f').sum + f i = ((List.range count).map f).sum + f' i := by
  rw [range_map_sum, range_map_sum]
  have hmem : i ∈ Finset.range count := Finset.mem_range.2 hi
  rw [← Finset.sum_erase_add _ f' hmem, ← Finset.sum_erase_add _ f hmem]
  have : ∑ x in (Finset.range count).erase i, f' x
       = ∑ x in (Finset.range count).erase i, f x :=
    Finset.sum_congr rfl fun x hx => hother x (Finset.ne_of_mem_erase hx)
  rw [this]
  omega

/-- Extending the summation range by indices whose summand is zero. -/
theorem sum_range_extend {f f' : ℕ → ℕ} {count k : ℕ}
    (hold : ∀ j, j < count → f' j = f j)
    (hnew : ∀ j, count ≤ j → j < count + k → f' j = 0) :
    ((List.range (count + k)).map f').sum = ((List.range count).map f).sum := by
  rw [range_map_sum, range_map_sum, Finset.sum_range_add]
  have h1 : ∑ i in Finset.range count, f' i = ∑ i in Finset.range count, f i :=
    Finset.sum_congr rfl fun x hx => hold x (Finset.mem_range.1 hx)
  have h2 : ∑ i in Finset.range k, f' (count + i) = 0 :=
    Finset.sum_eq_zero fun x hx => hnew _ (Nat.le_add_right _ _)
      (by have := Finset.mem_range.1 hx; omega)
  rw [h1, h2]
  omega

/-! ## Key-set and length lemmas for the map model -/

theorem mapSet_keys_sub (m : List (ℕ × ℕ)) (k v : ℕ) :
    ∀ x, x ∈ (mapSet m k v).map Prod.fst → x ∈ m.map Prod.fst ∨ x = k := by
  induction m with
  | nil => simp [mapSet]
  | cons hd t ih =>
    obtain ⟨a, b⟩ := hd
    by_cases hh : a = k
    · subst hh
      simp only [mapSet, eq_self_iff_true, if_true]
      intro x hx
      simp only [List.map_cons, List.mem_cons] at hx ⊢
      tauto
    · simp only [mapSet, if_neg hh]
      intro x hx
      simp only [List.map_cons, List.mem_cons] at hx ⊢
      rcases hx with h | hx
      · tauto
      · rcases ih x hx with h | h <;> tauto

theorem mapSet_keys_nodup {m : List (ℕ × ℕ)} (k v : ℕ)
    (h : (m.map Prod.fst).Nodup) : ((mapSet m k v).map Prod.fst).Nodup := by
  induction m with
  | nil => simp [mapSet]
  | cons hd t ih =>
    obtain ⟨a, b⟩ := hd
    simp only [List.map_cons, List.nodup_cons] at h
    by_cases hh : a = k
    · subst hh
      simp only [mapSet, eq_self_iff_true, if_true, List.map_cons, List.nodup_cons]
      exact ⟨h.1, h.2⟩
    · simp only [mapSet, if_neg hh, List.map_cons, List.nodup_cons]
      refine ⟨fun hmem => ?_, ih h.2⟩
      rcases mapSet_keys_sub t k v a hmem with hmem' | rfl
      · exact h.1 hmem'
      · exact hh rfl

theorem mapSet_length_tracked {m : List (ℕ × ℕ)} {k : ℕ} (v : ℕ)
    (h : (mapGet m k).isSome) : (mapSet m k v).length = m.length := by
  induction m with
  | nil => simp [mapGet] at h
  | cons hd t ih =>
    obtain ⟨a, b⟩ := hd
    by_cases hh : a = k
    · subst hh
      simp [mapSet]
    · simp only [mapGet, if_neg hh] at h
      simp [mapSet, if_neg hh, ih h]

theorem mapSet_length_new {m : List (ℕ × ℕ)} {k : ℕ} (v : ℕ)
    (h : mapGet m k = none) : (mapSet m k v).length = m.length + 1 := by
  induction m with
  | nil => simp [mapSet]
  | cons hd t ih =>
    obtain ⟨a, b⟩ := hd
    by_cases hh : a = k
    · subst hh
      simp [mapGet] at h
    · simp only [mapGet, if_neg hh] at h
      simp [mapSet, if_neg hh, ih h]

theorem mapDelete_none {m : List (ℕ × ℕ)} {k : ℕ}
    (h : mapGet m k = none) : mapDelete m k = m := by
  induction m with
  | nil => rfl
  | cons hd t ih =>
    obtain ⟨a, b⟩ := hd
    by_cases hh : a = k
    · subst hh
      simp [mapGet] at h
    · simp only [mapGet, if_neg hh] at h
      simp [mapDelete, if_neg hh, ih h]

theorem mapDelete_length {m : List (ℕ × ℕ)} {k n : ℕ}
    (h : mapGet m k = some n) : (mapDelete m k).length + 1 = m.length := by
  induction m with
  | nil => simp [mapGet] at h
  | cons hd t ih =>
    obtain ⟨a, b⟩ := hd
    by_cases hh : a = k
    · subst hh
      simp [mapDelete]
    · simp only [mapGet, if_neg hh] at h
      simp [mapDelete, if_neg hh, ih h]

theorem mapDelete_keys_nodup {m : List (ℕ × ℕ)} (k : ℕ)
    (h : (m.map Prod.fst).Nodup) : ((mapDelete m k).map Prod.fst).Nodup := by
  induction m with
  | nil => simp [mapDelete]
  | cons hd t ih =>
    obtain ⟨a, b⟩ := hd
    simp only [List.map_cons, List.nodup_cons] at h
    by_cases hh : a = k
    · subst hh
      simp only [mapDelete, if_pos rfl]
      exact h.2
    · simp only [mapDelete, if_neg hh, List.map_cons, List.nodup_cons]
      refine ⟨fun hmem => h.1 ?_, ih h.2⟩
      clear ih h
      induction t with
      | nil => simp [mapDelete] at hmem
      | cons hd' t' ih' =>
        obtain ⟨a', b'⟩ := hd'
        by_cases hh' : a' = k
        · subst hh'
          simp only [mapDelete, if_pos rfl] at hmem
          simp only [List.map_cons, List.mem_cons]
          exact Or.inr hmem
        · simp only [mapDelete, if_neg hh', List.map_cons, List.mem_cons] at hmem ⊢
          rcases hmem with rfl | hmem
          · exact Or.inl rfl
          · exact Or.inr (ih' hmem)

/-! ## Frame lemmas for the node-pool operations -/

namespace OctreeNodePool

theorem setAABB_node_self {p : OctreeNodePool} {i : ℕ} (a : Aabb) (h : i < p.buf.length) :
    ((p.setAABB i a).node i) = { p.node i with box := a } := node_modify_self h

theorem setAABB_node_other {p : OctreeNodePool} {i j : ℕ} (a : Aabb) (h : j ≠ i) :
    ((p.setAABB i a).node j) = p.node j := node_modify_other h

theorem setParent_node_self {p : OctreeNodePool} {i : ℕ} (par : ℤ) (h : i < p.buf.length) :
    ((p.setParent i par).node i) = { p.node i with parent := par } := node_modify_self h

theorem setParent_node_other {p : OctreeNodePool} {i j : ℕ} (par : ℤ) (h : j ≠ i) :
    ((p.setParent i par).node j) = p.node j := node_modify_other h

theorem setFirstChild_node_self {p : OctreeNodePool} {i : ℕ} (c : ℤ) (h : i < p.buf.length) :
    ((p.setFirstChild i c).node i) = { p.node i with firstChild := c } := node_modify_self h

theorem setFirstChild_node_other {p : OctreeNodePool} {i j : ℕ} (c : ℤ) (h : j ≠ i) :
    ((p.setFirstChild i c).node j) = p.node j := node_modify_other h

theorem clearObjects_node_self {p : OctreeNodePool} {i : ℕ} (h : i < p.buf.length) :
    ((p.clearObjects i).node i) = { p.node i with objs := [] } := node_modify_self h

theorem clearObjects_node_other {p : OctreeNodePool} {i j : ℕ} (h : j ≠ i) :
    ((p.clearObjects i).node j) = p.node j := node_modify_other h

theorem addObject_full {p : OctreeNodePool} {i obj : ℕ}
    (h : MAX_OBJECTS_PER_NODE ≤ (p.node i).objs.length) :
    p.addObject i obj = (p, some Exn.range) := by
  unfold addObject
  rw [if_pos h]

theorem addObject_ok {p : OctreeNodePool} {i obj : ℕ}
    (h : (p.node i).objs.length < MAX_OBJECTS_PER_NODE) :
    p.addObject i obj =
      (p.modifyNode i fun nd => { nd with objs := nd.objs ++ [obj] }, none) := by
  unfold addObject
  rw [if_neg (by omega)]

@[simp] theorem setAABB_count (p : OctreeNodePool) (i : ℕ) (a : Aabb) :
    (p.setAABB i a).count = p.count := rfl

@[simp] theorem setAABB_cap (p : OctreeNodePool) (i : ℕ) (a : Aabb) :
    (p.setAABB i a).cap = p.cap := rfl

@[simp] theorem setAABB_buflen (p : OctreeNodePool) (i : ℕ) (a : Aabb) :
    (p.setAABB i a).buf.length = p.buf.length := modify_buflen ..

@[simp] theorem setParent_count (p : OctreeNodePool) (i : ℕ) (par : ℤ) :
    (p.setParent i par).count = p.count := rfl

@[simp] theorem setParent_cap (p : OctreeNodePool) (i : ℕ) (par : ℤ) :
    (p.setParent i par).cap = p.cap := rfl

@[simp] theorem setParent_buflen (p : OctreeNodePool) (i : ℕ) (par : ℤ) :
    (p.setParent i par).buf.length = p.buf.length := modify_buflen ..

@[simp] theorem setFirstChild_count (p : OctreeNodePool) (i : ℕ) (c : ℤ) :
    (p.setFirstChild i c).count = p.count := rfl

@[simp] theorem setFirstChild_cap (p : OctreeNodePool) (i : ℕ) (c : ℤ) :
    (p.setFirstChild i c).cap = p.cap := rfl

@[simp] theorem setFirstChild_buflen (p : OctreeNodePool) (i : ℕ) (c : ℤ) :
    (p.setFirstChild i c).buf.length = p.buf.length := modify_buflen ..

@[simp] theorem clearObjects_count (p : OctreeNodePool) (i : ℕ) :
    (p.clearObjects i).count = p.count := rfl

@[simp] theorem clearObjects_cap (p : OctreeNodePool) (i : ℕ) :
    (p.clearObjects i).cap = p.cap := rfl

@[simp] theorem clearObjects_buflen (p : OctreeNodePool) (i : ℕ) :
    (p.clearObjects i).buf.length = p.buf.length := modify_buflen ..

@[simp] theorem addObject_count (p : OctreeNodePool) (i obj : ℕ) :
    ((p.addObject i obj).1).count = p.count := by
  unfold addObject
  split <;> rfl

@[simp] theorem addObject_cap (p : OctreeNodePool) (i obj : ℕ) :
    ((p.addObject i obj).1).cap = p.cap := by
  unfold addObject
  split <;> rfl

@[simp] theorem addObject_buflen (p : OctreeNodePool) (i obj : ℕ) :
    ((p.addObject i obj).1).buf.length = p.buf.length := by
  unfold addObject
  split
  · rfl
  · exact modify_buflen ..

theorem addObject_node_other {p : OctreeNodePool} {i j : ℕ} (obj : ℕ) (h : j ≠ i) :
    ((p.addObject i obj).1).node j = p.node j := by
  unfold addObject
  split
  · rfl
  · exact node_modify_other h

@[simp] theorem removeObject_count (p : OctreeNodePool) (i obj : ℕ) :
    ((p.removeObject i obj).1).count = p.count := by
  unfold removeObject
  split <;> rfl

@[simp] theorem removeObject_cap (p : OctreeNodePool) (i obj : ℕ) :
    ((p.removeObject i obj).1).cap = p.cap := by
  unfold removeObject
  split <;> rfl

@[simp] theorem removeObject_buflen (p : OctreeNodePool) (i obj : ℕ) :
    ((p.removeObject i obj).1).buf.length = p.buf.length := by
  unfold removeObject
  split
  · rfl
  · exact modify_buflen ..

theorem removeObject_node_other {p : OctreeNodePool} {i j : ℕ} (obj : ℕ) (h : j ≠ i) :
    ((p.removeObject i obj).1).node j = p.node j := by
  unfold removeObject
  split
  · rfl
  · exact node_modify_other h

end OctreeNodePool

/-! ## Frame facts for the insertion path

`insertIntoNode`/`subdivide` never touch the AABB pool, the root index or the
traversal stack; the node pool's capacity and buffer length are fixed and its
bump counter only grows. -/

/-- State components untouched (or monotone) across the insertion path. -/
structure InsFrame (s s' : Octree) : Prop where
  ap_eq : s'.ap = s.ap
  root_eq : s'.root = s.root
  stack_eq : s'.stack = s.stack
  cap_eq : s'.np.cap = s.np.cap
  buflen_eq : s'.np.buf.length = s.np.buf.length
  count_le : s.np.count ≤ s'.np.count

theorem InsFrame.refl (s : Octree) : InsFrame s s := ⟨rfl, rfl, rfl, rfl, rfl, le_refl _⟩

theorem InsFrame.trans {s t u : Octree} (h1 : InsFrame s t) (h2 : InsFrame t u) :
    InsFrame s u :=
  ⟨h2.ap_eq.trans h1.ap_eq, h2.root_eq.trans h1.root_eq, h2.stack_eq.trans h1.stack_eq,
   h2.cap_eq.trans h1.cap_eq, h2.buflen_eq.trans h1.buflen_eq,
   h1.count_le.trans h2.count_le⟩

theorem InsFrame.map_change {s : Octree} (m : List (ℕ × ℕ)) :
    InsFrame s { s with objectNodeMap := m } := ⟨rfl, rfl, rfl, rfl, rfl, le_refl _⟩

theorem foldl_allocate_spec (l : List ℕ) (np : OctreeNodePool) :
    (l.foldl (fun np _ => np.allocate.1) np).count = np.count + l.length ∧
    (l.foldl (fun np _ => np.allocate.1) np).cap = np.cap ∧
    (l.foldl (fun np _ => np.allocate.1) np).buf.length = np.buf.length := by
  induction l generalizing np with
  | nil => simp
  | cons x t ih =>
    simp only [List.foldl_cons]
    obtain ⟨h1, h2, h3⟩ := ih np.allocate.1
    refine ⟨?_, ?_, ?_⟩ <;> simp [h1, h2, h3, List.length_cons] <;> omega

theorem foldl_assign_spec (l : List ℕ) (np : OctreeNodePool) (fc nodeIdx : ℕ) (box : Aabb) :
    (l.foldl (fun np i => ((np.setAABB (fc + i) (Octree.octantBox box i)).setParent
      (fc + i) (nodeIdx : ℤ))) np).count = np.count ∧
    (l.foldl (fun np i => ((np.setAABB (fc + i) (Octree.octantBox box i)).setParent
      (fc + i) (nodeIdx : ℤ))) np).cap = np.cap ∧
    (l.foldl (fun np i => ((np.setAABB (fc + i) (Octree.octantBox box i)).setParent
      (fc + i) (nodeIdx : ℤ))) np).buf.length = np.buf.length := by
  induction l generalizing np with
  | nil => simp
  | cons x t ih =>
    simp only [List.foldl_cons]
    obtain ⟨h1, h2, h3⟩ := ih ((np.setAABB (fc + x) (Octree.octantBox box x)).setParent
      (fc + x) (nodeIdx : ℤ))
    refine ⟨?_, ?_, ?_⟩ <;> simp [h1, h2, h3]

namespace Octree

theorem subdivide_frame_of_red (f : ℕ)
    (hred : ∀ objs s n, InsFrame s (redistribute f s n objs).1) :
    ∀ s n, InsFrame s (subdivide f s n).1 := by
  intro s n
  rw [subdivide]
  refine InsFrame.trans ?_ (hred _ _ _)
  obtain ⟨h1, h2, h3⟩ := foldl_allocate_spec (List.range 7) s.np.allocate.1
  obtain ⟨h1', h2', h3'⟩ := foldl_assign_spec (List.range 8)
    (((List.range 7).foldl (fun np _ => np.allocate.1) s.np.allocate.1).setFirstChild n
      ((s.np.count : ℕ) : ℤ)) s.np.count n (s.np.getAABB n)
  refine ⟨rfl, rfl, rfl, ?_, ?_, ?_⟩ <;>
    simp only [OctreeNodePool.allocate_idx, OctreeNodePool.clearObjects_cap,
      OctreeNodePool.clearObjects_count, OctreeNodePool.clearObjects_buflen,
      h1, h2, h3, h1', h2', h3', OctreeNodePool.setFirstChild_cap,
      OctreeNodePool.setFirstChild_count, OctreeNodePool.setFirstChild_buflen,
      OctreeNodePool.allocate_cap, OctreeNodePool.allocate_count,
      OctreeNodePool.allocate_buflen, List.length_range] <;> omega

theorem redistribute_frame_of_ins (f : ℕ)
    (hins : ∀ s n o, InsFrame s (insertIntoNode f s n o).1) :
    ∀ objs s n, InsFrame s (redistribute f s n objs).1 := by
  intro objs
  induction objs with
  | nil => intro s n; rw [redistribute]; exact InsFrame.refl s
  | cons obj rest ih =>
    intro s n
    rw [redistribute]
    have h0 : InsFrame s { s with objectNodeMap := mapDelete s.objectNodeMap obj } :=
      InsFrame.map_change _
    have h1 := hins { s with objectNodeMap := mapDelete s.objectNodeMap obj } n obj
    split
    · next s1 e heq =>
      have : s1 = (insertIntoNode f { s with objectNodeMap := mapDelete s.objectNodeMap obj } n obj).1 := by
        rw [heq]
      exact h0.trans (this ▸ h1)
    · next s1 heq =>
      have : s1 = (insertIntoNode f { s with objectNodeMap := mapDelete s.objectNodeMap obj } n obj).1 := by
        rw [heq]
      exact (h0.trans (this ▸ h1)).trans (ih s1 n)

theorem insertIntoNode_frame : ∀ f s n o, InsFrame s (insertIntoNode f s n o).1 := by
  intro f
  induction f with
  | zero => intro s n o; rw [insertIntoNode]; exact InsFrame.refl s
  | succ f ih =>
    have hsub := subdivide_frame_of_red f (redistribute_frame_of_ins f ih)
    intro s n o
    rw [insertIntoNode]
    split
    · split
      · exact ih _ _ _
      · split
        · next np' e heq =>
          have hfr : InsFrame s { s with np := np' } := by
            have h2 : np' = (s.np.addObject n o).1 := by rw [heq]
            subst h2
            exact ⟨rfl, rfl, rfl, by simp, by simp, by simp⟩
          exact hfr
        · next np' heq =>
          have h2 : np' = (s.np.addObject n o).1 := by rw [heq]
          subst h2
          exact ⟨rfl, rfl, rfl, by simp, by simp, by simp⟩
    · split
      · split
        · next np' e heq =>
          have h2 : np' = (s.np.addObject n o).1 := by rw [heq]
          subst h2
          exact ⟨rfl, rfl, rfl, by simp, by simp, by simp⟩
        · next np' heq =>
          have h2 : np' = (s.np.addObject n o).1 := by rw [heq]
          subst h2
          exact ⟨rfl, rfl, rfl, by simp, by simp, by simp⟩
      · split
        · next s1 heq =>
          have h2 : s1 = (subdivide f s n).1 := by rw [heq]
          subst h2
          exact hsub _ _
        · next s1 heq =>
          have h2 : s1 = (subdivide f s n).1 := by rw [heq]
          subst h2
          exact hsub _ _
        · next s1 heq =>
          have hs1 : s1 = (subdivide f s n).1 := by rw [heq]
          subst hs1
          split
          · next s2 heq2 =>
            have h2 : s2 = (insertIntoNode f (subdivide f s n).1 n o).1 := by rw [heq2]
            subst h2
            exact (hsub _ _).trans (ih _ _ _)
          · next s2 e2 hne heq2 =>
            have h2 : s2 = (insertIntoNode f (subdivide f s n).1 n o).1 := by rw [heq2]
            subst h2
            exact (hsub _ _).trans (ih _ _ _)

theorem redistribute_frame (f : ℕ) : ∀ objs s n, InsFrame s (redistribute f s n objs).1 :=
  redistribute_frame_of_ins f (insertIntoNode_frame f)

theorem subdivide_frame (f : ℕ) : ∀ s n, InsFrame s (subdivide f s n).1 :=
  subdivide_frame_of_red f (redistribute_frame f)

end Octree

/-! ## Geometric helper lemmas -/

theorem aabbSub_refl (a : Aabb) : aabbSub a a := by
  unfold aabbSub
  refine ⟨le_refl _, le_refl _, le_refl _, le_refl _, le_refl _, le_refl _⟩

theorem aabbSub_trans {a b c : Aabb} (h1 : aabbSub a b) (h2 : aabbSub b c) : aabbSub a c := by
  unfold aabbSub at *
  obtain ⟨x1, y1, z1, x2, y2, z2⟩ := h1
  obtain ⟨x3, y3, z3, x4, y4, z4⟩ := h2
  exact ⟨by linarith, by linarith, by linarith, by linarith, by linarith, by linarith⟩

theorem fitsInNode_iff (s : Octree) (obj n : ℕ) :
    s.fitsInNode obj n = true ↔ aabbSub (s.aabbAt obj) (s.np.getAABB n) := by
  unfold Octree.fitsInNode aabbSub
  simp only [Bool.and_eq_true, decide_eq_true_eq, ge_iff_le]
  tauto

theorem octantBox_wf {b : Aabb} (h : wfAabb b) (i : ℕ) : wfAabb (Octree.octantBox b i) := by
  obtain ⟨hx, hy, hz⟩ := h
  unfold Octree.octantBox wfAabb
  rcases i.testBit 0 <;> rcases i.testBit 1 <;> rcases i.testBit 2 <;>
    refine ⟨?_, ?_, ?_⟩ <;> simp <;> linarith

theorem octantBox_sub {b : Aabb} (h : wfAabb b) (i : ℕ) :
    aabbSub (Octree.octantBox b i) b := by
  obtain ⟨hx, hy, hz⟩ := h
  unfold Octree.octantBox aabbSub
  rcases i.testBit 0 <;> rcases i.testBit 1 <;> rcases i.testBit 2 <;>
    refine ⟨?_, ?_, ?_, ?_, ?_, ?_⟩ <;> simp <;> linarith

theorem wfAabb_zero : wfAabb zeroAabb := ⟨le_refl _, le_refl _, le_refl _⟩

/-! ## The generalised invariant

During `subdivide`'s redistribution loop some objects are still tracked by the
map but momentarily absent from every node list; `AuxInv` generalises `Inv`
with that set of pending `(object, node)` entries. -/

structure AuxInv (s : Octree) (pend : List (ℕ × ℕ)) : Prop where
  buflen_np : s.np.buf.length = s.np.cap
  count_le : s.np.count ≤ s.np.cap
  root_lt : s.root < s.np.count
  root_parent : s.np.getParent s.root = -1
  fc_spec : ∀ n, n < s.np.count → s.np.getFirstChild n = -1 ∨
    ∃ c : ℕ, s.np.getFirstChild n = (c : ℤ) ∧ n < c ∧ c + 8 ≤ s.np.count ∧
      ∀ i, i < 8 → s.np.getParent (c + i) = (n : ℤ) ∧
        aabbSub (s.np.getAABB (c + i)) (s.np.getAABB n)
  parent_spec : ∀ m, m < s.np.count → m ≠ s.root →
    ∃ p : ℕ, s.np.getParent m = (p : ℤ) ∧ p < m ∧
      ∃ c : ℕ, s.np.getFirstChild p = (c : ℤ) ∧ c ≤ m ∧ m < c + 8
  boxes_wf : ∀ n, n < s.np.count → wfAabb (s.np.getAABB n)
  map_node_lt : ∀ obj n, mapGet s.objectNodeMap obj = some n → n < s.np.count
  map_in_list : ∀ obj n, mapGet s.objectNodeMap obj = some n →
    obj ∉ pend.map Prod.fst → obj ∈ (s.np.node n).objs
  pend_spec : ∀ q ∈ pend, mapGet s.objectNodeMap q.1 = some q.2 ∧
    ∀ n, n < s.np.count → q.1 ∉ (s.np.node n).objs
  list_in_map : ∀ n, n < s.np.count → ∀ obj, obj ∈ (s.np.node n).objs →
    mapGet s.objectNodeMap obj = some n
  lists_nodup : ∀ n, n < s.np.count → (s.np.node n).objs.Nodup
  objs_le : ∀ n, n < s.np.count → (s.np.node n).objs.length ≤ MAX_OBJECTS_PER_NODE
  fits_inv : ∀ obj n, mapGet s.objectNodeMap obj = some n →
    aabbSub (s.aabbAt obj) (s.np.getAABB n)
  aabb_wf : ∀ obj n, mapGet s.objectNodeMap obj = some n → wfAabb (s.aabbAt obj)
  keys_nodup : (s.objectNodeMap.map Prod.fst).Nodup
  pend_nodup : (pend.map Prod.fst).Nodup
  sum_eq : sumObjectCounts s + pend.length = s.objectNodeMap.length
  stack_nil : s.stack = []

theorem Inv.toAux {s : Octree} (h : Inv s) : AuxInv s [] :=
  ⟨h.buflen_np, h.count_le, h.root_lt, h.root_parent, h.fc_spec, h.parent_spec,
   h.boxes_wf, h.map_node_lt, fun o n ho _ => h.map_in_list o n ho,
   by simp, h.list_in_map, h.lists_nodup, h.objs_le, h.fits_inv, h.aabb_wf,
   h.keys_nodup, by simp, by simpa using h.sum_eq, h.stack_nil⟩

theorem AuxInv.toInv {s : Octree} (h : AuxInv s []) : Inv s :=
  ⟨h.buflen_np, h.count_le, h.root_lt, h.root_parent, h.fc_spec, h.parent_spec,
   h.boxes_wf, h.map_node_lt, fun o n ho => h.map_in_list o n ho (by simp),
   h.list_in_map, h.lists_nodup, h.objs_le, h.fits_inv, h.aabb_wf,
   h.keys_nodup, by simpa using h.sum_eq, h.stack_nil⟩

/-! ## Node reads through the allocation and assignment folds of `subdivide` -/

namespace OctreeNodePool

theorem foldl_allocate_untouched (m : ℕ) (np : OctreeNodePool) :
    ∀ j, (j < np.count ∨ np.count + m ≤ j) →
    ((List.range m).foldl (fun np _ => np.allocate.1) np).node j = np.node j := by
  induction m with
  | zero => intro j _; rfl
  | succ m ih =>
    intro j hj
    rw [List.range_succ, List.foldl_append]
    have hcnt := (foldl_allocate_spec (List.range m) np).1
    simp only [List.foldl_cons, List.foldl_nil]
    rw [allocate_node_other, ih j (by omega)]
    rw [hcnt, List.length_range]
    omega

theorem foldl_allocate_fresh (m : ℕ) (np : OctreeNodePool)
    (hlen : np.count + m ≤ np.buf.length) :
    ∀ k, k < m →
    ((List.range m).foldl (fun np _ => np.allocate.1) np).node (np.count + k) =
      { np.node (np.count + k) with firstChild := -1, parent := -1, objs := [] } := by
  induction m with
  | zero => omega
  | succ m ih =>
    intro k hk
    rw [List.range_succ, List.foldl_append]
    simp only [List.foldl_cons, List.foldl_nil]
    have hcnt := (foldl_allocate_spec (List.range m) np).1
    have hblen := (foldl_allocate_spec (List.range m) np).2.2
    rcases Nat.lt_or_ge k m with hkm | hkm
    · rw [allocate_node_other (by rw [hcnt, List.length_range]; omega)]
      exact ih (by omega) k hkm
    · have hk' : k = m := by omega
      rw [hk']
      have hc2 : ((List.range m).foldl (fun np _ => np.allocate.1) np).count = np.count + m := by
        rw [hcnt, List.length_range]
      rw [← hc2]
      rw [allocate_node_self (by rw [hc2, hblen]; omega)]
      rw [hc2, foldl_allocate_untouched m np _ (Or.inr (le_refl _))]

theorem foldl_assign_untouched (m : ℕ) (np : OctreeNodePool) (c n : ℕ) (box : Aabb) :
    ∀ j, (j < c ∨ c + m ≤ j) →
    ((List.range m).foldl (fun np i => ((np.setAABB (c + i) (Octree.octantBox box i)).setParent
      (c + i) (n : ℤ))) np).node j = np.node j := by
  induction m generalizing np with
  | zero => intro j _; rfl
  | succ m ih =>
    intro j hj
    rw [List.range_succ, List.foldl_append]
    simp only [List.foldl_cons, List.foldl_nil]
    rw [setParent_node_other _ (by omega), setAABB_node_other _ (by omega)]
    exact ih np j (by omega)

theorem foldl_assign_self (m : ℕ) (np : OctreeNodePool) (c n : ℕ) (box : Aabb)
    (hlen : c + m ≤ np.buf.length) :
    ∀ k, k < m →
    ((List.range m).foldl (fun np i => ((np.setAABB (c + i) (Octree.octantBox box i)).setParent
      (c + i) (n : ℤ))) np).node (c + k) =
      { np.node (c + k) with box := Octree.octantBox box k, parent := (n : ℤ) } := by
  induction m generalizing np with
  | zero => omega
  | succ m ih =>
    intro k hk
    rw [List.range_succ, List.foldl_append]
    simp only [List.foldl_cons, List.foldl_nil]
    have hblen := (foldl_assign_spec (List.range m) np c n box).2.2
    rcases Nat.lt_or_ge k m with hkm | hkm
    · rw [setParent_node_other _ (by omega), setAABB_node_other _ (by omega)]
      exact ih np (by omega) k hkm
    · have hk' : k = m := by omega
      rw [hk']
      rw [setParent_node_self _ (by simp [hblen]; omega)]
      rw [setAABB_node_self _ (by rw [hblen]; omega)]
      rw [foldl_assign_untouched m np c n box _ (Or.inr (le_refl _))]

end OctreeNodePool

namespace Octree

/-- Running `subdivide` step by step: the structural phase allocates the 8
children, links them, assigns the octant AABBs and clears the node's list,
then the redistribution loop runs on the saved objects. -/
theorem subdivide_run (f : ℕ) (s : Octree) (nodeIdx : ℕ)
    (hlen : s.np.buf.length = s.np.cap) (hcap8 : s.np.count + 8 ≤ s.np.cap)
    (hn : nodeIdx < s.np.count) :
    ∃ smid, subdivide f s nodeIdx = redistribute f smid nodeIdx (s.np.node nodeIdx).objs ∧
    smid.ap = s.ap ∧ smid.root = s.root ∧ smid.stack = s.stack ∧
    smid.objectNodeMap = s.objectNodeMap ∧
    smid.np.count = s.np.count + 8 ∧ smid.np.cap = s.np.cap ∧
    smid.np.buf.length = s.np.buf.length ∧
    smid.np.node nodeIdx =
      { s.np.node nodeIdx with firstChild := (s.np.count : ℤ), objs := [] } ∧
    (∀ i, i < 8 → smid.np.node (s.np.count + i) =
      { box := octantBox (s.np.getAABB nodeIdx) i, firstChild := -1,
        parent := (nodeIdx : ℤ), objs := [] }) ∧
    (∀ j, j < s.np.count → j ≠ nodeIdx → smid.np.node j = s.np.node j) := by
  rw [subdivide]
  simp only [OctreeNodePool.allocate_idx]
  set np1 := s.np.allocate.1 with hnp1
  set np2 := (List.range 7).foldl (fun np _ => np.allocate.1) np1 with hnp2
  set np3 := np2.setFirstChild nodeIdx ((s.np.count : ℕ) : ℤ) with hnp3
  set np4 := (List.range 8).foldl
    (fun np i => ((np.setAABB (s.np.count + i) (octantBox (s.np.getAABB nodeIdx) i)).setParent
      (s.np.count + i) (nodeIdx : ℤ))) np3 with hnp4
  set np5 := np4.clearObjects nodeIdx with hnp5
  -- facts about the intermediate pools
  have h1c : np1.count = s.np.count + 1 := by simp [hnp1]
  have h1len : np1.buf.length = s.np.buf.length := by simp [hnp1]
  have h1cap : np1.cap = s.np.cap := by simp [hnp1]
  have h2c : np2.count = s.np.count + 8 := by
    rw [hnp2, (foldl_allocate_spec _ _).1, h1c, List.length_range]
  have h2len : np2.buf.length = s.np.buf.length := by
    rw [hnp2, (foldl_allocate_spec _ _).2.2, h1len]
  have h2cap : np2.cap = s.np.cap := by
    rw [hnp2, (foldl_allocate_spec _ _).2.1, h1cap]
  have h4len : np4.buf.length = s.np.buf.length := by
    rw [hnp4, (foldl_assign_spec _ _ _ _ _).2.2]
    simp [hnp3, h2len]
  have h4cap : np4.cap = s.np.cap := by
    rw [hnp4, (foldl_assign_spec _ _ _ _ _).2.1]
    simp [hnp3, h2cap]
  have h4c : np4.count = s.np.count + 8 := by
    rw [hnp4, (foldl_assign_spec _ _ _ _ _).1]
    simp [hnp3, h2c]
  -- node reads below the old count (other than nodeIdx) are unchanged
  have hold : ∀ j, j < s.np.count → j ≠ nodeIdx → np4.node j = s.np.node j := by
    intro j hj hne
    rw [hnp4, OctreeNodePool.foldl_assign_untouched _ _ _ _ _ _ (Or.inl hj)]
    rw [hnp3, OctreeNodePool.setFirstChild_node_other _ hne]
    rw [hnp2, OctreeNodePool.foldl_allocate_untouched _ _ _ (Or.inl (by omega))]
    rw [hnp1, OctreeNodePool.allocate_node_other (by omega)]
  -- the subdivided node itself: firstChild updated, rest unchanged
  have hself : np4.node nodeIdx = { s.np.node nodeIdx with firstChild := ((s.np.count : ℕ) : ℤ) } := by
    rw [hnp4, OctreeNodePool.foldl_assign_untouched _ _ _ _ _ _ (Or.inl hn)]
    rw [hnp3, OctreeNodePool.setFirstChild_node_self _ (by rw [h2len, hlen]; omega)]
    rw [hnp2, OctreeNodePool.foldl_allocate_untouched _ _ _ (Or.inl (by omega))]
    rw [hnp1, OctreeNodePool.allocate_node_other (by omega)]
  -- the fresh children
  have hchild : ∀ i, i < 8 → np4.node (s.np.count + i) =
      { box := octantBox (s.np.getAABB nodeIdx) i, firstChild := -1,
        parent := (nodeIdx : ℤ), objs := [] } := by
    intro i hi
    rw [hnp4, OctreeNodePool.foldl_assign_self _ _ _ _ _ (by
      simp [hnp3, h2len, hlen]; omega) i hi]
    rw [hnp3, OctreeNodePool.setFirstChild_node_other _ (by omega)]
    have hfresh : np2.node (s.np.count + i) =
        { s.np.node (s.np.count + i) with firstChild := -1, parent := -1, objs := [] } := by
      rcases Nat.eq_zero_or_pos i with rfl | hpos
      · rw [hnp2, OctreeNodePool.foldl_allocate_untouched _ _ _ (by omega)]
        rw [hnp1]
        have := OctreeNodePool.allocate_node_self (p := s.np) (by rw [hlen]; omega)
        simpa using this
      · have := OctreeNodePool.foldl_allocate_fresh 7 np1
          (by rw [h1c, h1len, hlen]; omega) (i - 1) (by omega)
        rw [hnp2]
        have harg : np1.count + (i - 1) = s.np.count + i := by rw [h1c]; omega
        rw [harg] at this
        rw [this]
        rw [hnp1, OctreeNodePool.allocate_node_other (by omega)]
    rw [hfresh]
  have hsaved : (np4.node nodeIdx).objs = (s.np.node nodeIdx).objs := by rw [hself]
  refine ⟨{ s with np := np5 }, ?_, rfl, rfl, rfl, rfl, ?_, ?_, ?_, ?_, ?_, ?_⟩
  · rw [hsaved]
  · simp [hnp5, h4c]
  · simp [hnp5, h4cap]
  · simp [hnp5, h4len]
  · rw [hnp5]
    show (np4.clearObjects nodeIdx).node nodeIdx = _
    rw [OctreeNodePool.clearObjects_node_self (by rw [h4len, hlen]; omega), hself]
  · intro i hi
    rw [hnp5]
    show (np4.clearObjects nodeIdx).node (s.np.count + i) = _
    rw [OctreeNodePool.clearObjects_node_other (by omega), hchild i hi]
  · intro j hj hne
    rw [hnp5]
    show (np4.clearObjects nodeIdx).node j = _
    rw [OctreeNodePool.clearObjects_node_other hne, hold j hj hne]

end Octree

/-- Object `o` is neither tracked by the map nor present in any node list. -/
def freeObj (s : Octree) (o : ℕ) : Prop :=
  mapGet s.objectNodeMap o = none ∧ ∀ n, n < s.np.count → o ∉ (s.np.node n).objs

/-- The state produced by a successful `addObject`+`map.set` pair at node `m`. -/
def appendForm (s : Octree) (m obj : ℕ) : Octree :=
  { s with np := s.np.modifyNode m fun nd => { nd with objs := nd.objs ++ [obj] },
           objectNodeMap := mapSet s.objectNodeMap obj m }

theorem appendForm_getters (s : Octree) (m obj : ℕ) :
    (∀ j, (appendForm s m obj).np.getFirstChild j = s.np.getFirstChild j) ∧
    (∀ j, (appendForm s m obj).np.getParent j = s.np.getParent j) ∧
    (∀ j, (appendForm s m obj).np.getAABB j = s.np.getAABB j) := by
  have key : ∀ j, ((appendForm s m obj).np.node j).firstChild = (s.np.node j).firstChild ∧
      ((appendForm s m obj).np.node j).parent = (s.np.node j).parent ∧
      ((appendForm s m obj).np.node j).box = (s.np.node j).box := by
    intro j
    rcases eq_or_ne j m with rfl | hne
    · rcases Nat.lt_or_ge j s.np.buf.length with hlt | hge
      · have heq : (appendForm s j obj).np.node j =
            { s.np.node j with objs := (s.np.node j).objs ++ [obj] } :=
          OctreeNodePool.node_modify_self hlt
        rw [heq]
        exact ⟨rfl, rfl, rfl⟩
      · have heq : (appendForm s j obj).np = s.np := by
          show s.np.modifyNode j (fun nd => { nd with objs := nd.objs ++ [obj] }) = s.np
          exact OctreeNodePool.modify_oob hge
        rw [heq]
        exact ⟨rfl, rfl, rfl⟩
    · have heq : (appendForm s m obj).np.node j = s.np.node j :=
        OctreeNodePool.node_modify_other hne
      rw [heq]
      exact ⟨rfl, rfl, rfl⟩
  exact ⟨fun j => (key j).1, fun j => (key j).2.1, fun j => (key j).2.2⟩

theorem appendForm_objs_self (s : Octree) {m : ℕ} (obj : ℕ) (hm : m < s.np.buf.length) :
    ((appendForm s m obj).np.node m).objs = (s.np.node m).objs ++ [obj] := by
  show ((s.np.modifyNode m _).node m).objs = _
  rw [OctreeNodePool.node_modify_self hm]

theorem appendForm_objs_other (s : Octree) {m j : ℕ} (obj : ℕ) (hne : j ≠ m) :
    (appendForm s m obj).np.node j = s.np.node j :=
  OctreeNodePool.node_modify_other hne

/-- Appending a fresh object to a node with room preserves the generalised
invariant. -/
theorem insert_direct {s : Octree} {pend : List (ℕ × ℕ)} {m obj : ℕ}
    (hinv : AuxInv s pend) (hpend : obj ∉ pend.map Prod.fst) (hfree : freeObj s obj)
    (hwf : wfAabb (s.aabbAt obj)) (hfits : aabbSub (s.aabbAt obj) (s.np.getAABB m))
    (hm : m < s.np.count) (hroom : (s.np.node m).objs.length < MAX_OBJECTS_PER_NODE) :
    AuxInv (appendForm s m obj) pend ∧
    (∀ o, o ≠ obj → freeObj s o → freeObj (appendForm s m obj) o) := by
  obtain ⟨hgfc, hgpar, hgbox⟩ := appendForm_getters s m obj
  have hmlen : m < s.np.buf.length := by
    rw [hinv.buflen_np]
    have := hinv.count_le
    omega
  have hobjs_self := appendForm_objs_self s obj hmlen
  have hcount : (appendForm s m obj).np.count = s.np.count := rfl
  have hcap : (appendForm s m obj).np.cap = s.np.cap := rfl
  have hblen : (appendForm s m obj).np.buf.length = s.np.buf.length := by
    show (s.np.modifyNode m _).buf.length = _
    simp
  have hap : (appendForm s m obj).ap = s.ap := rfl
  have haabbAt : ∀ o, (appendForm s m obj).aabbAt o = s.aabbAt o := fun _ => rfl
  have hmapget_obj : mapGet (appendForm s m obj).objectNodeMap obj = some m :=
    mapGet_set_self _ _ _
  have hmapget_other : ∀ o, o ≠ obj →
      mapGet (appendForm s m obj).objectNodeMap o = mapGet s.objectNodeMap o :=
    fun o ho => mapGet_set_other _ _ ho
  have hobjs : ∀ j, j < s.np.count →
      ∀ o, o ∈ ((appendForm s m obj).np.node j).objs ↔
        (o ∈ (s.np.node j).objs ∨ (j = m ∧ o = obj)) := by
    intro j hj o
    rcases eq_or_ne j m with rfl | hne
    · rw [hobjs_self]
      simp
    · rw [appendForm_objs_other s obj hne]
      simp [hne]
  refine ⟨⟨?_, ?_, ?_, ?_, ?_, ?_, ?_, ?_, ?_, ?_, ?_, ?_, ?_, ?_, ?_, ?_, ?_, ?_, ?_⟩, ?_⟩
  · rw [hblen, hcap, hinv.buflen_np]
  · rw [hcount, hcap]; exact hinv.count_le
  · rw [hcount]; exact hinv.root_lt
  · show (appendForm s m obj).np.getParent s.root = -1
    rw [hgpar]; exact hinv.root_parent
  · intro n hn
    rw [hcount] at hn
    rcases hinv.fc_spec n hn with h | ⟨c, hc, h1, h2, h3⟩
    · exact Or.inl (by rw [hgfc]; exact h)
    · refine Or.inr ⟨c, by rw [hgfc]; exact hc, h1, by rw [hcount]; exact h2, ?_⟩
      intro i hi
      obtain ⟨hp, hb⟩ := h3 i hi
      exact ⟨by rw [hgpar]; exact hp, by rw [hgbox, hgbox]; exact hb⟩
  · intro j hj hne
    rw [hcount] at hj
    obtain ⟨p, hp, h1, c, hc, h2, h3⟩ := hinv.parent_spec j hj hne
    exact ⟨p, by rw [hgpar]; exact hp, h1, c, by rw [hgfc]; exact hc, h2, h3⟩
  · intro n hn
    rw [hcount] at hn
    rw [hgbox]
    exact hinv.boxes_wf n hn
  · intro o n ho
    rw [hcount]
    rcases eq_or_ne o obj with rfl | hne
    · rw [hmapget_obj] at ho
      cases ho; omega
    · rw [hmapget_other o hne] at ho
      exact hinv.map_node_lt o n ho
  · intro o n ho hop
    rcases eq_or_ne o obj with rfl | hne
    · rw [hmapget_obj] at ho
      cases ho
      rw [hobjs_self]
      simp
    · rw [hmapget_other o hne] at ho
      have hn := hinv.map_node_lt o n ho
      rw [hobjs n hn]
      exact Or.inl (hinv.map_in_list o n ho hop)
  · intro q hq
    obtain ⟨hq1, hq2⟩ := hinv.pend_spec q hq
    have hqne : q.1 ≠ obj := by
      intro he
      exact hpend (he ▸ List.mem_map_of_mem Prod.fst hq)
    refine ⟨by rw [hmapget_other q.1 hqne]; exact hq1, ?_⟩
    intro n hn
    rw [hcount] at hn
    rw [hobjs n hn]
    push_neg
    exact ⟨hq2 n hn, fun _ => hqne⟩
  · intro n hn o ho
    rw [hcount] at hn
    rw [hobjs n hn] at ho
    rcases ho with ho | ⟨rfl, rfl⟩
    · have := hinv.list_in_map n hn o ho
      have hone : o ≠ obj := by
        intro he
        exact absurd (he ▸ this) (by rw [hfree.1]; simp)
      rw [hmapget_other o hone]
      exact this
    · exact hmapget_obj
  · intro n hn
    rw [hcount] at hn
    rcases eq_or_ne n m with rfl | hne
    · rw [hobjs_self]
      refine List.Nodup.append (hinv.lists_nodup n hn) (by simp) ?_
      intro a ha hb
      simp only [List.mem_singleton] at hb
      subst hb
      exact hfree.2 n hn ha
    · rw [appendForm_objs_other s obj hne]
      exact hinv.lists_nodup n hn
  · intro n hn
    rw [hcount] at hn
    rcases eq_or_ne n m with rfl | hne
    · rw [hobjs_self]
      simp only [List.length_append, List.length_singleton]
      omega
    · rw [appendForm_objs_other s obj hne]
      exact hinv.objs_le n hn
  · intro o n ho
    rw [haabbAt]
    rw [show (appendForm s m obj).np.getAABB n = s.np.getAABB n from hgbox n]
    rcases eq_or_ne o obj with rfl | hne
    · rw [hmapget_obj] at ho
      cases ho
      exact hfits
    · rw [hmapget_other o hne] at ho
      exact hinv.fits_inv o n ho
  · intro o n ho
    rw [haabbAt]
    rcases eq_or_ne o obj with rfl | hne
    · exact hwf
    · rw [hmapget_other o hne] at ho
      exact hinv.aabb_wf o n ho
  · exact mapSet_keys_nodup _ _ hinv.keys_nodup
  · exact hinv.pend_nodup
  · have hsum : sumObjectCounts (appendForm s m obj) = sumObjectCounts s + 1 := by
      unfold sumObjectCounts
      rw [hcount]
      have hupd := @sum_range_update (fun n => (s.np.node n).objs.length)
        (fun n => ((appendForm s m obj).np.node n).objs.length) s.np.count m hm
        (fun j hj => by
          show ((appendForm s m obj).np.node j).objs.length = (s.np.node j).objs.length
          rw [appendForm_objs_other s obj hj])
      have hupd' : ((List.range s.np.count).map
            fun n => ((appendForm s m obj).np.node n).objs.length).sum +
            (s.np.node m).objs.length
          = ((List.range s.np.count).map fun n => (s.np.node n).objs.length).sum +
            ((appendForm s m obj).np.node m).objs.length := hupd
      rw [hobjs_self] at hupd'
      simp only [List.length_append, List.length_singleton] at hupd'
      omega
    rw [hsum]
    show _ = (mapSet s.objectNodeMap obj m).length
    rw [mapSet_length_new _ hfree.1]
    have := hinv.sum_eq
    omega
  · show s.stack = []
    exact hinv.stack_nil
  · intro o hone hfo
    refine ⟨by rw [hmapget_other o hone]; exact hfo.1, ?_⟩
    intro n hn
    rw [hcount] at hn
    rw [hobjs n hn]
    push_neg
    exact ⟨hfo.2 n hn, fun _ => hone⟩

namespace Octree

/-! ### One-step characterisations of `insertIntoNode` -/

theorem insertIntoNode_zero (s : Octree) (n o : ℕ) :
    insertIntoNode 0 s n o = (s, some Exn.fuelOut) := by
  rw [insertIntoNode]

theorem insertIntoNode_descend {s : Octree} {nodeIdx obj i0 : ℕ} (f : ℕ)
    (hfc : s.np.getFirstChild nodeIdx ≠ -1)
    (hfind : (List.range 8).find?
      (fun i => s.fitsInNode obj ((s.np.getFirstChild nodeIdx).toNat + i)) = some i0) :
    insertIntoNode (f + 1) s nodeIdx obj =
      insertIntoNode f s ((s.np.getFirstChild nodeIdx).toNat + i0) obj := by
  rw [insertIntoNode, if_pos hfc, hfind]

theorem insertIntoNode_straddle {s : Octree} {nodeIdx obj : ℕ} (f : ℕ)
    (hfc : s.np.getFirstChild nodeIdx ≠ -1)
    (hfind : (List.range 8).find?
      (fun i => s.fitsInNode obj ((s.np.getFirstChild nodeIdx).toNat + i)) = none)
    (hroom : (s.np.node nodeIdx).objs.length < MAX_OBJECTS_PER_NODE) :
    insertIntoNode (f + 1) s nodeIdx obj = (appendForm s nodeIdx obj, none) := by
  rw [insertIntoNode, if_pos hfc, hfind, OctreeNodePool.addObject_ok hroom]
  rfl

theorem insertIntoNode_straddle_full {s : Octree} {nodeIdx obj : ℕ} (f : ℕ)
    (hfc : s.np.getFirstChild nodeIdx ≠ -1)
    (hfind : (List.range 8).find?
      (fun i => s.fitsInNode obj ((s.np.getFirstChild nodeIdx).toNat + i)) = none)
    (hfull : MAX_OBJECTS_PER_NODE ≤ (s.np.node nodeIdx).objs.length) :
    insertIntoNode (f + 1) s nodeIdx obj = (s, some Exn.range) := by
  rw [insertIntoNode, if_pos hfc, hfind, OctreeNodePool.addObject_full hfull]

theorem insertIntoNode_leaf_add {s : Octree} {nodeIdx obj : ℕ} (f : ℕ)
    (hfc : s.np.getFirstChild nodeIdx = -1)
    (hroom : s.np.getObjectCount nodeIdx < MAX_OBJECTS_PER_NODE) :
    insertIntoNode (f + 1) s nodeIdx obj = (appendForm s nodeIdx obj, none) := by
  rw [insertIntoNode, if_neg (by rw [hfc]; simp), if_pos hroom,
    OctreeNodePool.addObject_ok hroom]
  rfl

/-- A "shallow" insertion: the target node is internal, its eight children
are leaves, and both the node and every child have room.  This is the shape
of every insertion performed by the redistribution loop; it cannot throw
`RangeError`, and with enough fuel the object lands either in the first
fitting child or at the node itself. -/
theorem insert_shallow (f : ℕ) (s : Octree) (nodeIdx obj c : ℕ)
    (hfc : s.np.getFirstChild nodeIdx = (c : ℤ))
    (hleaves : ∀ i, i < 8 → s.np.getFirstChild (c + i) = -1)
    (hroom0 : (s.np.node nodeIdx).objs.length < MAX_OBJECTS_PER_NODE)
    (hroomc : ∀ i, i < 8 → (s.np.node (c + i)).objs.length < MAX_OBJECTS_PER_NODE) :
    (insertIntoNode f s nodeIdx obj).2 ≠ some Exn.range ∧
    ((insertIntoNode f s nodeIdx obj).2 = some Exn.fuelOut →
      (insertIntoNode f s nodeIdx obj).1 = s) ∧
    ((insertIntoNode f s nodeIdx obj).2 = none →
      ∃ m, insertIntoNode f s nodeIdx obj = (appendForm s m obj, none) ∧
        (s.np.node m).objs.length < MAX_OBJECTS_PER_NODE ∧
        (m = nodeIdx ∨ ∃ i, i < 8 ∧ m = c + i ∧ s.fitsInNode obj m = true)) := by
  have hfcne : s.np.getFirstChild nodeIdx ≠ -1 := by rw [hfc]; omega
  match f with
  | 0 =>
    rw [insertIntoNode_zero]
    exact ⟨by simp, fun _ => rfl, by simp⟩
  | f + 1 =>
    cases hfind : (List.range 8).find?
        (fun i => s.fitsInNode obj ((s.np.getFirstChild nodeIdx).toNat + i)) with
    | none =>
      rw [insertIntoNode_straddle f hfcne hfind hroom0]
      exact ⟨by simp, by simp, fun _ => ⟨nodeIdx, rfl, hroom0, Or.inl rfl⟩⟩
    | some i0 =>
      have hi0 : i0 < 8 := by
        have := List.mem_of_find?_eq_some hfind
        simpa using this
      have hfit : s.fitsInNode obj ((s.np.getFirstChild nodeIdx).toNat + i0) = true := by
        have := List.find?_some hfind
        simpa using this
      have htn : (s.np.getFirstChild nodeIdx).toNat = c := by rw [hfc]; simp
      rw [insertIntoNode_descend f hfcne hfind, htn]
      rw [htn] at hfit
      have hlf : s.np.getFirstChild (c + i0) = -1 := hleaves i0 hi0
      match f with
      | 0 =>
        rw [insertIntoNode_zero]
        exact ⟨by simp, fun _ => rfl, by simp⟩
      | f + 1 =>
        rw [insertIntoNode_leaf_add f hlf (hroomc i0 hi0)]
        exact ⟨by simp, by simp, fun _ => ⟨c + i0, rfl, hroomc i0 hi0,
          Or.inr ⟨i0, hi0, rfl, hfit⟩⟩⟩

end Octree

theorem sum_range8_update {g g' : ℕ → ℕ} {i0 : ℕ} (h0 : i0 < 8)
    (hup : g' i0 = g i0 + 1) (hoth : ∀ i, i < 8 → i ≠ i0 → g' i = g i) :
    ∑ i in Finset.range 8, g' i = (∑ i in Finset.range 8, g i) + 1 := by
  have hmem : i0 ∈ Finset.range 8 := Finset.mem_range.2 h0
  rw [← Finset.sum_erase_add _ g' hmem, ← Finset.sum_erase_add _ g hmem, hup]
  have : ∑ x in (Finset.range 8).erase i0, g' x = ∑ x in (Finset.range 8).erase i0, g x :=
    Finset.sum_congr rfl fun x hx =>
      hoth x (Finset.mem_range.1 (Finset.mem_of_mem_erase hx)) (Finset.ne_of_mem_erase hx)
  omega

/-- Deleting the map entry of a pending object turns it into a free object
and shrinks the pending list accordingly. -/
theorem pend_delete {s : Octree} {pend1 pend2 : List (ℕ × ℕ)} {obj nodeIdx : ℕ}
    (hinv : AuxInv s (pend1 ++ (obj, nodeIdx) :: pend2)) :
    AuxInv { s with objectNodeMap := mapDelete s.objectNodeMap obj } (pend1 ++ pend2) ∧
    freeObj { s with objectNodeMap := mapDelete s.objectNodeMap obj } obj ∧
    mapGet s.objectNodeMap obj = some nodeIdx ∧
    obj ∉ (pend1 ++ pend2).map Prod.fst := by
  have hmem : (obj, nodeIdx) ∈ pend1 ++ (obj, nodeIdx) :: pend2 := by simp
  have hobj_tracked : mapGet s.objectNodeMap obj = some nodeIdx :=
    (hinv.pend_spec _ hmem).1
  have hobj_nolist : ∀ n, n < s.np.count → obj ∉ (s.np.node n).objs :=
    (hinv.pend_spec _ hmem).2
  have hperm : ((pend1 ++ (obj, nodeIdx) :: pend2).map Prod.fst).Perm
      (obj :: (pend1 ++ pend2).map Prod.fst) := by
    simp only [List.map_append, List.map_cons]
    exact List.perm_middle
  have hkeys2 := (hperm.nodup_iff).1 hinv.pend_nodup
  rw [List.nodup_cons] at hkeys2
  have hkeys' : obj ∉ (pend1 ++ pend2).map Prod.fst := hkeys2.1
  have hget_del_self : mapGet (mapDelete s.objectNodeMap obj) obj = none :=
    mapGet_delete_self _ _ hinv.keys_nodup
  have hget_del : ∀ o, o ≠ obj →
      mapGet (mapDelete s.objectNodeMap obj) o = mapGet s.objectNodeMap o :=
    fun o ho => mapGet_delete_other _ ho
  refine ⟨⟨hinv.buflen_np, hinv.count_le, hinv.root_lt, hinv.root_parent, hinv.fc_spec,
    hinv.parent_spec, hinv.boxes_wf, ?_, ?_, ?_, ?_, hinv.lists_nodup, hinv.objs_le,
    ?_, ?_, ?_, ?_, ?_, hinv.stack_nil⟩, ⟨hget_del_self, hobj_nolist⟩, hobj_tracked, hkeys'⟩
  · intro o n ho
    rcases eq_or_ne o obj with rfl | hne
    · rw [hget_del_self] at ho; cases ho
    · rw [hget_del o hne] at ho
      exact hinv.map_node_lt o n ho
  · intro o n ho hop
    rcases eq_or_ne o obj with rfl | hne
    · rw [hget_del_self] at ho; cases ho
    · rw [hget_del o hne] at ho
      refine hinv.map_in_list o n ho ?_
      simp only [List.map_append, List.map_cons, List.mem_append, List.mem_cons] at hop ⊢
      push_neg
      push_neg at hop
      exact ⟨hop.1, hne, hop.2⟩
  · intro q hq
    have hq' : q ∈ pend1 ++ (obj, nodeIdx) :: pend2 := by
      simp only [List.mem_append] at hq ⊢
      tauto
    have hqne : q.1 ≠ obj := by
      intro he
      exact hkeys' (he ▸ List.mem_map_of_mem Prod.fst hq)
    exact ⟨by rw [hget_del q.1 hqne]; exact (hinv.pend_spec q hq').1,
      (hinv.pend_spec q hq').2⟩
  · intro n hn o ho
    have hone : o ≠ obj := fun he => hobj_nolist n hn (he ▸ ho)
    rw [hget_del o hone]
    exact hinv.list_in_map n hn o ho
  · intro o n ho
    rcases eq_or_ne o obj with rfl | hne
    · rw [hget_del_self] at ho; cases ho
    · rw [hget_del o hne] at ho
      exact hinv.fits_inv o n ho
  · intro o n ho
    rcases eq_or_ne o obj with rfl | hne
    · rw [hget_del_self] at ho; cases ho
    · rw [hget_del o hne] at ho
      exact hinv.aabb_wf o n ho
  · exact mapDelete_keys_nodup _ hinv.keys_nodup
  · exact hkeys2.2
  · have h1 := hinv.sum_eq
    have h2 := mapDelete_length hobj_tracked
    simp only [List.length_append, List.length_cons] at h1 ⊢
    show sumObjectCounts _ + _ = (mapDelete s.objectNodeMap obj).length
    have h3 : sumObjectCounts { s with objectNodeMap := mapDelete s.objectNodeMap obj }
        = sumObjectCounts s := rfl
    omega

namespace Octree

/-- The redistribution loop of `subdivide`: every saved object is re-inserted
shallowly (into the freshly created children or back into the node), no
exception escapes, the node count is unchanged, and the pending list drains. -/
theorem redistribute_spec (f : ℕ) :
    ∀ (rest : List ℕ) (s : Octree) (nodeIdx c : ℕ) (pend : List (ℕ × ℕ)),
    AuxInv s (pend ++ rest.map fun o => (o, nodeIdx)) →
    s.np.getFirstChild nodeIdx = (c : ℤ) →
    nodeIdx < c →
    (∀ i, i < 8 → s.np.getFirstChild (c + i) = -1) →
    (∀ i, i < 8 → c + i < s.np.count) →
    nodeIdx < s.np.count →
    (s.np.node nodeIdx).objs.length +
      (∑ i in Finset.range 8, (s.np.node (c + i)).objs.length) + rest.length ≤ 8 →
    (redistribute f s nodeIdx rest).2 ≠ some Exn.fuelOut →
    (redistribute f s nodeIdx rest).2 = none ∧
    AuxInv (redistribute f s nodeIdx rest).1 pend ∧
    (∀ o, freeObj s o → freeObj (redistribute f s nodeIdx rest).1 o) ∧
    (redistribute f s nodeIdx rest).1.np.count = s.np.count ∧
    (∀ j, (redistribute f s nodeIdx rest).1.np.getAABB j = s.np.getAABB j) := by
  intro rest
  induction rest with
  | nil =>
    intro s nodeIdx c pend hinv _ _ _ _ _ _ _
    rw [redistribute]
    exact ⟨rfl, by simpa using hinv, fun o ho => ho, rfl, fun j => rfl⟩
  | cons obj rest ih =>
    intro s nodeIdx c pend hinv hfc hnc hleaves hclt hn hcount hfuel
    simp only [List.map_cons] at hinv
    obtain ⟨hinv1, hfree1, htracked, hnotkeys⟩ :=
      @pend_delete s pend (rest.map fun o => (o, nodeIdx)) obj nodeIdx hinv
    have hwf_obj : wfAabb (s.aabbAt obj) := hinv.aabb_wf obj nodeIdx htracked
    have hfits_obj : aabbSub (s.aabbAt obj) (s.np.getAABB nodeIdx) :=
      hinv.fits_inv obj nodeIdx htracked
    have hroom0 : (s.np.node nodeIdx).objs.length < MAX_OBJECTS_PER_NODE := by
      show _ < 8
      simp only [List.length_cons] at hcount
      omega
    have hsumle : ∀ i, i < 8 → (s.np.node (c + i)).objs.length ≤
        ∑ i in Finset.range 8, (s.np.node (c + i)).objs.length := by
      intro i hi
      exact Finset.single_le_sum (f := fun i => (s.np.node (c + i)).objs.length)
        (fun _ _ => Nat.zero_le _) (Finset.mem_range.2 hi)
    have hroomc : ∀ i, i < 8 → (s.np.node (c + i)).objs.length < MAX_OBJECTS_PER_NODE := by
      intro i hi
      show _ < 8
      have := hsumle i hi
      simp only [List.length_cons] at hcount
      omega
    rw [redistribute] at hfuel ⊢
    set s1 : Octree := { s with objectNodeMap := mapDelete s.objectNodeMap obj } with hs1
    have hs1np : s1.np = s.np := rfl
    have hsh := insert_shallow f s1 nodeIdx obj c hfc hleaves hroom0 hroomc
    rcases heq : insertIntoNode f s1 nodeIdx obj with ⟨s2, e2⟩
    rw [heq] at hsh hfuel
    match e2 with
    | some Exn.range => exact absurd rfl hsh.1
    | some Exn.fuelOut => exact absurd rfl hfuel
    | none =>
      obtain ⟨m, hs2eq, hroom_m, hm_loc⟩ := hsh.2.2 rfl
      obtain ⟨rfl, -⟩ : s2 = appendForm s1 m obj ∧ True := by
        refine ⟨?_, trivial⟩
        have := congrArg Prod.fst hs2eq
        simpa using this
      have hm_lt : m < s.np.count := by
        rcases hm_loc with rfl | ⟨i, hi, rfl, _⟩
        · exact hn
        · exact hclt i hi
      have hfits_m : aabbSub (s1.aabbAt obj) (s1.np.getAABB m) := by
        rcases hm_loc with rfl | ⟨i, hi, rfl, hfit⟩
        · exact hfits_obj
        · exact (fitsInNode_iff s1 obj _).1 hfit
      obtain ⟨hinv2, hfreepres2⟩ := @insert_direct s1 _ m obj hinv1 hnotkeys hfree1
        hwf_obj hfits_m hm_lt hroom_m
      -- lengths in the appended state
      have hmblen : m < s1.np.buf.length := by
        rw [hs1np, hinv.buflen_np]
        have := hinv.count_le
        omega
      have hlen_self := appendForm_objs_self s1 obj hmblen
      have hcount2 : ((appendForm s1 m obj).np.node nodeIdx).objs.length +
          (∑ i in Finset.range 8, ((appendForm s1 m obj).np.node (c + i)).objs.length) +
          rest.length ≤ 8 := by
        simp only [List.length_cons] at hcount
        rcases hm_loc with rfl | ⟨i0, hi0, rfl, -⟩
        · rw [hlen_self]
          have hsame : ∀ i, i < 8 →
              ((appendForm s1 m obj).np.node (c + i)).objs = (s.np.node (c + i)).objs := by
            intro i hi
            rw [appendForm_objs_other s1 obj (by omega)]
          have : ∑ i in Finset.range 8, ((appendForm s1 m obj).np.node (c + i)).objs.length
              = ∑ i in Finset.range 8, (s.np.node (c + i)).objs.length :=
            Finset.sum_congr rfl fun i hi => by rw [hsame i (Finset.mem_range.1 hi)]
          rw [this]
          simp only [List.length_append, List.length_singleton]
          omega
        · have hne_node : nodeIdx ≠ c + i0 := by omega
          rw [appendForm_objs_other s1 obj hne_node]
          have hupd : ∑ i in Finset.range 8,
              ((appendForm s1 (c + i0) obj).np.node (c + i)).objs.length
              = (∑ i in Finset.range 8, (s.np.node (c + i)).objs.length) + 1 := by
            refine sum_range8_update hi0 ?_ ?_
            · rw [hlen_self]
              simp
            · intro i hi hne
              rw [appendForm_objs_other s1 obj (by omega)]
          rw [hupd]
          have hsame1 : (s1.np.node nodeIdx).objs.length = (s.np.node nodeIdx).objs.length := rfl
          omega
      obtain ⟨hgfc2, hgpar2, hgbox2⟩ := appendForm_getters s1 m obj
      have hcount_eq : (appendForm s1 m obj).np.count = s.np.count := rfl
      have hres := ih (appendForm s1 m obj) nodeIdx c pend hinv2
        (by rw [hgfc2 nodeIdx]; exact hfc) hnc
        (fun i hi => by rw [hgfc2 (c + i)]; exact hleaves i hi)
        (fun i hi => by rw [hcount_eq]; exact hclt i hi)
        (by rw [hcount_eq]; exact hn) hcount2 hfuel
      refine ⟨hres.1, hres.2.1, ?_, by rw [hres.2.2.2.1, hcount_eq], ?_⟩
      · intro o ho
        have ho_ne : o ≠ obj := by
          intro he
          subst he
          rw [ho.1] at htracked
          cases htracked
        refine hres.2.2.1 o ?_
        refine hfreepres2 o ho_ne ?_
        exact ⟨(mapGet_delete_other s.objectNodeMap ho_ne).trans ho.1, ho.2⟩
      · intro j
        rw [hres.2.2.2.2 j]
        exact hgbox2 j

end Octree

/-- Variant of `sum_range_update` needing the agreement of the summands only
on the summation range. -/
theorem sum_range_update_lt (f g : ℕ → ℕ) {count i : ℕ} (hi : i < count)
    (hother : ∀ j, j < count → j ≠ i → g j = f j) :
    ((List.range count).map g).sum + f i = ((List.range count).map f).sum + g i := by
  rw [range_map_sum, range_map_sum]
  have hmem : i ∈ Finset.range count := Finset.mem_range.2 hi
  rw [← Finset.sum_erase_add _ g hmem, ← Finset.sum_erase_add _ f hmem]
  have : ∑ x in (Finset.range count).erase i, g x
       = ∑ x in (Finset.range count).erase i, f x :=
    Finset.sum_congr rfl fun x hx => hother x
      (Finset.mem_range.1 (Finset.mem_of_mem_erase hx)) (Finset.ne_of_mem_erase hx)
  rw [this]
  omega

namespace Octree

/-- `subdivide` of a full leaf preserves the generalised invariant when the
pool has room for the eight children: the structural phase creates well-shaped
children and the redistribution loop re-inserts every saved object. -/
theorem subdivide_spec (f : ℕ) (s : Octree) (nodeIdx : ℕ) (pend : List (ℕ × ℕ))
    (hinv : AuxInv s pend)
    (hn : nodeIdx < s.np.count)
    (hleaf : s.np.getFirstChild nodeIdx = -1)
    (hfull : (s.np.node nodeIdx).objs.length = 8)
    (hcap8 : s.np.count + 8 ≤ s.np.cap)
    (hfuel : (subdivide f s nodeIdx).2 ≠ some Exn.fuelOut) :
    (subdivide f s nodeIdx).2 = none ∧
    AuxInv (subdivide f s nodeIdx).1 pend ∧
    (∀ o, freeObj s o → freeObj (subdivide f s nodeIdx).1 o) ∧
    (subdivide f s nodeIdx).1.np.count = s.np.count + 8 ∧
    (subdivide f s nodeIdx).1.np.getAABB nodeIdx = s.np.getAABB nodeIdx := by
  obtain ⟨smid, hrun, hap, hroot, hstack, hmap, hcnt, hcap, hblen, hnode_self,
    hnode_child, hnode_old⟩ := subdivide_run f s nodeIdx hinv.buflen_np hcap8 hn
  -- getter facts in the intermediate state
  have hg_fc_self : smid.np.getFirstChild nodeIdx = (s.np.count : ℤ) := by
    show (smid.np.node nodeIdx).firstChild = _
    rw [hnode_self]
  have hg_fc_child : ∀ i, i < 8 → smid.np.getFirstChild (s.np.count + i) = -1 := by
    intro i hi
    show (smid.np.node (s.np.count + i)).firstChild = _
    rw [hnode_child i hi]
  have hg_par_child : ∀ i, i < 8 → smid.np.getParent (s.np.count + i) = (nodeIdx : ℤ) := by
    intro i hi
    show (smid.np.node (s.np.count + i)).parent = _
    rw [hnode_child i hi]
  have hg_box_child : ∀ i, i < 8 →
      smid.np.getAABB (s.np.count + i) = octantBox (s.np.getAABB nodeIdx) i := by
    intro i hi
    show (smid.np.node (s.np.count + i)).box = _
    rw [hnode_child i hi]
  have hg_objs_child : ∀ i, i < 8 → (smid.np.node (s.np.count + i)).objs = [] := by
    intro i hi
    rw [hnode_child i hi]
  have hg_objs_self : (smid.np.node nodeIdx).objs = [] := by rw [hnode_self]
  have hg_box_self : smid.np.getAABB nodeIdx = s.np.getAABB nodeIdx := by
    show (smid.np.node nodeIdx).box = _
    rw [hnode_self]
    rfl
  have hg_par_self : smid.np.getParent nodeIdx = s.np.getParent nodeIdx := by
    show (smid.np.node nodeIdx).parent = _
    rw [hnode_self]
    rfl
  have hg_box_old : ∀ j, j < s.np.count → smid.np.getAABB j = s.np.getAABB j := by
    intro j hj
    rcases eq_or_ne j nodeIdx with rfl | hne
    · exact hg_box_self
    · show (smid.np.node j).box = _
      rw [hnode_old j hj hne]
      rfl
  have hg_par_old : ∀ j, j < s.np.count → smid.np.getParent j = s.np.getParent j := by
    intro j hj
    rcases eq_or_ne j nodeIdx with rfl | hne
    · exact hg_par_self
    · show (smid.np.node j).parent = _
      rw [hnode_old j hj hne]
      rfl
  have hwfn : wfAabb (s.np.getAABB nodeIdx) := hinv.boxes_wf nodeIdx hn
  have hsavednd : (s.np.node nodeIdx).objs.Nodup := hinv.lists_nodup nodeIdx hn
  have hsaved_tracked : ∀ o ∈ (s.np.node nodeIdx).objs,
      mapGet s.objectNodeMap o = some nodeIdx :=
    fun o ho => hinv.list_in_map nodeIdx hn o ho
  have hkeys_saved :
      ((s.np.node nodeIdx).objs.map fun o => (o, nodeIdx)).map Prod.fst
        = (s.np.node nodeIdx).objs := by
    simp [List.map_map, Function.comp_def]
  have haabbAt : ∀ o, smid.aabbAt o = s.aabbAt o := by
    intro o
    show smid.ap.getAabb o = s.ap.getAabb o
    rw [hap]
  -- objects of the intermediate state, node by node
  have hlists_mid : ∀ n, n < s.np.count + 8 → ∀ o, o ∈ (smid.np.node n).objs →
      (n < s.np.count ∧ n ≠ nodeIdx ∧ o ∈ (s.np.node n).objs) := by
    intro n hn8 o ho
    rcases Nat.lt_or_ge n s.np.count with hlt | hge
    · rcases eq_or_ne n nodeIdx with rfl | hne
      · rw [hg_objs_self] at ho
        cases ho
      · rw [hnode_old n hlt hne] at ho
        exact ⟨hlt, hne, ho⟩
    · have hi : n - s.np.count < 8 := by omega
      have heqn : n = s.np.count + (n - s.np.count) := by omega
      rw [heqn, hg_objs_child _ hi] at ho
      cases ho
  -- the generalised invariant in the intermediate state
  have hinvmid : AuxInv smid (pend ++ (s.np.node nodeIdx).objs.map fun o => (o, nodeIdx)) := by
    refine ⟨?_, ?_, ?_, ?_, ?_, ?_, ?_, ?_, ?_, ?_, ?_, ?_, ?_, ?_, ?_, ?_, ?_, ?_, ?_⟩
    · rw [hblen, hcap, hinv.buflen_np]
    · rw [hcnt, hcap]; exact hcap8
    · rw [hroot, hcnt]
      have := hinv.root_lt
      omega
    · rw [hroot, hg_par_old s.root hinv.root_lt]
      exact hinv.root_parent
    · intro n hn8
      rw [hcnt] at hn8
      rcases Nat.lt_or_ge n s.np.count with hlt | hge
      · rcases eq_or_ne n nodeIdx with rfl | hne
        · refine Or.inr ⟨s.np.count, hg_fc_self, hn, by omega, ?_⟩
          intro i hi
          refine ⟨hg_par_child i hi, ?_⟩
          rw [hg_box_child i hi, hg_box_self]
          exact octantBox_sub hwfn i
        · have hfcn : smid.np.getFirstChild n = s.np.getFirstChild n := by
            show (smid.np.node n).firstChild = _
            rw [hnode_old n hlt hne]
            rfl
          rcases hinv.fc_spec n hlt with h | ⟨c, hc, h1, h2, h3⟩
          · exact Or.inl (by rw [hfcn]; exact h)
          · refine Or.inr ⟨c, by rw [hfcn]; exact hc, h1, by omega, ?_⟩
            intro i hi
            obtain ⟨hp, hb⟩ := h3 i hi
            refine ⟨by rw [hg_par_old (c + i) (by omega)]; exact hp, ?_⟩
            rw [hg_box_old (c + i) (by omega), hg_box_old n hlt]
            exact hb
      · have hi : n - s.np.count < 8 := by omega
        have heqn : n = s.np.count + (n - s.np.count) := by omega
        exact Or.inl (by rw [heqn]; exact hg_fc_child _ hi)
    · intro m hm8 hmr
      rw [hcnt] at hm8
      rw [hroot] at hmr
      rcases Nat.lt_or_ge m s.np.count with hlt | hge
      · obtain ⟨p, hp, h1, c, hc, h2, h3⟩ := hinv.parent_spec m hlt hmr
        have hpne : p ≠ nodeIdx := by
          intro he
          rw [he, hleaf] at hc
          omega
        have hfcp : smid.np.getFirstChild p = s.np.getFirstChild p := by
          show (smid.np.node p).firstChild = _
          rw [hnode_old p (by omega) hpne]
          rfl
        exact ⟨p, by rw [hg_par_old m hlt]; exact hp, h1, c,
          by rw [hfcp]; exact hc, h2, h3⟩
      · have hi : m - s.np.count < 8 := by omega
        have heqm : m = s.np.count + (m - s.np.count) := by omega
        exact ⟨nodeIdx, by rw [heqm]; exact hg_par_child _ hi, by omega, s.np.count,
          hg_fc_self, by omega, by omega⟩
    · intro n hn8
      rw [hcnt] at hn8
      rcases Nat.lt_or_ge n s.np.count with hlt | hge
      · rw [hg_box_old n hlt]
        exact hinv.boxes_wf n hlt
      · have hi : n - s.np.count < 8 := by omega
        have heqn : n = s.np.count + (n - s.np.count) := by omega
        rw [heqn, hg_box_child _ hi]
        exact octantBox_wf hwfn _
    · intro o n ho
      rw [hmap] at ho
      have := hinv.map_node_lt o n ho
      omega
    · intro o n ho hop
      rw [hmap] at ho
      rw [List.map_append, hkeys_saved, List.mem_append, not_or] at hop
      have hmem := hinv.map_in_list o n ho hop.1
      have hnlt := hinv.map_node_lt o n ho
      have hne : n ≠ nodeIdx := by
        intro he
        subst he
        exact hop.2 hmem
      rw [hnode_old n hnlt hne]
      exact hmem
    · intro q hq
      rw [List.mem_append] at hq
      rcases hq with hq | hq
      · obtain ⟨h1, h2⟩ := hinv.pend_spec q hq
        refine ⟨by rw [hmap]; exact h1, ?_⟩
        intro n hn8 hmem
        obtain ⟨hlt, hne, hmem'⟩ := hlists_mid n (by omega) q.1 hmem
        exact h2 n hlt hmem'
      · obtain ⟨o, ho, rfl⟩ := List.mem_map.1 hq
        refine ⟨by rw [hmap]; exact hsaved_tracked o ho, ?_⟩
        intro n hn8 hmem
        obtain ⟨hlt, hne, hmem'⟩ := hlists_mid n (by omega) o hmem
        have hmapn := hinv.list_in_map n hlt o hmem'
        rw [hsaved_tracked o ho] at hmapn
        exact hne (Option.some.inj hmapn).symm
    · intro n hn8 o ho
      obtain ⟨hlt, hne, hmem'⟩ := hlists_mid n (by omega) o ho
      rw [hmap]
      exact hinv.list_in_map n hlt o hmem'
    · intro n hn8
      rw [hcnt] at hn8
      rcases Nat.lt_or_ge n s.np.count with hlt | hge
      · rcases eq_or_ne n nodeIdx with rfl | hne
        · rw [hg_objs_self]; exact List.nodup_nil
        · rw [hnode_old n hlt hne]; exact hinv.lists_nodup n hlt
      · have hi : n - s.np.count < 8 := by omega
        have heqn : n = s.np.count + (n - s.np.count) := by omega
        rw [heqn, hg_objs_child _ hi]
        exact List.nodup_nil
    · intro n hn8
      rw [hcnt] at hn8
      rcases Nat.lt_or_ge n s.np.count with hlt | hge
      · rcases eq_or_ne n nodeIdx with rfl | hne
        · rw [hg_objs_self]; simp [MAX_OBJECTS_PER_NODE]
        · rw [hnode_old n hlt hne]; exact hinv.objs_le n hlt
      · have hi : n - s.np.count < 8 := by omega
        have heqn : n = s.np.count + (n - s.np.count) := by omega
        rw [heqn, hg_objs_child _ hi]
        simp [MAX_OBJECTS_PER_NODE]
    · intro o n ho
      rw [hmap] at ho
      rw [haabbAt, hg_box_old n (hinv.map_node_lt o n ho)]
      exact hinv.fits_inv o n ho
    · intro o n ho
      rw [hmap] at ho
      rw [haabbAt]
      exact hinv.aabb_wf o n ho
    · rw [hmap]; exact hinv.keys_nodup
    · rw [List.map_append, hkeys_saved, List.nodup_append]
      refine ⟨hinv.pend_nodup, hsavednd, ?_⟩
      intro o ho ho'
      obtain ⟨q, hq, rfl⟩ := List.mem_map.1 ho
      exact (hinv.pend_spec q hq).2 nodeIdx hn ho'
    · rw [hmap]
      simp only [List.length_append, List.length_map]
      show ((List.range smid.np.count).map fun n => (smid.np.node n).objs.length).sum
        + (pend.length + (s.np.node nodeIdx).objs.length) = s.objectNodeMap.length
      rw [hcnt, hfull]
      have hext : ((List.range (s.np.count + 8)).map
            fun n => (smid.np.node n).objs.length).sum
          = ((List.range s.np.count).map fun n => (smid.np.node n).objs.length).sum :=
        sum_range_extend (fun j hj => rfl) (fun j hj1 hj2 => by
          have hi : j - s.np.count < 8 := by omega
          have heqj : j = s.np.count + (j - s.np.count) := by omega
          show (smid.np.node j).objs.length = 0
          rw [heqj, hg_objs_child _ hi]
          rfl)
      rw [hext]
      have hupd := sum_range_update_lt (fun n => (s.np.node n).objs.length)
        (fun n => (smid.np.node n).objs.length) hn (fun j hjc hj => by
          show (smid.np.node j).objs.length = (s.np.node j).objs.length
          rw [hnode_old j hjc hj])
      have hupd' : ((List.range s.np.count).map fun n => (smid.np.node n).objs.length).sum
            + (s.np.node nodeIdx).objs.length
          = ((List.range s.np.count).map fun n => (s.np.node n).objs.length).sum
            + (smid.np.node nodeIdx).objs.length := hupd
      have hzero : (smid.np.node nodeIdx).objs.length = 0 := by simp [hg_objs_self]
      rw [hzero, hfull] at hupd'
      have hdef : sumObjectCounts s
          = ((List.range s.np.count).map fun n => (s.np.node n).objs.length).sum := rfl
      have hsum := hinv.sum_eq
      simp only [List.length_append] at hsum
      omega
    · rw [hstack]; exact hinv.stack_nil
  -- hand over to the redistribution loop
  have hn_mid : nodeIdx < smid.np.count := by omega
  have hclt : ∀ i, i < 8 → s.np.count + i < smid.np.count := by
    intro i hi
    omega
  have hcounting : (smid.np.node nodeIdx).objs.length +
      (∑ i in Finset.range 8, (smid.np.node (s.np.count + i)).objs.length) +
      (s.np.node nodeIdx).objs.length ≤ 8 := by
    have h1 : (smid.np.node nodeIdx).objs.length = 0 := by simp [hg_objs_self]
    have h2 : ∑ i in Finset.range 8, (smid.np.node (s.np.count + i)).objs.length = 0 :=
      Finset.sum_eq_zero fun i hi => by
        have := hg_objs_child i (Finset.mem_range.1 hi)
        simp [this]
    rw [h1, h2, hfull]
  have hfuel' : (redistribute f smid nodeIdx (s.np.node nodeIdx).objs).2
      ≠ some Exn.fuelOut := by
    rw [← hrun]
    exact hfuel
  obtain ⟨hre, hrinv, hrfree, hrcount, hrbox⟩ := redistribute_spec f
    (s.np.node nodeIdx).objs smid nodeIdx s.np.count pend hinvmid
    hg_fc_self hn hg_fc_child hclt hn_mid hcounting hfuel'
  rw [hrun]
  refine ⟨hre, hrinv, ?_, ?_, ?_⟩
  · intro o ho
    refine hrfree o ⟨by rw [hmap]; exact ho.1, ?_⟩
    intro n hnlt hmem
    obtain ⟨hltC, hne2, hmem'⟩ := hlists_mid n (by omega) o hmem
    exact ho.2 n hltC hmem'
  · rw [hrcount, hcnt]
  · rw [hrbox nodeIdx]
    exact hg_box_self

end Octree

namespace Octree

/-- The structural phase of `subdivide` always bump-allocates eight children,
so the node count grows by at least eight regardless of capacity. -/
theorem subdivide_count_ge (f : ℕ) (s : Octree) (n : ℕ) :
    s.np.count + 8 ≤ (subdivide f s n).1.np.count := by
  rw [subdivide]
  refine le_trans ?_ (redistribute_frame f _ _ _).count_le
  obtain ⟨h1, h2, h3⟩ := foldl_allocate_spec (List.range 7) s.np.allocate.1
  obtain ⟨h1', h2', h3'⟩ := foldl_assign_spec (List.range 8)
    (((List.range 7).foldl (fun np _ => np.allocate.1) s.np.allocate.1).setFirstChild n
      ((s.np.count : ℕ) : ℤ)) s.np.count n (s.np.getAABB n)
  simp only [OctreeNodePool.allocate_idx, OctreeNodePool.clearObjects_count,
    OctreeNodePool.setFirstChild_count, OctreeNodePool.allocate_count,
    List.length_range, h1, h1']
  omega

/-- Unfolding `insertIntoNode` at a full leaf: subdivide, then retry, with the
`catch` swallowing a `RangeError` from either phase. -/
theorem insertIntoNode_leaf_full_sub (f : ℕ) (s : Octree) (nodeIdx obj : ℕ)
    (hfc : s.np.getFirstChild nodeIdx = -1)
    (hfull : ¬ s.np.getObjectCount nodeIdx < MAX_OBJECTS_PER_NODE) :
    insertIntoNode (f + 1) s nodeIdx obj =
      match subdivide f s nodeIdx with
      | (s1, some Exn.range) => (s1, none)
      | (s1, some Exn.fuelOut) => (s1, some Exn.fuelOut)
      | (s1, none) =>
        match insertIntoNode f s1 nodeIdx obj with
        | (s2, some Exn.range) => (s2, none)
        | (s2, e) => (s2, e) := by
  rw [insertIntoNode, if_neg (by rw [hfc]; simp), if_neg hfull]

/-- Main preservation property of `insertIntoNode`: starting from an
invariant-satisfying state and a fresh, well-formed object fitting the target
node, a run that does not exhaust its fuel and whose final node count stays
within capacity either succeeds (preserving the invariant — possibly silently
dropping the object in the degenerate full-straddler case) or throws a
`RangeError` leaving the state unchanged. -/
theorem insertIntoNode_spec : ∀ (f : ℕ) (s : Octree) (nodeIdx obj : ℕ)
    (pend : List (ℕ × ℕ)),
    AuxInv s pend →
    obj ∉ pend.map Prod.fst →
    freeObj s obj →
    wfAabb (s.aabbAt obj) →
    aabbSub (s.aabbAt obj) (s.np.getAABB nodeIdx) →
    nodeIdx < s.np.count →
    (insertIntoNode f s nodeIdx obj).2 ≠ some Exn.fuelOut →
    (insertIntoNode f s nodeIdx obj).1.np.count ≤ s.np.cap →
    ((insertIntoNode f s nodeIdx obj).2 = none ∧
      AuxInv (insertIntoNode f s nodeIdx obj).1 pend ∧
      (∀ o, o ≠ obj → freeObj s o → freeObj (insertIntoNode f s nodeIdx obj).1 o)) ∨
    insertIntoNode f s nodeIdx obj = (s, some Exn.range) := by
  intro f
  induction f with
  | zero =>
    intro s nodeIdx obj pend hinv hpend hfree hwf hfits hn hnf hcap
    rw [insertIntoNode_zero] at hnf
    exact absurd rfl hnf
  | succ f ih =>
    intro s nodeIdx obj pend hinv hpend hfree hwf hfits hn hnf hcap
    by_cases hfc : s.np.getFirstChild nodeIdx = -1
    · -- leaf node
      by_cases hroom : s.np.getObjectCount nodeIdx < MAX_OBJECTS_PER_NODE
      · rw [insertIntoNode_leaf_add f hfc hroom] at hnf hcap ⊢
        obtain ⟨hinv', hpres⟩ := insert_direct hinv hpend hfree hwf hfits hn hroom
        exact Or.inl ⟨rfl, hinv', fun o hne ho => hpres o hne ho⟩
      · -- full leaf: subdivide then retry inside the catch
        have hfull8 : (s.np.node nodeIdx).objs.length = 8 := by
          have h1 : (s.np.node nodeIdx).objs.length ≤ 8 := hinv.objs_le nodeIdx hn
          have h2 : ¬ (s.np.node nodeIdx).objs.length < 8 := hroom
          omega
        have hEq := insertIntoNode_leaf_full_sub f s nodeIdx obj hfc hroom
        rcases hsub : subdivide f s nodeIdx with ⟨s1, e1⟩
        have hframe : InsFrame s s1 := by
          have h := subdivide_frame f s nodeIdx
          rw [hsub] at h
          exact h
        have hge8 : s.np.count + 8 ≤ s1.np.count := by
          have h := subdivide_count_ge f s nodeIdx
          rw [hsub] at h
          exact h
        rw [hsub] at hEq
        match e1, hEq with
        | some Exn.fuelOut, hEq =>
          rw [hEq] at hnf
          exact absurd rfl hnf
        | some Exn.range, hEq =>
          have hEq' : insertIntoNode (f + 1) s nodeIdx obj = (s1, none) := hEq
          rw [hEq'] at hcap
          have hcap8 : s.np.count + 8 ≤ s.np.cap := le_trans hge8 hcap
          have hss := subdivide_spec f s nodeIdx pend hinv hn hfc hfull8 hcap8
            (by rw [hsub]; simp)
          rw [hsub] at hss
          exact absurd hss.1 (by simp)
        | none, hEq =>
          have hEq' : insertIntoNode (f + 1) s nodeIdx obj =
              match insertIntoNode f s1 nodeIdx obj with
              | (s2, some Exn.range) => (s2, none)
              | (s2, e) => (s2, e) := hEq
          rcases hret : insertIntoNode f s1 nodeIdx obj with ⟨s2, e2⟩
          have hframe2 : InsFrame s1 s2 := by
            have h := insertIntoNode_frame f s1 nodeIdx obj
            rw [hret] at h
            exact h
          rw [hret] at hEq'
          -- result components, per retry outcome
          have heq1 : (insertIntoNode (f + 1) s nodeIdx obj).1 = s2 := by
            match e2, hEq' with
            | some Exn.range, hEq' => rw [hEq']
            | some Exn.fuelOut, hEq' => rw [hEq']
            | none, hEq' => rw [hEq']
          have hcapS2 : s2.np.count ≤ s.np.cap := by
            rw [heq1] at hcap
            exact hcap
          have hcap8 : s.np.count + 8 ≤ s.np.cap :=
            le_trans hge8 (le_trans hframe2.count_le hcapS2)
          have hss := subdivide_spec f s nodeIdx pend hinv hn hfc hfull8 hcap8
            (by rw [hsub]; simp)
          rw [hsub] at hss
          have hinv1 : AuxInv s1 pend := hss.2.1
          have hpres1 : ∀ o, freeObj s o → freeObj s1 o := hss.2.2.1
          have hcnt1 : s1.np.count = s.np.count + 8 := hss.2.2.2.1
          have hbox1 : s1.np.getAABB nodeIdx = s.np.getAABB nodeIdx := hss.2.2.2.2
          have haabb1 : s1.aabbAt obj = s.aabbAt obj := by
            show s1.ap.getAabb obj = s.ap.getAabb obj
            rw [hframe.ap_eq]
          have hnf2 : e2 ≠ some Exn.fuelOut := by
            intro he
            subst he
            have hEq'' : insertIntoNode (f + 1) s nodeIdx obj = (s2, some Exn.fuelOut) := hEq'
            rw [hEq''] at hnf
            exact hnf rfl
          have hih := ih s1 nodeIdx obj pend hinv1 hpend (hpres1 obj hfree)
            (by rw [haabb1]; exact hwf) (by rw [haabb1, hbox1]; exact hfits)
            (by omega) (by rw [hret]; exact hnf2)
            (by rw [hret]; show s2.np.count ≤ s1.np.cap; rw [hframe.cap_eq]; exact hcapS2)
          rw [hret] at hih
          rcases hih with ⟨hihe, hihinv, hihpres⟩ | hiheq
          · -- retry succeeded
            have he2 : e2 = none := hihe
            subst he2
            have hEq'' : insertIntoNode (f + 1) s nodeIdx obj = (s2, none) := hEq'
            rw [hEq'']
            exact Or.inl ⟨rfl, hihinv, fun o hne ho => hihpres o hne (hpres1 o ho)⟩
          · -- retry threw a RangeError: swallowed, object dropped, state s1
            have hs2 : s2 = s1 := by
              have h := congrArg Prod.fst hiheq
              exact h
            have he2 : e2 = some Exn.range := by
              have h := congrArg Prod.snd hiheq
              exact h
            subst he2
            have hEq'' : insertIntoNode (f + 1) s nodeIdx obj = (s2, none) := hEq'
            rw [hEq'']
            refine Or.inl ⟨rfl, ?_, ?_⟩
            · rw [hs2]
              exact hinv1
            · intro o hne ho
              rw [hs2]
              exact hpres1 o ho
    · -- internal node
      have hfcne : s.np.getFirstChild nodeIdx ≠ -1 := hfc
      rcases hinv.fc_spec nodeIdx hn with h | ⟨c, hc, hnc, hc8, hch⟩
      · exact absurd h hfc
      have htn : (s.np.getFirstChild nodeIdx).toNat = c := by rw [hc]; simp
      cases hfind : (List.range 8).find?
          (fun i => s.fitsInNode obj ((s.np.getFirstChild nodeIdx).toNat + i)) with
      | some i0 =>
        have hi0 : i0 < 8 := by
          have h := List.mem_of_find?_eq_some hfind
          simpa using h
        have hfit : s.fitsInNode obj (c + i0) = true := by
          have h := List.find?_some hfind
          rw [htn] at h
          simpa using h
        rw [insertIntoNode_descend f hfcne hfind, htn] at hnf hcap ⊢
        have hchild_lt : c + i0 < s.np.count := by omega
        have hfits' : aabbSub (s.aabbAt obj) (s.np.getAABB (c + i0)) :=
          (fitsInNode_iff s obj (c + i0)).1 hfit
        exact ih s (c + i0) obj pend hinv hpend hfree hwf hfits' hchild_lt hnf hcap
      | none =>
        by_cases hroom : (s.np.node nodeIdx).objs.length < MAX_OBJECTS_PER_NODE
        · rw [insertIntoNode_straddle f hfcne hfind hroom]
          obtain ⟨hinv', hpres⟩ := insert_direct hinv hpend hfree hwf hfits hn hroom
          exact Or.inl ⟨rfl, hinv', fun o hne ho => hpres o hne ho⟩
        · rw [insertIntoNode_straddle_full f hfcne hfind (by omega)]
          exact Or.inr rfl

end Octree

namespace AABBPool

theorem getAabb_set_other {p : AABBPool} {i j : ℕ} (a : Aabb) (h : j ≠ i) :
    (p.set i a).getAabb j = p.getAabb j := by
  simp [getAabb, set, List.getD, List.getElem?_set_ne (Ne.symm h)]

end AABBPool

/-! ## Preservation of the invariant by each public operation -/

/-- The freshly constructed octree satisfies the invariant. -/
theorem initial_inv (npCap apCap : ℕ) (bounds : Aabb) (hcap : 1 ≤ npCap)
    (hwf : wfAabb bounds) : Inv (initial npCap apCap bounds) := by
  have hblen0 : (OctreeNodePool.mk' npCap).buf.length = npCap := by
    simp [OctreeNodePool.mk']
  have hroot : (initial npCap apCap bounds).root = 0 := rfl
  have hcnt : (initial npCap apCap bounds).np.count = 1 := rfl
  have hcap' : (initial npCap apCap bounds).np.cap = npCap := rfl
  have hblen : (initial npCap apCap bounds).np.buf.length = npCap := by
    show ((((OctreeNodePool.mk' npCap).allocate.1).setAABB 0 bounds)).buf.length = npCap
    show (((OctreeNodePool.mk' npCap).allocate.1).modifyNode 0 _).buf.length = npCap
    rw [OctreeNodePool.modify_buflen, OctreeNodePool.allocate_buflen, hblen0]
  have hnode0 : (initial npCap apCap bounds).np.node 0 = ⟨bounds, -1, -1, []⟩ := by
    show (((OctreeNodePool.mk' npCap).allocate.1).setAABB 0 bounds).node 0 = _
    rw [show (0 : ℕ) = (OctreeNodePool.mk' npCap).count from rfl]
    rw [OctreeNodePool.setAABB_node_self bounds (by
      rw [OctreeNodePool.allocate_buflen, hblen0]
      show (OctreeNodePool.mk' npCap).count < npCap
      show 0 < npCap
      omega)]
    rw [OctreeNodePool.allocate_node_self (by rw [hblen0]; show 0 < npCap; omega)]
  have hmap : (initial npCap apCap bounds).objectNodeMap = [] := rfl
  refine ⟨?_, ?_, ?_, ?_, ?_, ?_, ?_, ?_, ?_, ?_, ?_, ?_, ?_, ?_, ?_, ?_, ?_⟩
  · rw [hblen, hcap']
  · rw [hcnt, hcap']; omega
  · rw [hroot, hcnt]; omega
  · show ((initial npCap apCap bounds).np.node (initial npCap apCap bounds).root).parent = -1
    rw [hroot, hnode0]
  · intro n hn
    rw [hcnt] at hn
    have hn0 : n = 0 := by omega
    subst hn0
    exact Or.inl (by show ((initial npCap apCap bounds).np.node 0).firstChild = -1; rw [hnode0])
  · intro m hm hmr
    rw [hcnt] at hm
    rw [hroot] at hmr
    omega
  · intro n hn
    rw [hcnt] at hn
    have hn0 : n = 0 := by omega
    subst hn0
    show wfAabb ((initial npCap apCap bounds).np.node 0).box
    rw [hnode0]
    exact hwf
  · intro o n ho
    rw [hmap] at ho
    cases ho
  · intro o n ho
    rw [hmap] at ho
    cases ho
  · intro n hn o ho
    rw [hcnt] at hn
    have hn0 : n = 0 := by omega
    subst hn0
    rw [hnode0] at ho
    cases ho
  · intro n hn
    rw [hcnt] at hn
    have hn0 : n = 0 := by omega
    subst hn0
    rw [hnode0]
    exact List.nodup_nil
  · intro n hn
    rw [hcnt] at hn
    have hn0 : n = 0 := by omega
    subst hn0
    rw [hnode0]
    simp [MAX_OBJECTS_PER_NODE]
  · intro o n ho
    rw [hmap] at ho
    cases ho
  · intro o n ho
    rw [hmap] at ho
    cases ho
  · rw [hmap]
    exact List.nodup_nil
  · show sumObjectCounts (initial npCap apCap bounds) = _
    unfold sumObjectCounts
    rw [hcnt, hmap]
    rw [show List.range 1 = [0] from rfl]
    simp only [List.map_cons, List.map_nil, List.sum_cons, List.sum_nil, hnode0]
    rfl
  · rfl

/-- Writing the AABB of an untracked object preserves the invariant. -/
theorem writeAabb_preserves {s : Octree} (hinv : Inv s) {i : ℕ} (a : Aabb)
    (hun : mapGet s.objectNodeMap i = none) : Inv (writeAabb s i a) := by
  have haabb : ∀ o, o ≠ i → (writeAabb s i a).aabbAt o = s.aabbAt o := fun o ho =>
    AABBPool.getAabb_set_other a ho
  refine ⟨hinv.buflen_np, hinv.count_le, hinv.root_lt, hinv.root_parent, hinv.fc_spec,
    hinv.parent_spec, hinv.boxes_wf, hinv.map_node_lt, hinv.map_in_list, hinv.list_in_map,
    hinv.lists_nodup, hinv.objs_le, ?_, ?_, hinv.keys_nodup, hinv.sum_eq, hinv.stack_nil⟩
  · intro o n ho
    have ho' : mapGet s.objectNodeMap o = some n := ho
    have hne : o ≠ i := by
      intro he
      subst he
      rw [hun] at ho'
      cases ho'
    rw [haabb o hne]
    exact hinv.fits_inv o n ho'
  · intro o n ho
    have ho' : mapGet s.objectNodeMap o = some n := ho
    have hne : o ≠ i := by
      intro he
      subst he
      rw [hun] at ho'
      cases ho'
    rw [haabb o hne]
    exact hinv.aabb_wf o n ho'

/-- An untracked object is free: it appears in no node list. -/
theorem untracked_free {s : Octree} (hinv : Inv s) {obj : ℕ}
    (hun : mapGet s.objectNodeMap obj = none) : freeObj s obj := by
  refine ⟨hun, ?_⟩
  intro n hn hmem
  have := hinv.list_in_map n hn obj hmem
  rw [hun] at this
  cases this

/-- `insert` preserves the invariant under the reachability side conditions. -/
theorem insert_preserves {s : Octree} (hinv : Inv s) {obj : ℕ}
    (hun : mapGet s.objectNodeMap obj = none)
    (hwf : wfAabb (s.aabbAt obj))
    (hfits : aabbSub (s.aabbAt obj) (s.np.getAABB s.root))
    (hnf : (insert s obj).2 ≠ some Exn.fuelOut)
    (hcap : (insert s obj).1.np.count ≤ s.np.cap) : Inv (insert s obj).1 := by
  have hnf' : (insertIntoNode (insertFuel s) s s.root obj).2 ≠ some Exn.fuelOut := hnf
  have hcap' : (insertIntoNode (insertFuel s) s s.root obj).1.np.count ≤ s.np.cap := hcap
  have hres := insertIntoNode_spec (insertFuel s) s s.root obj [] hinv.toAux (by simp)
    (untracked_free hinv hun) hwf hfits hinv.root_lt hnf' hcap'
  rcases hres with ⟨-, haux, -⟩ | heq
  · exact haux.toInv
  · have h2 : insert s obj = (s, some Exn.range) := heq
    rw [h2]
    exact hinv

/-- Removing a tracked object from its node and deleting its map entry
preserves the invariant and frees the object. -/
theorem remove_tracked_inv {s : Octree} (hinv : Inv s) {obj m : ℕ}
    (hm : mapGet s.objectNodeMap obj = some m) :
    Inv { s with np := (s.np.removeObject m obj).1,
                 objectNodeMap := mapDelete s.objectNodeMap obj } ∧
    freeObj { s with np := (s.np.removeObject m obj).1,
                     objectNodeMap := mapDelete s.objectNodeMap obj } obj := by
  have hmlt : m < s.np.count := hinv.map_node_lt obj m hm
  have hmemb : obj ∈ (s.np.node m).objs := hinv.map_in_list obj m hm
  have hmblen : m < s.np.buf.length := by
    rw [hinv.buflen_np]
    have := hinv.count_le
    omega
  obtain ⟨hret, hperm, hother, hex, hcnt, hcap', hblen⟩ :=
    OctreeNodePool.removeObject_mem hmemb hmblen
  have hndm : (s.np.node m).objs.Nodup := hinv.lists_nodup m hmlt
  set R := (s.np.removeObject m obj).1 with hR
  have hmem_new : ∀ o, o ∈ (R.node m).objs ↔ (o ≠ obj ∧ o ∈ (s.np.node m).objs) := by
    intro o
    rw [hperm.mem_iff]
    exact List.Nodup.mem_erase_iff hndm
  have hnode_eq : ∀ j, j ≠ m → R.node j = s.np.node j := hother
  have hget_par : ∀ j, R.getParent j = s.np.getParent j := by
    intro j
    rcases eq_or_ne j m with rfl | hne
    · show (R.node j).parent = _
      rw [hex]
      rfl
    · show (R.node j).parent = _
      rw [hnode_eq j hne]
      rfl
  have hget_fc : ∀ j, R.getFirstChild j = s.np.getFirstChild j := by
    intro j
    rcases eq_or_ne j m with rfl | hne
    · show (R.node j).firstChild = _
      rw [hex]
      rfl
    · show (R.node j).firstChild = _
      rw [hnode_eq j hne]
      rfl
  have hget_box : ∀ j, R.getAABB j = s.np.getAABB j := by
    intro j
    rcases eq_or_ne j m with rfl | hne
    · show (R.node j).box = _
      rw [hex]
      rfl
    · show (R.node j).box = _
      rw [hnode_eq j hne]
      rfl
  have hmget_self : mapGet (mapDelete s.objectNodeMap obj) obj = none :=
    mapGet_delete_self _ _ hinv.keys_nodup
  have hmget_other : ∀ o, o ≠ obj →
      mapGet (mapDelete s.objectNodeMap obj) o = mapGet s.objectNodeMap o :=
    fun o ho => mapGet_delete_other _ ho
  have hlen_new : (R.node m).objs.length + 1 = (s.np.node m).objs.length := by
    rw [hperm.length_eq, List.length_erase_of_mem hmemb]
    have : 0 < (s.np.node m).objs.length := List.length_pos_of_mem hmemb
    omega
  refine ⟨⟨?_, ?_, ?_, ?_, ?_, ?_, ?_, ?_, ?_, ?_, ?_, ?_, ?_, ?_, ?_, ?_, ?_⟩, ?_, ?_⟩
  · rw [show ({ s with np := R, objectNodeMap := mapDelete s.objectNodeMap obj } :
      Octree).np.buf.length = R.buf.length from rfl, hblen, hinv.buflen_np]
    rw [hcap']
  · rw [show ({ s with np := R, objectNodeMap := mapDelete s.objectNodeMap obj } :
      Octree).np.count = R.count from rfl, hcnt, hcap']
    exact hinv.count_le
  · show s.root < R.count
    rw [hcnt]
    exact hinv.root_lt
  · show R.getParent s.root = -1
    rw [hget_par]
    exact hinv.root_parent
  · intro n hn
    have hn' : n < s.np.count := by rw [show R.count = s.np.count from hcnt] at hn; exact hn
    rcases hinv.fc_spec n hn' with h | ⟨c, hc, h1, h2, h3⟩
    · exact Or.inl (by rw [hget_fc]; exact h)
    · refine Or.inr ⟨c, by rw [hget_fc]; exact hc, h1, by
        show c + 8 ≤ R.count
        rw [hcnt]; exact h2, ?_⟩
      intro i hi
      obtain ⟨hp, hb⟩ := h3 i hi
      exact ⟨by rw [hget_par]; exact hp, by rw [hget_box, hget_box]; exact hb⟩
  · intro j hj hjr
    have hj' : j < s.np.count := by rw [show R.count = s.np.count from hcnt] at hj; exact hj
    obtain ⟨p, hp, h1, c, hc, h2, h3⟩ := hinv.parent_spec j hj' hjr
    exact ⟨p, by rw [hget_par]; exact hp, h1, c, by rw [hget_fc]; exact hc, h2, h3⟩
  · intro n hn
    have hn' : n < s.np.count := by rw [show R.count = s.np.count from hcnt] at hn; exact hn
    rw [show ({ s with np := R, objectNodeMap := mapDelete s.objectNodeMap obj } :
      Octree).np.getAABB n = R.getAABB n from rfl, hget_box]
    exact hinv.boxes_wf n hn'
  · intro o n ho
    have hone : o ≠ obj := by
      intro he
      subst he
      rw [hmget_self] at ho
      cases ho
    rw [hmget_other o hone] at ho
    show n < R.count
    rw [hcnt]
    exact hinv.map_node_lt o n ho
  · intro o n ho
    have hone : o ≠ obj := by
      intro he
      subst he
      rw [hmget_self] at ho
      cases ho
    rw [hmget_other o hone] at ho
    have hmem := hinv.map_in_list o n ho
    show o ∈ (R.node n).objs
    rcases eq_or_ne n m with rfl | hne
    · rw [hmem_new]
      exact ⟨hone, hmem⟩
    · rw [hnode_eq n hne]
      exact hmem
  · intro n hn o ho
    have hn' : n < s.np.count := by rw [show R.count = s.np.count from hcnt] at hn; exact hn
    show mapGet (mapDelete s.objectNodeMap obj) o = some n
    rcases eq_or_ne n m with rfl | hne
    · rw [hmem_new] at ho
      rw [hmget_other o ho.1]
      exact hinv.list_in_map n hn' o ho.2
    · rw [hnode_eq n hne] at ho
      have htrk := hinv.list_in_map n hn' o ho
      have hone : o ≠ obj := by
        intro he
        subst he
        rw [hm] at htrk
        exact hne (Option.some.inj htrk).symm
      rw [hmget_other o hone]
      exact htrk
  · intro n hn
    have hn' : n < s.np.count := by rw [show R.count = s.np.count from hcnt] at hn; exact hn
    rcases eq_or_ne n m with rfl | hne
    · show (R.node n).objs.Nodup
      exact hperm.nodup_iff.2 (hndm.erase obj)
    · show (R.node n).objs.Nodup
      rw [hnode_eq n hne]
      exact hinv.lists_nodup n hn'
  · intro n hn
    have hn' : n < s.np.count := by rw [show R.count = s.np.count from hcnt] at hn; exact hn
    rcases eq_or_ne n m with rfl | hne
    · show (R.node n).objs.length ≤ MAX_OBJECTS_PER_NODE
      have := hinv.objs_le n hn'
      omega
    · show (R.node n).objs.length ≤ MAX_OBJECTS_PER_NODE
      rw [hnode_eq n hne]
      exact hinv.objs_le n hn'
  · intro o n ho
    have hone : o ≠ obj := by
      intro he
      subst he
      rw [hmget_self] at ho
      cases ho
    rw [hmget_other o hone] at ho
    show aabbSub (s.aabbAt o) (R.getAABB n)
    rw [hget_box]
    exact hinv.fits_inv o n ho
  · intro o n ho
    have hone : o ≠ obj := by
      intro he
      subst he
      rw [hmget_self] at ho
      cases ho
    rw [hmget_other o hone] at ho
    exact hinv.aabb_wf o n ho
  · exact mapDelete_keys_nodup obj hinv.keys_nodup
  · show sumObjectCounts { s with np := R, objectNodeMap := mapDelete s.objectNodeMap obj }
      = (mapDelete s.objectNodeMap obj).length
    unfold sumObjectCounts
    rw [show ({ s with np := R, objectNodeMap := mapDelete s.objectNodeMap obj } :
      Octree).np.count = R.count from rfl, hcnt]
    show ((List.range s.np.count).map fun n => (R.node n).objs.length).sum
      = (mapDelete s.objectNodeMap obj).length
    have hupd := sum_range_update_lt (fun n => (s.np.node n).objs.length)
      (fun n => (R.node n).objs.length) hmlt (fun j hjc hj => by
        show (R.node j).objs.length = (s.np.node j).objs.length
        rw [hnode_eq j hj])
    have hupd' : ((List.range s.np.count).map fun n => (R.node n).objs.length).sum
          + (s.np.node m).objs.length
        = ((List.range s.np.count).map fun n => (s.np.node n).objs.length).sum
          + (R.node m).objs.length := hupd
    have hmd := mapDelete_length hm
    have hsum := hinv.sum_eq
    have hdef : sumObjectCounts s
        = ((List.range s.np.count).map fun n => (s.np.node n).objs.length).sum := rfl
    omega
  · exact hinv.stack_nil
  · exact hmget_self
  · intro n hn
    have hn' : n < s.np.count := by
      rw [show ({ s with np := R, objectNodeMap := mapDelete s.objectNodeMap obj } :
        Octree).np.count = R.count from rfl, hcnt] at hn
      exact hn
    intro hmem
    show False
    rcases eq_or_ne n m with rfl | hne
    · rw [hmem_new] at hmem
      exact hmem.1 rfl
    · rw [show ({ s with np := R, objectNodeMap := mapDelete s.objectNodeMap obj } :
        Octree).np.node n = R.node n from rfl, hnode_eq n hne] at hmem
      have htrk := hinv.list_in_map n hn' obj hmem
      rw [hm] at htrk
      exact hne (Option.some.inj htrk).symm

/-- `remove` of an untracked object returns the state unchanged. -/
theorem remove_untracked {s : Octree} {obj : ℕ}
    (h : mapGet s.objectNodeMap obj = none) : remove s obj = s := by
  rw [remove, h]

/-- `remove` of a tracked object: swap-remove from its node, delete the map
entry. -/
theorem remove_tracked {s : Octree} {obj m : ℕ}
    (h : mapGet s.objectNodeMap obj = some m) :
    remove s obj = { s with np := (s.np.removeObject m obj).1,
                            objectNodeMap := mapDelete s.objectNodeMap obj } := by
  rw [remove, h]

/-- `remove` preserves the invariant. -/
theorem remove_preserves {s : Octree} (hinv : Inv s) (obj : ℕ) : Inv (remove s obj) := by
  cases hm : mapGet s.objectNodeMap obj with
  | none => rw [remove_untracked hm]; exact hinv
  | some m => rw [remove_tracked hm]; exact (remove_tracked_inv hinv hm).1

/-- A pure-`objs` node modification never changes the box or link fields. -/
theorem node_modify_objs_fields (p : OctreeNodePool) (i j : ℕ) (g : List ℕ → List ℕ) :
    ((p.modifyNode i fun nd => { nd with objs := g nd.objs }).node j).box = (p.node j).box ∧
    ((p.modifyNode i fun nd => { nd with objs := g nd.objs }).node j).parent
      = (p.node j).parent ∧
    ((p.modifyNode i fun nd => { nd with objs := g nd.objs }).node j).firstChild
      = (p.node j).firstChild := by
  rcases eq_or_ne j i with rfl | hne
  · rcases Nat.lt_or_ge j p.buf.length with hlt | hge
    · rw [OctreeNodePool.node_modify_self hlt]
      exact ⟨rfl, rfl, rfl⟩
    · rw [OctreeNodePool.modify_oob hge]
      exact ⟨rfl, rfl, rfl⟩
  · rw [OctreeNodePool.node_modify_other hne]
    exact ⟨rfl, rfl, rfl⟩

/-- `removeObject` never changes the box or link fields of any node. -/
theorem removeObject_node_fields (p : OctreeNodePool) (i obj : ℕ) :
    ∀ j, ((p.removeObject i obj).1.node j).box = (p.node j).box ∧
      ((p.removeObject i obj).1.node j).parent = (p.node j).parent ∧
      ((p.removeObject i obj).1.node j).firstChild = (p.node j).firstChild := by
  intro j
  unfold OctreeNodePool.removeObject
  cases hidx : (p.node i).objs.indexOf? obj with
  | none => exact ⟨rfl, rfl, rfl⟩
  | some k => exact node_modify_objs_fields p i j (fun l => (l.set k (l.getLastD 0)).dropLast)

namespace Octree

/-- The parent-link walk terminates at `-1` or at an allocated node whose AABB
contains the object. -/
theorem walkUp_spec {s : Octree} (hinv : Inv s) (obj : ℕ) :
    ∀ fuel (a : ℤ), (a = -1 ∨ ∃ m : ℕ, a = (m : ℤ) ∧ m < s.np.count ∧ m < fuel) →
    (walkUp s obj fuel a = -1 ∨
      ∃ m : ℕ, walkUp s obj fuel a = (m : ℤ) ∧ m < s.np.count ∧
        s.fitsInNode obj m = true) := by
  intro fuel
  induction fuel with
  | zero =>
    intro a ha
    rcases ha with rfl | ⟨m, rfl, hm, hf⟩
    · exact Or.inl rfl
    · exact absurd hf (Nat.not_lt_zero m)
  | succ fuel ih =>
    intro a ha
    rcases ha with rfl | ⟨m, rfl, hm, hf⟩
    · rw [walkUp, if_pos rfl]
      exact Or.inl rfl
    · rw [walkUp]
      have hne : ¬ ((m : ℤ) = -1) := by omega
      rw [if_neg hne]
      have htn : ((m : ℤ)).toNat = m := by simp
      rw [htn]
      by_cases hfit : s.fitsInNode obj m = true
      · rw [if_pos hfit]
        exact Or.inr ⟨m, rfl, hm, hfit⟩
      · rw [if_neg hfit]
        rcases eq_or_ne m s.root with rfl | hmr
        · rw [hinv.root_parent]
          exact ih (-1) (Or.inl rfl)
        · obtain ⟨p, hp, hpm, -⟩ := hinv.parent_spec m hm hmr
          rw [hp]
          exact ih (p : ℤ) (Or.inr ⟨p, rfl, by omega, by omega⟩)

/-- The intermediate state of `update` after the AABB write, the removal from
the current node and the map deletion. -/
def upd2 (s : Octree) (obj m : ℕ) (a : Aabb) : Octree :=
  { s with ap := s.ap.set obj a,
           np := (s.np.removeObject m obj).1,
           objectNodeMap := mapDelete s.objectNodeMap obj }

/-- `update` on an untracked object: only the AABB write happens. -/
theorem update_untracked {s : Octree} {obj : ℕ} (a : Aabb)
    (h : mapGet s.objectNodeMap obj = none) :
    update s obj a = ({ s with ap := s.ap.set obj a }, none) := by
  rw [update]
  split
  · rfl
  · next currentNode heq =>
    have h2 : mapGet s.objectNodeMap obj = some currentNode := heq
    rw [h] at h2
    cases h2

/-- `update` when the new bounds still fit the current node: no movement. -/
theorem update_tracked_fits {s : Octree} {obj m : ℕ} (a : Aabb)
    (hm : mapGet s.objectNodeMap obj = some m)
    (hfit : ({ s with ap := s.ap.set obj a } : Octree).fitsInNode obj m = true) :
    update s obj a = ({ s with ap := s.ap.set obj a }, none) := by
  rw [update]
  split
  · rfl
  · next currentNode heq =>
    have h2 : mapGet s.objectNodeMap obj = some currentNode := heq
    rw [hm] at h2
    obtain rfl : m = currentNode := Option.some.inj h2
    split
    · rfl
    · next hnofit => exact absurd hfit hnofit

/-- `update` when the new bounds no longer fit: remove, walk up, re-insert. -/
theorem update_tracked_nofits {s : Octree} {obj m : ℕ} (a : Aabb)
    (hm : mapGet s.objectNodeMap obj = some m)
    (hnofit : ¬ ({ s with ap := s.ap.set obj a } : Octree).fitsInNode obj m = true) :
    update s obj a =
      insertIntoNode (insertFuel (upd2 s obj m a)) (upd2 s obj m a)
        (if walkUp (upd2 s obj m a) obj ((upd2 s obj m a).np.count + 1)
            ((upd2 s obj m a).np.getParent m) = -1
         then (upd2 s obj m a).root
         else (walkUp (upd2 s obj m a) obj ((upd2 s obj m a).np.count + 1)
            ((upd2 s obj m a).np.getParent m)).toNat) obj := by
  rw [update]
  split
  · next heq =>
    have h2 : mapGet s.objectNodeMap obj = none := heq
    rw [hm] at h2
    cases h2
  · next currentNode heq =>
    have h2 : mapGet s.objectNodeMap obj = some currentNode := heq
    rw [hm] at h2
    obtain rfl : m = currentNode := Option.some.inj h2
    split
    · next hfit => exact absurd hfit hnofit
    · next hfit => rfl

/-- The still-fits branch of `update` preserves the invariant. -/
theorem update_fits_inv_state {s : Octree} (hinv : Inv s) {obj m : ℕ} {a : Aabb}
    (hm : mapGet s.objectNodeMap obj = some m)
    (hfit : ({ s with ap := s.ap.set obj a } : Octree).fitsInNode obj m = true)
    (hwf : wfAabb ((s.ap.set obj a).getAabb obj)) :
    Inv { s with ap := s.ap.set obj a } := by
  refine ⟨hinv.buflen_np, hinv.count_le, hinv.root_lt, hinv.root_parent, hinv.fc_spec,
    hinv.parent_spec, hinv.boxes_wf, hinv.map_node_lt, hinv.map_in_list,
    hinv.list_in_map, hinv.lists_nodup, hinv.objs_le, ?_, ?_, hinv.keys_nodup,
    hinv.sum_eq, hinv.stack_nil⟩
  · intro o n ho
    have ho' : mapGet s.objectNodeMap o = some n := ho
    rcases eq_or_ne o obj with rfl | hne
    · rw [hm] at ho'
      obtain rfl : m = n := Option.some.inj ho'
      exact (fitsInNode_iff { s with ap := s.ap.set o a } o m).1 hfit
    · show aabbSub ((s.ap.set obj a).getAabb o) (s.np.getAABB n)
      rw [AABBPool.getAabb_set_other a hne]
      exact hinv.fits_inv o n ho'
  · intro o n ho
    have ho' : mapGet s.objectNodeMap o = some n := ho
    rcases eq_or_ne o obj with rfl | hne
    · exact hwf
    · show wfAabb ((s.ap.set obj a).getAabb o)
      rw [AABBPool.getAabb_set_other a hne]
      exact hinv.aabb_wf o n ho'

/-- `update` preserves the invariant under the reachability side conditions. -/
theorem update_preserves {s : Octree} (hinv : Inv s) {obj : ℕ} {a : Aabb}
    (hwf : wfAabb ((s.ap.set obj a).getAabb obj))
    (hfits : aabbSub ((s.ap.set obj a).getAabb obj) (s.np.getAABB s.root))
    (hnf : (update s obj a).2 ≠ some Exn.fuelOut)
    (hcap : (update s obj a).1.np.count ≤ s.np.cap) : Inv (update s obj a).1 := by
  cases hm : mapGet s.objectNodeMap obj with
  | none =>
    rw [update_untracked a hm]
    exact writeAabb_preserves hinv a hm
  | some m =>
    by_cases hfit : ({ s with ap := s.ap.set obj a } : Octree).fitsInNode obj m = true
    · rw [update_tracked_fits a hm hfit]
      exact update_fits_inv_state hinv hm hfit hwf
    · rw [update_tracked_nofits a hm hfit] at hnf hcap ⊢
      -- the intermediate state: removal without the AABB write, then the write
      have hR : upd2 s obj m a =
          writeAabb { s with np := (s.np.removeObject m obj).1,
                             objectNodeMap := mapDelete s.objectNodeMap obj } obj a := rfl
      obtain ⟨hinvR0, hfreeR0⟩ := remove_tracked_inv hinv hm
      have hinv2 : Inv (upd2 s obj m a) := by
        rw [hR]
        exact writeAabb_preserves hinvR0 a hfreeR0.1
      have hfree2 : freeObj (upd2 s obj m a) obj := ⟨hfreeR0.1, hfreeR0.2⟩
      have hwf2 : wfAabb ((upd2 s obj m a).aabbAt obj) := hwf
      have hbox2 : ∀ j, (upd2 s obj m a).np.getAABB j = s.np.getAABB j := by
        intro j
        exact (removeObject_node_fields s.np m obj j).1
      have hcnt2 : (upd2 s obj m a).np.count = s.np.count :=
        OctreeNodePool.removeObject_count s.np m obj
      have hcap2 : (upd2 s obj m a).np.cap = s.np.cap :=
        OctreeNodePool.removeObject_cap s.np m obj
      have hmlt : m < s.np.count := hinv.map_node_lt obj m hm
      -- the walk starts at the parent of the old node
      have hwalk := walkUp_spec hinv2 obj ((upd2 s obj m a).np.count + 1)
        ((upd2 s obj m a).np.getParent m) ?hstart
      case hstart =>
        rcases eq_or_ne m s.root with hmr | hmr
        · refine Or.inl ?_
          have hroot2 : (upd2 s obj m a).np.getParent (upd2 s obj m a).root = -1 :=
            hinv2.root_parent
          rw [show (upd2 s obj m a).root = s.root from rfl, ← hmr] at hroot2
          exact hroot2
        · obtain ⟨p, hp, hpm, -⟩ := hinv2.parent_spec m (by rw [hcnt2]; exact hmlt)
            (by show m ≠ s.root; exact hmr)
          exact Or.inr ⟨p, hp, by rw [hcnt2]; omega, by rw [hcnt2]; omega⟩
      -- the insertion target: the found ancestor or the root
      set anc := walkUp (upd2 s obj m a) obj ((upd2 s obj m a).np.count + 1)
        ((upd2 s obj m a).np.getParent m) with hanc
      have htarget : (if anc = -1 then (upd2 s obj m a).root else anc.toNat)
            < (upd2 s obj m a).np.count ∧
          aabbSub ((upd2 s obj m a).aabbAt obj)
            ((upd2 s obj m a).np.getAABB
              (if anc = -1 then (upd2 s obj m a).root else anc.toNat)) := by
        rcases hwalk with hminus | ⟨mw, hmw, hmwlt, hmwfit⟩
        · rw [if_pos hminus]
          refine ⟨hinv2.root_lt, ?_⟩
          rw [show (upd2 s obj m a).root = s.root from rfl, hbox2 s.root]
          exact hfits
        · have hancne : ¬ (anc = -1) := by rw [hmw]; omega
          rw [if_neg hancne]
          have htn : anc.toNat = mw := by rw [hmw]; simp
          rw [htn]
          exact ⟨hmwlt, (fitsInNode_iff (upd2 s obj m a) obj mw).1 hmwfit⟩
      have hres := insertIntoNode_spec (insertFuel (upd2 s obj m a)) (upd2 s obj m a)
        (if anc = -1 then (upd2 s obj m a).root else anc.toNat) obj []
        hinv2.toAux (by simp) hfree2 hwf2 htarget.2 htarget.1 hnf
        (by rw [hcap2]; exact hcap)
      rcases hres with ⟨-, haux, -⟩ | heq
      · exact haux.toInv
      · rw [heq]
        exact hinv2

end Octree

namespace Octree

/-- The common control flow of the two iterative traversals (`raycast` and
`queryBox`): pop a node, process it into the accumulator, push the children
passing the pruning test. -/
def dfsLoop (s : Octree) (push : ℕ → Bool) (step : α → ℕ → α) :
    ℕ → List ℕ → α → α × List ℕ
  | 0, stack, acc => (acc, stack)
  | _ + 1, [], acc => (acc, [])
  | fuel + 1, nodeIdx :: rest, acc =>
    let fc := s.np.getFirstChild nodeIdx
    let stack :=
      if fc ≠ -1 then
        (List.range 8).foldl
          (fun st i => if push (fc.toNat + i) then (fc.toNat + i) :: st else st) rest
      else rest
    dfsLoop s push step fuel stack (step acc nodeIdx)

/-- `rayLoop` is the generic traversal with the ray pruning test and the
best-hit fold. -/
theorem rayLoop_eq_dfs (s : Octree) (r : Ray) : ∀ fuel stack best,
    rayLoop s r fuel stack best =
      dfsLoop s (fun m => FVal.fle (FVal.fin 0) (rayIntersectsAABB r (s.np.getAABB m)))
        (fun b nodeIdx => (s.np.node nodeIdx).objs.foldl
          (fun (b : FVal × ℤ) objIdx =>
            let t := rayIntersectsAABB r (s.ap.getAabb objIdx)
            if FVal.fle (FVal.fin 0) t && FVal.flt t b.1 then (t, (objIdx : ℤ)) else b) b)
        fuel stack best := by
  intro fuel
  induction fuel with
  | zero => intro stack best; rw [rayLoop, dfsLoop]
  | succ fuel ih =>
    intro stack best
    cases stack with
    | nil => rw [rayLoop, dfsLoop]
    | cons nodeIdx rest =>
      rw [rayLoop, dfsLoop]
      exact ih _ _

/-- `queryLoop` is the generic traversal with the box-overlap pruning test and
the filtered append. -/
theorem queryLoop_eq_dfs (s : Octree) (q : Aabb) : ∀ fuel stack acc,
    queryLoop s q fuel stack acc =
      dfsLoop s (fun m => aabbOverlapsBox (s.np.getAABB m) q)
        (fun acc nodeIdx => acc ++ (s.np.node nodeIdx).objs.filter
          (fun objIdx => aabbOverlapsBox (s.ap.getAabb objIdx) q))
        fuel stack acc := by
  intro fuel
  induction fuel with
  | zero => intro stack acc; rw [queryLoop, dfsLoop]
  | succ fuel ih =>
    intro stack acc
    cases stack with
    | nil => rw [queryLoop, dfsLoop]
    | cons nodeIdx rest =>
      rw [queryLoop, dfsLoop]
      exact ih _ _

/-- `m` lies in the child range of `p`. -/
@[reducible] def isChildOf (s : Octree) (p m : ℕ) : Prop :=
  ∃ c : ℕ, s.np.getFirstChild p = (c : ℤ) ∧ c ≤ m ∧ m < c + 8

/-- Invariant of the traversal loop: all pending and visited nodes are
allocated and distinct, and every one of them is the root or the child of an
already-visited node. -/
@[reducible] def DInv (s : Octree) (V stack : List ℕ) : Prop :=
  (∀ m ∈ stack ++ V, m < s.np.count) ∧
  (stack ++ V).Nodup ∧
  (∀ m ∈ stack ++ V, m = s.root ∨ ∃ p, p ∈ V ∧ isChildOf s p m)

/-- Reachability from a node through children that pass the pruning test. -/
inductive PathTo (s : Octree) (push : ℕ → Bool) : ℕ → ℕ → Prop
  | refl (n : ℕ) : PathTo s push n n
  | child {n m : ℕ} (c i : ℕ) (hc : s.np.getFirstChild n = (c : ℤ)) (hi : i < 8)
      (hpush : push (c + i) = true) (h : PathTo s push (c + i) m) : PathTo s push n m

theorem PathTo.snoc {s : Octree} {push : ℕ → Bool} {a b : ℕ} (h : PathTo s push a b)
    {c : ℕ} (i : ℕ) (hc : s.np.getFirstChild b = (c : ℤ)) (hi : i < 8)
    (hpush : push (c + i) = true) : PathTo s push a (c + i) := by
  induction h with
  | refl n => exact PathTo.child c i hc hi hpush (PathTo.refl _)
  | child c' i' hc' hi' hpush' h ih => exact PathTo.child c' i' hc' hi' hpush' (ih hc)

/-- Membership in the child-pushing fold. -/
theorem foldl_push_mem (push : ℕ → Bool) (c : ℕ) :
    ∀ (l : List ℕ) (st : List ℕ) (m : ℕ),
    (m ∈ l.foldl (fun st i => if push (c + i) then (c + i) :: st else st) st ↔
      (m ∈ st ∨ ∃ i ∈ l, m = c + i ∧ push (c + i) = true)) := by
  intro l
  induction l with
  | nil => simp
  | cons x t ih =>
    intro st m
    simp only [List.foldl_cons]
    rw [ih]
    by_cases hp : push (c + x) = true
    · rw [if_pos hp]
      simp only [List.mem_cons]
      constructor
      · rintro ((rfl | hm) | ⟨i, hi, rfl, hpi⟩)
        · exact Or.inr ⟨x, by simp, rfl, hp⟩
        · exact Or.inl hm
        · exact Or.inr ⟨i, by simp [hi], rfl, hpi⟩
      · rintro (hm | ⟨i, hi, rfl, hpi⟩)
        · exact Or.inl (Or.inr hm)
        · rcases hi with rfl | hi
          · exact Or.inl (Or.inl rfl)
          · exact Or.inr ⟨i, hi, rfl, hpi⟩
    · rw [if_neg hp]
      constructor
      · rintro (hm | ⟨i, hi, rfl, hpi⟩)
        · exact Or.inl hm
        · exact Or.inr ⟨i, List.mem_cons_of_mem x hi, rfl, hpi⟩
      · rintro (hm | ⟨i, hi, rfl, hpi⟩)
        · exact Or.inl hm
        · rcases List.mem_cons.1 hi with rfl | hi
          · exact absurd hpi hp
          · exact Or.inr ⟨i, hi, rfl, hpi⟩

/-- The child-pushing fold keeps the stack duplicate-free. -/
theorem foldl_push_nodup (push : ℕ → Bool) (c : ℕ) :
    ∀ (l : List ℕ) (st : List ℕ), l.Nodup → st.Nodup →
    (∀ i ∈ l, c + i ∉ st) →
    (l.foldl (fun st i => if push (c + i) then (c + i) :: st else st) st).Nodup := by
  intro l
  induction l with
  | nil => intro st _ hst _; exact hst
  | cons x t ih =>
    intro st hl hst hfresh
    simp only [List.foldl_cons]
    simp only [List.nodup_cons] at hl
    by_cases hp : push (c + x) = true
    · rw [if_pos hp]
      refine ih _ hl.2 (List.nodup_cons.2 ⟨hfresh x (by simp), hst⟩) ?_
      intro i hi
      simp only [List.mem_cons, not_or]
      refine ⟨?_, hfresh i (by simp [hi])⟩
      intro he
      have hix : i = x := by omega
      subst hix
      exact hl.1 hi
    · rw [if_neg hp]
      exact ih _ hl.2 hst (fun i hi => hfresh i (by simp [hi]))

end Octree

/-- A duplicate-free list of naturals below `k` has length at most `k`. -/
theorem nodup_lt_length_le {l : List ℕ} {k : ℕ} (hnd : l.Nodup) (hlt : ∀ x ∈ l, x < k) :
    l.length ≤ k := by
  have h1 : l.toFinset.card = l.length := List.toFinset_card_of_nodup hnd
  have h2 : l.toFinset ⊆ Finset.range k := fun x hx =>
    Finset.mem_range.2 (hlt x (List.mem_toFinset.1 hx))
  have h3 := Finset.card_le_card h2
  rw [h1] at h3
  simpa using h3

namespace Octree

/-- The generic traversal: starting from a valid stack, the loop terminates
with an empty stack having processed, exactly once each, exactly the nodes
reachable from the stack through pruning-test-passing children. -/
theorem dfsLoop_spec {α : Type} {s : Octree} (hinv : Inv s) (push : ℕ → Bool)
    (step : α → ℕ → α) :
    ∀ (fuel : ℕ) (V stack : List ℕ) (acc : α),
    DInv s V stack →
    s.np.count < fuel + V.length →
    ∃ visits : List ℕ,
      dfsLoop s push step fuel stack acc = (visits.foldl step acc, []) ∧
      (visits ++ V).Nodup ∧
      (∀ m ∈ visits, m < s.np.count) ∧
      (∀ m, m ∈ visits ↔ ∃ n ∈ stack, PathTo s push n m) := by
  intro fuel
  induction fuel with
  | zero =>
    intro V stack acc hD hfuel
    obtain ⟨hlt, hnd, -⟩ := hD
    have hVnd : V.Nodup := (List.nodup_append.1 hnd).2.1
    have hVlt : ∀ x ∈ V, x < s.np.count := fun x hx => hlt x (List.mem_append_right _ hx)
    have hVlen := nodup_lt_length_le hVnd hVlt
    exact absurd hfuel (by omega)
  | succ fuel ih =>
    intro V stack acc hD hfuel
    cases stack with
    | nil =>
      refine ⟨[], by rw [dfsLoop]; rfl, hD.2.1, ?_, ?_⟩
      · intro m hm; cases hm
      · intro m; simp
    | cons n rest =>
      obtain ⟨hlt, hnd, horig⟩ := hD
      have hn_lt : n < s.np.count := hlt n (by simp)
      have hnd' : (n :: (rest ++ V)).Nodup := by simpa using hnd
      have hn_notin : n ∉ rest ++ V := (List.nodup_cons.1 hnd').1
      have hrestV_nd : (rest ++ V).Nodup := (List.nodup_cons.1 hnd').2
      rcases hinv.fc_spec n hn_lt with hleaf | ⟨c, hc, hnc, hc8, hch⟩
      · -- leaf: nothing is pushed
        have hstep : dfsLoop s push step (fuel + 1) (n :: rest) acc
            = dfsLoop s push step fuel rest (step acc n) := by
          rw [dfsLoop]
          have hno : ¬ (s.np.getFirstChild n ≠ -1) := by rw [hleaf]; simp
          rw [if_neg hno]
        have hD' : DInv s (n :: V) rest := by
          refine ⟨?_, ?_, ?_⟩
          · intro m hm
            rcases List.mem_append.1 hm with hm | hm
            · exact hlt m (by simp [hm])
            · rcases List.mem_cons.1 hm with rfl | hm
              · exact hn_lt
              · exact hlt m (by simp [hm])
          · have hperm : (rest ++ n :: V).Perm (n :: (rest ++ V)) := List.perm_middle
            exact hperm.nodup_iff.2 hnd'
          · intro m hm
            have hm' : m ∈ (n :: rest) ++ V := by
              rcases List.mem_append.1 hm with hm | hm
              · simp [hm]
              · rcases List.mem_cons.1 hm with rfl | hm
                · simp
                · simp [hm]
            rcases horig m hm' with h | ⟨p, hp, hpc⟩
            · exact Or.inl h
            · exact Or.inr ⟨p, by simp [hp], hpc⟩
        obtain ⟨visits, hrun, hvnd, hvlt, hviff⟩ := ih (n :: V) rest (step acc n) hD'
          (by simp only [List.length_cons]; omega)
        refine ⟨n :: visits, ?_, ?_, ?_, ?_⟩
        · rw [hstep, hrun]
          rfl
        · have hperm : (visits ++ n :: V).Perm (n :: (visits ++ V)) := List.perm_middle
          have hv2 := hperm.nodup_iff.1 hvnd
          simpa using hv2
        · intro m hm
          rcases List.mem_cons.1 hm with rfl | hm
          · exact hn_lt
          · exact hvlt m hm
        · intro m
          constructor
          · intro hm
            rcases List.mem_cons.1 hm with rfl | hm
            · exact ⟨_, List.mem_cons_self _ _, PathTo.refl _⟩
            · obtain ⟨q, hq, hpath⟩ := (hviff m).1 hm
              exact ⟨q, by simp [hq], hpath⟩
          · rintro ⟨q, hq, hpath⟩
            rcases List.mem_cons.1 hq with rfl | hq
            · cases hpath with
              | refl => exact List.mem_cons_self _ _
              | child c' i' hc' hi' hpush' h' =>
                rw [hleaf] at hc'
                exact absurd hc' (by omega)
            · exact List.mem_cons_of_mem n ((hviff m).2 ⟨q, hq, hpath⟩)
      · -- internal: push the children passing the test
        have hfc_ne : s.np.getFirstChild n ≠ -1 := by rw [hc]; omega
        have htn : (s.np.getFirstChild n).toNat = c := by rw [hc]; simp
        have hstack_eq : (if s.np.getFirstChild n ≠ -1 then
              (List.range 8).foldl (fun st i =>
                if push ((s.np.getFirstChild n).toNat + i)
                then ((s.np.getFirstChild n).toNat + i) :: st else st) rest
            else rest)
            = (List.range 8).foldl (fun st i =>
                if push (c + i) then (c + i) :: st else st) rest := by
          rw [if_pos hfc_ne, htn]
        have hstep : dfsLoop s push step (fuel + 1) (n :: rest) acc
            = dfsLoop s push step fuel
                ((List.range 8).foldl (fun st i =>
                  if push (c + i) then (c + i) :: st else st) rest) (step acc n) := by
          rw [dfsLoop, hstack_eq]
        set stack' := (List.range 8).foldl (fun st i =>
          if push (c + i) then (c + i) :: st else st) rest with hstack'
        have hfresh : ∀ i, i < 8 → c + i ∉ rest ++ V := by
          intro i hi hmem
          have hmem2 : c + i ∈ (n :: rest) ++ V := by
            rcases List.mem_append.1 hmem with h | h
            · simp [h]
            · simp [h]
          rcases horig (c + i) hmem2 with h | ⟨p, hp, c', hc', hle, hlt'⟩
          · have hpar := (hch i hi).1
            have hroot := hinv.root_parent
            rw [← h] at hroot
            rw [hroot] at hpar
            exact absurd hpar (by omega)
          · have hplt : p < s.np.count := hlt p (List.mem_append_right _ hp)
            have hpne : p ≠ n := by
              intro he
              subst he
              exact hn_notin (List.mem_append_right _ hp)
            rcases hinv.fc_spec p hplt with hpl | ⟨c'', hcc, -, -, hch'⟩
            · rw [hpl] at hc'
              exact absurd hc' (by omega)
            · have hceq : c'' = c' := by
                rw [hcc] at hc'
                omega
              subst hceq
              have hj : c + i - c'' < 8 := by omega
              have hje : c'' + (c + i - c'') = c + i := by omega
              have hpar2 := (hch' _ hj).1
              rw [hje] at hpar2
              have hpar1 := (hch i hi).1
              rw [hpar1] at hpar2
              have hnp : n = p := by omega
              exact hpne hnp.symm
        have hfresh_n : ∀ i, i < 8 → c + i ≠ n := by
          intro i hi
          omega
        have hmem2 : ∀ m, m ∈ stack' ↔
            (m ∈ rest ∨ ∃ i ∈ List.range 8, m = c + i ∧ push (c + i) = true) := by
          intro m
          rw [hstack']
          exact foldl_push_mem push c (List.range 8) rest m
        have hnd2 : stack'.Nodup := by
          rw [hstack']
          refine foldl_push_nodup push c (List.range 8) rest (List.nodup_range 8)
            ((List.nodup_append.1 hrestV_nd).1) ?_
          intro i hi hmem
          exact hfresh i (by simpa using hi) (List.mem_append_left _ hmem)
        have hD' : DInv s (n :: V) stack' := by
          refine ⟨?_, ?_, ?_⟩
          · intro m hm
            rcases List.mem_append.1 hm with hm | hm
            · rcases (hmem2 m).1 hm with hm | ⟨i, hi, rfl, -⟩
              · exact hlt m (by simp [hm])
              · have hi8 : i < 8 := by simpa using hi
                omega
            · rcases List.mem_cons.1 hm with rfl | hm
              · exact hn_lt
              · exact hlt m (by simp [hm])
          · rw [List.nodup_append]
            refine ⟨hnd2, ?_, ?_⟩
            · simp only [List.nodup_cons]
              exact ⟨fun h => hn_notin (List.mem_append_right _ h),
                (List.nodup_append.1 hrestV_nd).2.1⟩
            · intro m hm hm2'
              rcases (hmem2 m).1 hm with hm | ⟨i, hi, rfl, -⟩
              · rcases List.mem_cons.1 hm2' with rfl | hm2'
                · exact hn_notin (List.mem_append_left _ hm)
                · exact (List.disjoint_of_nodup_append hrestV_nd) hm hm2'
              · have hi8 : i < 8 := by simpa using hi
                rcases List.mem_cons.1 hm2' with he | hm2'
                · exact hfresh_n i hi8 he
                · exact hfresh i hi8 (List.mem_append_right _ hm2')
          · intro m hm
            rcases List.mem_append.1 hm with hm | hm
            · rcases (hmem2 m).1 hm with hm | ⟨i, hi, rfl, -⟩
              · rcases horig m (by simp [hm]) with h | ⟨p, hp, hpc⟩
                · exact Or.inl h
                · exact Or.inr ⟨p, by simp [hp], hpc⟩
              · have hi8 : i < 8 := by simpa using hi
                exact Or.inr ⟨n, by simp, c, hc, by omega, by omega⟩
            · rcases List.mem_cons.1 hm with rfl | hm
              · rcases horig m (by simp) with h | ⟨p, hp, hpc⟩
                · exact Or.inl h
                · exact Or.inr ⟨p, by simp [hp], hpc⟩
              · rcases horig m (by simp [hm]) with h | ⟨p, hp, hpc⟩
                · exact Or.inl h
                · exact Or.inr ⟨p, by simp [hp], hpc⟩
        obtain ⟨visits, hrun, hvnd, hvlt, hviff⟩ := ih (n :: V) stack' (step acc n) hD'
          (by simp only [List.length_cons]; omega)
        refine ⟨n :: visits, ?_, ?_, ?_, ?_⟩
        · rw [hstep, hrun]
          rfl
        · have hperm : (visits ++ n :: V).Perm (n :: (visits ++ V)) := List.perm_middle
          have hv2 := hperm.nodup_iff.1 hvnd
          simpa using hv2
        · intro m hm
          rcases List.mem_cons.1 hm with rfl | hm
          · exact hn_lt
          · exact hvlt m hm
        · intro m
          constructor
          · intro hm
            rcases List.mem_cons.1 hm with rfl | hm
            · exact ⟨_, List.mem_cons_self _ _, PathTo.refl _⟩
            · obtain ⟨q, hq, hpath⟩ := (hviff m).1 hm
              rcases (hmem2 q).1 hq with hq' | ⟨i, hi, rfl, hpush⟩
              · exact ⟨q, by simp [hq'], hpath⟩
              · exact ⟨n, by simp, PathTo.child c i hc (by simpa using hi) hpush hpath⟩
          · rintro ⟨q, hq, hpath⟩
            rcases List.mem_cons.1 hq with rfl | hq
            · cases hpath with
              | refl => exact List.mem_cons_self _ _
              | child c' i' hc' hi' hpush' h' =>
                have hcc : c' = c := by
                  rw [hc] at hc'
                  omega
                rw [hcc] at hpush' h'
                refine List.mem_cons_of_mem _ ((hviff m).2 ⟨c + i', ?_, h'⟩)
                exact (hmem2 _).2 (Or.inr ⟨i', by simpa using hi', rfl, hpush'⟩)
            · exact List.mem_cons_of_mem _
                ((hviff m).2 ⟨q, (hmem2 q).2 (Or.inl hq), hpath⟩)

end Octree

theorem Inv.set_stack_nil {s : Octree} (h : Inv s) : Inv { s with stack := [] } :=
  ⟨h.buflen_np, h.count_le, h.root_lt, h.root_parent, h.fc_spec, h.parent_spec, h.boxes_wf,
   h.map_node_lt, h.map_in_list, h.list_in_map, h.lists_nodup, h.objs_le, h.fits_inv,
   h.aabb_wf, h.keys_nodup, h.sum_eq, rfl⟩

namespace Octree

/-- The traversal invariant holds for the initial root stack. -/
theorem DInv_root {s : Octree} (hinv : Inv s) : DInv s [] [s.root] := by
  refine ⟨?_, ?_, ?_⟩
  · intro m hm
    simp only [List.append_nil, List.mem_singleton] at hm
    subst hm
    exact hinv.root_lt
  · simp
  · intro m hm
    simp only [List.append_nil, List.mem_singleton] at hm
    exact Or.inl hm

/-- Full run characterisation of `queryBox`: either the root misses the query
box, or the iterative DFS terminates with an empty stack having visited, once
each, exactly the nodes reachable from the root through overlapping children.
-/
theorem queryBox_cases {s : Octree} (hinv : Inv s) (q : Aabb) :
    (aabbOverlapsBox (s.np.getAABB s.root) q = false ∧ queryBox s q = ([], s)) ∨
    (aabbOverlapsBox (s.np.getAABB s.root) q = true ∧
      ∃ visits : List ℕ,
        queryBox s q
          = (visits.foldl (fun acc nodeIdx => acc ++ (s.np.node nodeIdx).objs.filter
              (fun objIdx => aabbOverlapsBox (s.ap.getAabb objIdx) q)) [],
             { s with stack := [] }) ∧
        visits.Nodup ∧ (∀ m ∈ visits, m < s.np.count) ∧
        (∀ m, m ∈ visits ↔
          PathTo s (fun m => aabbOverlapsBox (s.np.getAABB m) q) s.root m)) := by
  cases hov : aabbOverlapsBox (s.np.getAABB s.root) q with
  | false =>
    refine Or.inl ⟨rfl, ?_⟩
    rw [queryBox, if_pos (by rw [hov]; rfl)]
  | true =>
    refine Or.inr ⟨rfl, ?_⟩
    obtain ⟨visits, hrun, hnd, hlt, hiff⟩ := dfsLoop_spec hinv
      (fun m => aabbOverlapsBox (s.np.getAABB m) q)
      (fun acc nodeIdx => acc ++ (s.np.node nodeIdx).objs.filter
        (fun objIdx => aabbOverlapsBox (s.ap.getAabb objIdx) q))
      (s.np.count + 1) [] [s.root] [] (DInv_root hinv) (by simp)
    have hiff' : ∀ m, m ∈ visits ↔
        PathTo s (fun m => aabbOverlapsBox (s.np.getAABB m) q) s.root m := by
      intro m
      rw [hiff m]
      constructor
      · rintro ⟨n, hn, hp⟩
        simp only [List.mem_singleton] at hn
        subst hn
        exact hp
      · intro hp
        exact ⟨s.root, by simp, hp⟩
    refine ⟨visits, ?_, by simpa using hnd, hlt, hiff'⟩
    rw [queryBox, if_neg (by rw [hov]; simp)]
    rw [queryLoop_eq_dfs, hrun]

theorem queryBox_preserves {s : Octree} (hinv : Inv s) (q : Aabb) :
    Inv (queryBox s q).2 := by
  rcases queryBox_cases hinv q with ⟨-, heq⟩ | ⟨-, visits, heq, -⟩
  · rw [heq]
    exact hinv
  · rw [heq]
    exact hinv.set_stack_nil

/-- Full run characterisation of `raycast`. -/
theorem raycast_cases {s : Octree} (hinv : Inv s) (r : Ray) :
    (FVal.flt (rayIntersectsAABB r (s.np.getAABB s.root)) (FVal.fin 0) = true ∧
      raycast s r = (none, s)) ∨
    (FVal.flt (rayIntersectsAABB r (s.np.getAABB s.root)) (FVal.fin 0) = false ∧
      ∃ visits : List ℕ,
        (∀ m, m ∈ visits ↔ PathTo s
          (fun m => FVal.fle (FVal.fin 0) (rayIntersectsAABB r (s.np.getAABB m)))
          s.root m) ∧
        visits.Nodup ∧ (∀ m ∈ visits, m < s.np.count) ∧
        raycast s r =
          ((if (visits.foldl (fun b nodeIdx => (s.np.node nodeIdx).objs.foldl
              (fun (b : FVal × ℤ) objIdx =>
                if FVal.fle (FVal.fin 0) (rayIntersectsAABB r (s.ap.getAabb objIdx)) &&
                   FVal.flt (rayIntersectsAABB r (s.ap.getAabb objIdx)) b.1
                then (rayIntersectsAABB r (s.ap.getAabb objIdx), (objIdx : ℤ)) else b) b)
              (FVal.pinf, -1)).2 = -1
            then none
            else some ((visits.foldl (fun b nodeIdx => (s.np.node nodeIdx).objs.foldl
              (fun (b : FVal × ℤ) objIdx =>
                if FVal.fle (FVal.fin 0) (rayIntersectsAABB r (s.ap.getAabb objIdx)) &&
                   FVal.flt (rayIntersectsAABB r (s.ap.getAabb objIdx)) b.1
                then (rayIntersectsAABB r (s.ap.getAabb objIdx), (objIdx : ℤ)) else b) b)
              (FVal.pinf, -1)).2.toNat,
              (visits.foldl (fun b nodeIdx => (s.np.node nodeIdx).objs.foldl
              (fun (b : FVal × ℤ) objIdx =>
                if FVal.fle (FVal.fin 0) (rayIntersectsAABB r (s.ap.getAabb objIdx)) &&
                   FVal.flt (rayIntersectsAABB r (s.ap.getAabb objIdx)) b.1
                then (rayIntersectsAABB r (s.ap.getAabb objIdx), (objIdx : ℤ)) else b) b)
              (FVal.pinf, -1)).1)),
           { s with stack := [] })) := by
  cases hrt : FVal.flt (rayIntersectsAABB r (s.np.getAABB s.root)) (FVal.fin 0) with
  | true =>
    refine Or.inl ⟨rfl, ?_⟩
    rw [raycast, if_pos (by rw [hrt])]
  | false =>
    refine Or.inr ⟨rfl, ?_⟩
    obtain ⟨visits, hrun, hnd, hlt, hiff⟩ := dfsLoop_spec hinv
      (fun m => FVal.fle (FVal.fin 0) (rayIntersectsAABB r (s.np.getAABB m)))
      (fun b nodeIdx => (s.np.node nodeIdx).objs.foldl
        (fun (b : FVal × ℤ) objIdx =>
          let t := rayIntersectsAABB r (s.ap.getAabb objIdx)
          if FVal.fle (FVal.fin 0) t && FVal.flt t b.1 then (t, (objIdx : ℤ)) else b) b)
      (s.np.count + 1) [] [s.root] (FVal.pinf, -1) (DInv_root hinv) (by simp)
    have hiff' : ∀ m, m ∈ visits ↔ PathTo s
        (fun m => FVal.fle (FVal.fin 0) (rayIntersectsAABB r (s.np.getAABB m)))
        s.root m := by
      intro m
      rw [hiff m]
      constructor
      · rintro ⟨n, hn, hp⟩
        simp only [List.mem_singleton] at hn
        subst hn
        exact hp
      · intro hp
        exact ⟨s.root, by simp, hp⟩
    refine ⟨visits, hiff', by simpa using hnd, hlt, ?_⟩
    rw [raycast, if_neg (by rw [hrt]; simp)]
    rw [rayLoop_eq_dfs, hrun]

theorem raycast_preserves {s : Octree} (hinv : Inv s) (r : Ray) :
    Inv (raycast s r).2 := by
  rcases raycast_cases hinv r with ⟨-, heq⟩ | ⟨-, visits, -, -, -, heq⟩
  · rw [heq]
    exact hinv
  · rw [heq]
    exact hinv.set_stack_nil

end Octree

/-- Every reachable state satisfies the invariant. -/
theorem reach_inv : ∀ s, Reach s → Inv s := by
  intro s h
  induction h with
  | init npCap apCap bounds hcap hwf => exact initial_inv npCap apCap bounds hcap hwf
  | writeAabb h i a hun ih => exact writeAabb_preserves ih a hun
  | insert h obj hun hwf hfits hfuel hcap ih =>
    exact insert_preserves ih hun hwf hfits hfuel hcap
  | update h obj a hwf hfits hfuel hcap ih =>
    exact update_preserves ih hwf hfits hfuel hcap
  | remove h obj ih => exact remove_preserves ih obj
  | raycast h r ih => exact raycast_preserves ih r
  | queryBox h q ih => exact queryBox_preserves ih q

namespace Octree

/-- Every allocated node's AABB is contained in the root's. -/
theorem node_sub_root {s : Octree} (hinv : Inv s) :
    ∀ n, n < s.np.count → aabbSub (s.np.getAABB n) (s.np.getAABB s.root) := by
  intro n
  induction n using Nat.strong_induction_on with
  | _ n ih =>
    intro hn
    rcases eq_or_ne n s.root with rfl | hne
    · exact aabbSub_refl _
    · obtain ⟨p, hp, hpm, c, hc, h2, h3⟩ := hinv.parent_spec n hn hne
      have hplt : p < s.np.count := by omega
      rcases hinv.fc_spec p hplt with hpl | ⟨c', hc', -, -, hch⟩
      · rw [hpl] at hc
        exact absurd hc (by omega)
      · have hcc : c' = c := by
          rw [hc'] at hc
          omega
        subst hcc
        have hj : n - c' < 8 := by omega
        have hje : c' + (n - c') = n := by omega
        have hsub := (hch _ hj).2
        rw [hje] at hsub
        exact aabbSub_trans hsub (ih p hpm hplt)

end Octree

/-- Inclusive overlap is monotone in box inclusion. -/
theorem overlaps_mono {a b q : Aabb} (hsub : aabbSub a b)
    (hov : aabbOverlapsBox a q = true) : aabbOverlapsBox b q = true := by
  unfold aabbOverlapsBox at hov ⊢
  obtain ⟨x1, y1, z1, x2, y2, z2⟩ := hsub
  simp only [Bool.and_eq_true, decide_eq_true_eq] at hov ⊢
  obtain ⟨⟨⟨⟨⟨h1, h2⟩, h3⟩, h4⟩, h5⟩, h6⟩ := hov
  refine ⟨⟨⟨⟨⟨?_, ?_⟩, ?_⟩, ?_⟩, ?_⟩, ?_⟩ <;> linarith

namespace Octree

/-- Any pruning test that passes on every node containing the object's AABB
admits a path from the root to the object's node. -/
theorem path_to_node {s : Octree} (hinv : Inv s) (push : ℕ → Bool)
    {o : ℕ} (hpush : ∀ m, m < s.np.count →
      aabbSub (s.aabbAt o) (s.np.getAABB m) → push m = true) :
    ∀ n, n < s.np.count → aabbSub (s.aabbAt o) (s.np.getAABB n) →
      PathTo s push s.root n := by
  intro n
  induction n using Nat.strong_induction_on with
  | _ n ih =>
    intro hn hsub
    rcases eq_or_ne n s.root with rfl | hne
    · exact PathTo.refl _
    · obtain ⟨p, hp, hpm, c, hc, h2, h3⟩ := hinv.parent_spec n hn hne
      have hplt : p < s.np.count := by omega
      rcases hinv.fc_spec p hplt with hpl | ⟨c', hc', -, -, hch⟩
      · rw [hpl] at hc
        exact absurd hc (by omega)
      · have hcc : c' = c := by
          rw [hc'] at hc
          omega
        subst hcc
        have hj : n - c' < 8 := by omega
        have hje : c' + (n - c') = n := by omega
        have hboxsub := (hch _ hj).2
        rw [hje] at hboxsub
        have hpath_p := ih p hpm hplt (aabbSub_trans hsub hboxsub)
        have hstep := PathTo.snoc hpath_p (n - c') hc' hj
          (by rw [hje]; exact hpush n hn hsub)
        rw [hje] at hstep
        exact hstep

end Octree

/-- Membership in the append-accumulating fold. -/
theorem foldl_append_mem {g : ℕ → List ℕ} :
    ∀ (visits : List ℕ) (acc : List ℕ) (o : ℕ),
    (o ∈ visits.foldl (fun acc n => acc ++ g n) acc ↔
      o ∈ acc ∨ ∃ n ∈ visits, o ∈ g n) := by
  intro visits
  induction visits with
  | nil => simp
  | cons v t ih =>
    intro acc o
    simp only [List.foldl_cons]
    rw [ih]
    constructor
    · rintro (hm | ⟨n, hn, hgn⟩)
      · rcases List.mem_append.1 hm with h | h
        · exact Or.inl h
        · exact Or.inr ⟨v, by simp, h⟩
      · exact Or.inr ⟨n, by simp [hn], hgn⟩
    · rintro (hm | ⟨n, hn, hgn⟩)
      · exact Or.inl (List.mem_append_left _ hm)
      · rcases List.mem_cons.1 hn with rfl | hn
        · exact Or.inl (List.mem_append_right _ hgn)
        · exact Or.inr ⟨n, hn, hgn⟩

/-- Duplicate-freeness of the append-accumulating fold. -/
theorem foldl_append_nodup {g : ℕ → List ℕ} :
    ∀ (visits : List ℕ) (acc : List ℕ),
    acc.Nodup → visits.Nodup →
    (∀ n ∈ visits, (g n).Nodup) →
    (∀ n ∈ visits, ∀ o ∈ g n, o ∉ acc) →
    (∀ n ∈ visits, ∀ n' ∈ visits, n ≠ n' → ∀ o ∈ g n, o ∉ g n') →
    (visits.foldl (fun acc n => acc ++ g n) acc).Nodup := by
  intro visits
  induction visits with
  | nil => intro acc hacc _ _ _ _; exact hacc
  | cons v t ih =>
    intro acc hacc hvnd hgnd hdisj hpair
    simp only [List.nodup_cons] at hvnd
    simp only [List.foldl_cons]
    refine ih _ ?_ hvnd.2 (fun n hn => hgnd n (by simp [hn])) ?_ ?_
    · rw [List.nodup_append]
      exact ⟨hacc, hgnd v (by simp), fun o ho ho' => hdisj v (by simp) o ho' ho⟩
    · intro n hn o ho hmem
      rcases List.mem_append.1 hmem with h | h
      · exact hdisj n (by simp [hn]) o ho h
      · exact hpair v (by simp) n (by simp [hn])
          (by rintro rfl; exact hvnd.1 hn) o h ho
    · intro n hn n' hn' hne o ho
      exact hpair n (by simp [hn]) n' (by simp [hn']) hne o ho

namespace Octree

/-- Exactness of `queryBox` on invariant states: the returned list holds,
without duplicates, exactly the tracked objects whose stored AABB overlaps
the query box. -/
theorem queryBox_exact {s : Octree} (hinv : Inv s) (q : Aabb) :
    (queryBox s q).1.Nodup ∧
    ∀ o, o ∈ (queryBox s q).1 ↔
      (∃ n, mapGet s.objectNodeMap o = some n) ∧
      aabbOverlapsBox (s.aabbAt o) q = true := by
  rcases queryBox_cases hinv q with ⟨hov, heq⟩ | ⟨hov, visits, heq, hnd, hlt, hiff⟩
  · rw [heq]
    refine ⟨List.nodup_nil, ?_⟩
    intro o
    simp only [List.not_mem_nil, false_iff, not_and]
    rintro ⟨n, hn⟩ hovo
    have hnlt := hinv.map_node_lt o n hn
    have h1 : aabbSub (s.aabbAt o) (s.np.getAABB n) := hinv.fits_inv o n hn
    have h2 := node_sub_root hinv n hnlt
    have h3 := overlaps_mono (aabbSub_trans h1 h2) hovo
    rw [hov] at h3
    cases h3
  · rw [heq]
    constructor
    · refine foldl_append_nodup visits [] List.nodup_nil hnd ?_ ?_ ?_
      · intro n hn
        exact List.Nodup.filter _ (hinv.lists_nodup n (hlt n hn))
      · intro n hn o ho hmem
        cases hmem
      · intro n hn n' hn' hne o ho hmem'
        have h1 := hinv.list_in_map n (hlt n hn) o (List.mem_of_mem_filter ho)
        have h2 := hinv.list_in_map n' (hlt n' hn') o (List.mem_of_mem_filter hmem')
        rw [h1] at h2
        exact hne (Option.some.inj h2)
    · intro o
      rw [foldl_append_mem]
      simp only [List.not_mem_nil, false_or]
      constructor
      · rintro ⟨n, hn, ho⟩
        have hmem := List.mem_of_mem_filter ho
        have hpred := List.of_mem_filter ho
        simp only [decide_eq_true_eq] at hpred
        exact ⟨⟨n, hinv.list_in_map n (hlt n hn) o hmem⟩, hpred⟩
      · rintro ⟨⟨n, hn⟩, hovo⟩
        have hnlt := hinv.map_node_lt o n hn
        have hpath := path_to_node hinv
          (fun m => aabbOverlapsBox (s.np.getAABB m) q)
          (fun m hm hsubm => overlaps_mono hsubm hovo) n hnlt (hinv.fits_inv o n hn)
        refine ⟨n, (hiff n).2 hpath, ?_⟩
        refine List.mem_filter.2 ⟨hinv.map_in_list o n hn, ?_⟩
        exact hovo

end Octree

namespace FVal

theorem flt_fin (a b : ℚ) : flt (fin a) (fin b) = decide (a < b) := rfl

theorem fle_fin (a b : ℚ) : fle (fin a) (fin b) = decide (a ≤ b) := rfl

theorem mul_fin_fin (a b : ℚ) : mul (fin a) (fin b) = fin (a * b) := rfl

theorem recip_ne {d : ℚ} (h : d ≠ 0) : recip d = fin d⁻¹ := by
  simp [recip, h]

theorem fmin_fin (a b : ℚ) : fmin (fin a) (fin b) = fin (min a b) := by
  unfold fmin
  rw [if_neg (by simp), flt_fin]
  by_cases h : b < a
  · rw [if_pos (by simpa using h), min_eq_right (le_of_lt h)]
  · rw [if_neg (by simpa using h), min_eq_left (le_of_not_lt h)]

theorem fmax_fin (a b : ℚ) : fmax (fin a) (fin b) = fin (max a b) := by
  unfold fmax
  rw [if_neg (by simp), flt_fin]
  by_cases h : a < b
  · rw [if_pos (by simpa using h), max_eq_right (le_of_lt h)]
  · rw [if_neg (by simpa using h), max_eq_left (le_of_not_lt h)]

theorem fle_trans : ∀ {x y z : FVal}, fle x y = true → fle y z = true → fle x z = true := by
  intro x y z h1 h2
  cases x <;> cases y <;> cases z <;>
    simp_all [fle, beq_iff_eq] <;> linarith

theorem fle_refl_of_shape : ∀ {x : FVal}, x ≠ nan → fle x x = true := by
  intro x h
  cases x <;> simp_all [fle]

theorem fle_of_flt : ∀ {x y : FVal}, flt x y = true → fle x y = true := by
  intro x y h
  cases x <;> cases y <;> simp_all [fle, flt, beq_iff_eq] <;> linarith

theorem flt_zero_of_fle : ∀ {v : FVal}, fle (fin 0) v = true → flt v (fin 0) = false := by
  intro v h
  cases v <;> simp_all [fle, flt] <;> linarith

end FVal

/-- The per-axis slab interval extremes over rationals, matching the kernel
computation for a nonzero direction component. -/
def qTmin (r : Ray) (b : Aabb) : ℚ :=
  max (max (min ((b.minX - r.ox) * r.dx⁻¹) ((b.maxX - r.ox) * r.dx⁻¹))
           (min ((b.minY - r.oy) * r.dy⁻¹) ((b.maxY - r.oy) * r.dy⁻¹)))
      (min ((b.minZ - r.oz) * r.dz⁻¹) ((b.maxZ - r.oz) * r.dz⁻¹))

def qTmax (r : Ray) (b : Aabb) : ℚ :=
  min (min (max ((b.minX - r.ox) * r.dx⁻¹) ((b.maxX - r.ox) * r.dx⁻¹))
           (max ((b.minY - r.oy) * r.dy⁻¹) ((b.maxY - r.oy) * r.dy⁻¹)))
      (max ((b.minZ - r.oz) * r.dz⁻¹) ((b.maxZ - r.oz) * r.dz⁻¹))

/-- The rational value the kernel returns for a nonzero-direction ray. -/
def rayValQ (r : Ray) (b : Aabb) : ℚ :=
  if qTmax r b < 0 ∨ ¬ (qTmin r b ≤ qTmax r b) then -1
  else if 0 ≤ qTmin r b then qTmin r b else qTmax r b

theorem fin_branch (A B : ℚ) :
    (if (FVal.flt (FVal.fin B) (FVal.fin 0) || !(FVal.fle (FVal.fin A) (FVal.fin B)))
      then FVal.fin (-1)
      else if FVal.fle (FVal.fin 0) (FVal.fin A) then FVal.fin A else FVal.fin B)
    = if B < 0 ∨ ¬ (A ≤ B) then FVal.fin (-1)
      else if 0 ≤ A then FVal.fin A else FVal.fin B := by
  by_cases h1 : B < 0 <;> by_cases h2 : A ≤ B <;> by_cases h3 : 0 ≤ A <;>
    simp [FVal.flt_fin, FVal.fle_fin, h1, h2, h3]

/-- For a ray with nonzero direction components the kernel computes a purely
rational slab test. -/
theorem ray_nonzero_eval {r : Ray} (hx : r.dx ≠ 0) (hy : r.dy ≠ 0) (hz : r.dz ≠ 0)
    (b : Aabb) :
    rayIntersectsAABB r b =
      if qTmax r b < 0 ∨ ¬ (qTmin r b ≤ qTmax r b) then FVal.fin (-1)
      else if 0 ≤ qTmin r b then FVal.fin (qTmin r b) else FVal.fin (qTmax r b) := by
  unfold rayIntersectsAABB qTmin qTmax
  rw [FVal.recip_ne hx, FVal.recip_ne hy, FVal.recip_ne hz]
  simp only [FVal.mul_fin_fin, FVal.fmin_fin, FVal.fmax_fin]
  exact fin_branch _ _

theorem ray_nonzero_fin {r : Ray} (hx : r.dx ≠ 0) (hy : r.dy ≠ 0) (hz : r.dz ≠ 0)
    (b : Aabb) : rayIntersectsAABB r b = FVal.fin (rayValQ r b) := by
  rw [ray_nonzero_eval hx hy hz]
  unfold rayValQ
  split_ifs <;> rfl

theorem slab_lo_mono {mnA mxA mnB mxB o d : ℚ} (hd : d ≠ 0) (hwa : mnA ≤ mxA)
    (h1 : mnB ≤ mnA) (h2 : mxA ≤ mxB) :
    min ((mnB - o) * d⁻¹) ((mxB - o) * d⁻¹) ≤ min ((mnA - o) * d⁻¹) ((mxA - o) * d⁻¹) := by
  rcases hd.lt_or_lt with hneg | hpos
  · have hdi : d⁻¹ < 0 := inv_lt_zero.2 hneg
    refine le_min ?_ ?_
    · refine le_trans (min_le_right _ _) ?_
      exact mul_le_mul_of_nonpos_right (by linarith) (le_of_lt hdi)
    · refine le_trans (min_le_right _ _) ?_
      exact mul_le_mul_of_nonpos_right (by linarith) (le_of_lt hdi)
  · have hdi : 0 < d⁻¹ := inv_pos.2 hpos
    refine le_min ?_ ?_
    · refine le_trans (min_le_left _ _) ?_
      exact mul_le_mul_of_nonneg_right (by linarith) (le_of_lt hdi)
    · refine le_trans (min_le_left _ _) ?_
      exact mul_le_mul_of_nonneg_right (by linarith) (le_of_lt hdi)

theorem slab_hi_mono {mnA mxA mnB mxB o d : ℚ} (hd : d ≠ 0) (hwa : mnA ≤ mxA)
    (h1 : mnB ≤ mnA) (h2 : mxA ≤ mxB) :
    max ((mnA - o) * d⁻¹) ((mxA - o) * d⁻¹) ≤ max ((mnB - o) * d⁻¹) ((mxB - o) * d⁻¹) := by
  rcases hd.lt_or_lt with hneg | hpos
  · have hdi : d⁻¹ < 0 := inv_lt_zero.2 hneg
    refine max_le ?_ ?_
    · refine le_trans ?_ (le_max_left _ _)
      exact mul_le_mul_of_nonpos_right (by linarith) (le_of_lt hdi)
    · refine le_trans ?_ (le_max_left _ _)
      exact mul_le_mul_of_nonpos_right (by linarith) (le_of_lt hdi)
  · have hdi : 0 < d⁻¹ := inv_pos.2 hpos
    refine max_le ?_ ?_
    · refine le_trans ?_ (le_max_right _ _)
      exact mul_le_mul_of_nonneg_right (by linarith) (le_of_lt hdi)
    · refine le_trans ?_ (le_max_right _ _)
      exact mul_le_mul_of_nonneg_right (by linarith) (le_of_lt hdi)

theorem qTmin_mono {r : Ray} (hx : r.dx ≠ 0) (hy : r.dy ≠ 0) (hz : r.dz ≠ 0)
    {a b : Aabb} (hwa : wfAabb a) (hsub : aabbSub a b) : qTmin r b ≤ qTmin r a := by
  obtain ⟨wx, wy, wz⟩ := hwa
  obtain ⟨s1, s2, s3, s4, s5, s6⟩ := hsub
  exact max_le_max (max_le_max (slab_lo_mono hx wx s1 s4) (slab_lo_mono hy wy s2 s5))
    (slab_lo_mono hz wz s3 s6)

theorem qTmax_mono {r : Ray} (hx : r.dx ≠ 0) (hy : r.dy ≠ 0) (hz : r.dz ≠ 0)
    {a b : Aabb} (hwa : wfAabb a) (hsub : aabbSub a b) : qTmax r a ≤ qTmax r b := by
  obtain ⟨wx, wy, wz⟩ := hwa
  obtain ⟨s1, s2, s3, s4, s5, s6⟩ := hsub
  exact min_le_min (min_le_min (slab_hi_mono hx wx s1 s4) (slab_hi_mono hy wy s2 s5))
    (slab_hi_mono hz wz s3 s6)

/-- A nonzero-direction ray that meets a box at `t ≥ 0` also meets every
enclosing box at `t ≥ 0`. -/
theorem ray_hit_mono {r : Ray} (hx : r.dx ≠ 0) (hy : r.dy ≠ 0) (hz : r.dz ≠ 0)
    {a b : Aabb} (hwa : wfAabb a) (hsub : aabbSub a b)
    (hha : FVal.fle (FVal.fin 0) (rayIntersectsAABB r a) = true) :
    FVal.fle (FVal.fin 0) (rayIntersectsAABB r b) = true := by
  rw [ray_nonzero_eval hx hy hz] at hha ⊢
  by_cases hmA : qTmax r a < 0 ∨ ¬ (qTmin r a ≤ qTmax r a)
  · rw [if_pos hmA] at hha
    rw [FVal.fle_fin] at hha
    norm_num at hha
  · rw [if_neg hmA] at hha
    push_neg at hmA
    obtain ⟨h1, h2⟩ := hmA
    have hminB := qTmin_mono hx hy hz hwa hsub
    have hmaxB := qTmax_mono hx hy hz hwa hsub
    have hmB : ¬ (qTmax r b < 0 ∨ ¬ (qTmin r b ≤ qTmax r b)) := by
      push_neg
      constructor
      · linarith
      · linarith
    rw [if_neg hmB]
    by_cases h0 : 0 ≤ qTmin r b
    · rw [if_pos h0, FVal.fle_fin]
      simpa using h0
    · rw [if_neg h0, FVal.fle_fin]
      simp only [decide_eq_true_eq]
      linarith

/-- Pointwise-equal fold functions fold equally. -/
theorem foldl_ext' {β : Type} {f g : β → ℕ → β} :
    ∀ (L : List ℕ) (b : β), (∀ b o, o ∈ L → f b o = g b o) →
    L.foldl f b = L.foldl g b := by
  intro L
  induction L with
  | nil => intro b _; rfl
  | cons x t ih =>
    intro b h
    simp only [List.foldl_cons]
    rw [h b x (by simp)]
    exact ih _ (fun b o ho => h b o (by simp [ho]))

/-- A fold of folds over per-node lists is a fold over the flattened list. -/
theorem foldl_foldl_bind {β : Type} (f : β → ℕ → β) (g : ℕ → List ℕ) :
    ∀ (visits : List ℕ) (b : β),
    visits.foldl (fun b n => (g n).foldl f b) b = (visits.bind g).foldl f b := by
  intro visits
  induction visits with
  | nil => intro b; rfl
  | cons v t ih =>
    intro b
    simp only [List.foldl_cons, List.cons_bind, List.foldl_append]
    exact ih _

/-- One step of the best-hit fold, over the rational kernel values. -/
def rayStep (val : ℕ → ℚ) (b : FVal × ℤ) (o : ℕ) : FVal × ℤ :=
  if FVal.fle (FVal.fin 0) (FVal.fin (val o)) && FVal.flt (FVal.fin (val o)) b.1
  then (FVal.fin (val o), (o : ℤ)) else b

/-- The best-hit fold keeps the minimum nonnegative value seen so far. -/
theorem rayFold_run (val : ℕ → ℚ) :
    ∀ (L : List ℕ) (b : FVal × ℤ),
    (b = (FVal.pinf, -1) ∨ ∃ j : ℕ, b = (FVal.fin (val j), (j : ℤ)) ∧ 0 ≤ val j) →
    (L.foldl (rayStep val) b = b ∨
      ∃ k ∈ L, L.foldl (rayStep val) b = (FVal.fin (val k), (k : ℤ)) ∧ 0 ≤ val k) ∧
    (∀ o ∈ L, 0 ≤ val o →
      FVal.fle (L.foldl (rayStep val) b).1 (FVal.fin (val o)) = true) ∧
    FVal.fle (L.foldl (rayStep val) b).1 b.1 = true := by
  intro L
  induction L with
  | nil =>
    intro b hb
    refine ⟨Or.inl rfl, ?_, ?_⟩
    · intro o ho
      cases ho
    · rcases hb with rfl | ⟨j, rfl, hj⟩
      · rfl
      · simp [FVal.fle_fin]
  | cons x t ih =>
    intro b hb
    simp only [List.foldl_cons]
    by_cases hcond : (FVal.fle (FVal.fin 0) (FVal.fin (val x)) &&
        FVal.flt (FVal.fin (val x)) b.1) = true
    · have hstep : rayStep val b x = (FVal.fin (val x), (x : ℤ)) := by
        unfold rayStep
        rw [if_pos hcond]
      have hconj := hcond
      rw [Bool.and_eq_true] at hconj
      have hvx : 0 ≤ val x := by
        have h1 := hconj.1
        rw [FVal.fle_fin] at h1
        simpa using h1
      have hflt : FVal.flt (FVal.fin (val x)) b.1 = true := hconj.2
      rw [hstep]
      obtain ⟨hprov, hmin, hdesc⟩ := ih (FVal.fin (val x), (x : ℤ)) (Or.inr ⟨x, rfl, hvx⟩)
      refine ⟨?_, ?_, ?_⟩
      · rcases hprov with heq | ⟨k, hk, heq, hvk⟩
        · exact Or.inr ⟨x, by simp, heq, hvx⟩
        · exact Or.inr ⟨k, by simp [hk], heq, hvk⟩
      · intro o ho hvo
        rcases List.mem_cons.1 ho with heq | ho
        · rw [heq]
          exact hdesc
        · exact hmin o ho hvo
      · exact FVal.fle_trans hdesc (FVal.fle_of_flt hflt)
    · have hstep : rayStep val b x = b := by
        unfold rayStep
        rw [if_neg hcond]
      rw [hstep]
      obtain ⟨hprov, hmin, hdesc⟩ := ih b hb
      refine ⟨?_, ?_, ?_⟩
      · rcases hprov with heq | ⟨k, hk, heq, hvk⟩
        · exact Or.inl heq
        · exact Or.inr ⟨k, by simp [hk], heq, hvk⟩
      · intro o ho hvo
        rcases List.mem_cons.1 ho with heq | ho
        · rw [heq] at hvo ⊢
          have hfle0 : FVal.fle (FVal.fin 0) (FVal.fin (val x)) = true := by
            rw [FVal.fle_fin]
            simpa using hvo
          have hflt : FVal.flt (FVal.fin (val x)) b.1 = false := by
            rcases Bool.eq_false_or_eq_true (FVal.flt (FVal.fin (val x)) b.1) with h | h
            · refine absurd ?_ hcond
              rw [hfle0, h]
              rfl
            · exact h
          have hble : FVal.fle b.1 (FVal.fin (val x)) = true := by
            rcases hb with rfl | ⟨j, rfl, hj⟩
            · simp [FVal.flt] at hflt
            · rw [FVal.flt_fin] at hflt
              rw [FVal.fle_fin]
              simp only [decide_eq_false_iff_not, not_lt] at hflt
              simpa using hflt
          exact FVal.fle_trans hdesc hble
        · exact hmin o ho hvo
      · exact hdesc

namespace Octree

/-- Exactness of `raycast` for nonzero-direction rays on invariant states: a
`none` result means no tracked object is met at `t ≥ 0`; a hit reports a
tracked object, its exact kernel value, nonnegative and minimal among all
tracked objects met at `t ≥ 0`. -/
theorem raycast_exact {s : Octree} (hinv : Inv s) {r : Ray}
    (hx : r.dx ≠ 0) (hy : r.dy ≠ 0) (hz : r.dz ≠ 0) :
    ((raycast s r).1 = none →
      ∀ o n, mapGet s.objectNodeMap o = some n →
        FVal.fle (FVal.fin 0) (rayIntersectsAABB r (s.aabbAt o)) = false) ∧
    (∀ idx t, (raycast s r).1 = some (idx, t) →
      (∃ n, mapGet s.objectNodeMap idx = some n) ∧
      t = rayIntersectsAABB r (s.aabbAt idx) ∧
      FVal.fle (FVal.fin 0) t = true ∧
      ∀ o n, mapGet s.objectNodeMap o = some n →
        FVal.fle (FVal.fin 0) (rayIntersectsAABB r (s.aabbAt o)) = true →
        FVal.fle t (rayIntersectsAABB r (s.aabbAt o)) = true) := by
  have hhit_chain : ∀ o n, mapGet s.objectNodeMap o = some n →
      FVal.fle (FVal.fin 0) (rayIntersectsAABB r (s.aabbAt o)) = true →
      ∀ m, m < s.np.count → aabbSub (s.aabbAt o) (s.np.getAABB m) →
      FVal.fle (FVal.fin 0) (rayIntersectsAABB r (s.np.getAABB m)) = true := by
    intro o n ho hh m hm hsub
    exact ray_hit_mono hx hy hz (hinv.aabb_wf o n ho) hsub hh
  rcases raycast_cases hinv r with ⟨hrt, heq⟩ | ⟨hrt, visits, hiff, hnd, hlt, heq⟩
  · -- early out against the root: no tracked object can be hit
    constructor
    · intro _ o n ho
      rcases Bool.eq_false_or_eq_true
          (FVal.fle (FVal.fin 0) (rayIntersectsAABB r (s.aabbAt o))) with h | h
      · exfalso
        have hnlt := hinv.map_node_lt o n ho
        have hsub := aabbSub_trans (hinv.fits_inv o n ho) (node_sub_root hinv n hnlt)
        have hroot := hhit_chain o n ho h s.root hinv.root_lt hsub
        rw [FVal.flt_zero_of_fle hroot] at hrt
        cases hrt
      · exact h
    · intro idx t hsome
      rw [heq] at hsome
      cases hsome
  · -- full traversal
    set val : ℕ → ℚ := fun o => rayValQ r (s.ap.getAabb o) with hval
    set L : List ℕ := visits.bind (fun n => (s.np.node n).objs) with hL
    have hfval : ∀ o, rayIntersectsAABB r (s.aabbAt o) = FVal.fin (val o) := by
      intro o
      exact ray_nonzero_fin hx hy hz _
    have hbest : (visits.foldl (fun b nodeIdx => (s.np.node nodeIdx).objs.foldl
          (fun (b : FVal × ℤ) objIdx =>
            if FVal.fle (FVal.fin 0) (rayIntersectsAABB r (s.ap.getAabb objIdx)) &&
               FVal.flt (rayIntersectsAABB r (s.ap.getAabb objIdx)) b.1
            then (rayIntersectsAABB r (s.ap.getAabb objIdx), (objIdx : ℤ)) else b) b)
          (FVal.pinf, -1))
        = L.foldl (rayStep val) (FVal.pinf, -1) := by
      rw [foldl_foldl_bind]
      rw [← hL]
      refine foldl_ext' L (FVal.pinf, -1) ?_
      intro b o ho
      show _ = rayStep val b o
      unfold rayStep
      rw [show rayIntersectsAABB r (s.ap.getAabb o) = FVal.fin (val o) from hfval o]
    obtain ⟨hprov, hmin, hdesc⟩ := rayFold_run val L (FVal.pinf, -1) (Or.inl rfl)
    have hmemL : ∀ o, o ∈ L ↔ ∃ n ∈ visits, o ∈ (s.np.node n).objs := by
      intro o
      rw [hL]
      exact List.mem_bind
    have hfactA : ∀ o n, mapGet s.objectNodeMap o = some n →
        FVal.fle (FVal.fin 0) (rayIntersectsAABB r (s.aabbAt o)) = true → o ∈ L := by
      intro o n ho hh
      have hnlt := hinv.map_node_lt o n ho
      have hpath := path_to_node hinv
        (fun m => FVal.fle (FVal.fin 0) (rayIntersectsAABB r (s.np.getAABB m)))
        (fun m hm hsubm => hhit_chain o n ho hh m hm hsubm) n hnlt (hinv.fits_inv o n ho)
      exact (hmemL o).2 ⟨n, (hiff n).2 hpath, hinv.map_in_list o n ho⟩
    have hfactB : ∀ o, o ∈ L → ∃ n, mapGet s.objectNodeMap o = some n := by
      intro o ho
      obtain ⟨n, hn, hmem⟩ := (hmemL o).1 ho
      exact ⟨n, hinv.list_in_map n (hlt n hn) o hmem⟩
    rw [hbest] at heq
    set best := L.foldl (rayStep val) (FVal.pinf, -1) with hbdef
    by_cases hb1 : best.2 = -1
    · have hbeq : best = (FVal.pinf, -1) := by
        rcases hprov with h | ⟨k, hk, h, hvk⟩
        · exact h
        · rw [h] at hb1
          exact absurd hb1 (by simp)
      constructor
      · intro _ o n ho
        rcases Bool.eq_false_or_eq_true
            (FVal.fle (FVal.fin 0) (rayIntersectsAABB r (s.aabbAt o))) with h | h
        · exfalso
          have hoL := hfactA o n ho h
          have hvo : 0 ≤ val o := by
            rw [hfval o, FVal.fle_fin] at h
            simpa using h
          have hmm := hmin o hoL hvo
          rw [hbeq] at hmm
          simp [FVal.fle, beq_iff_eq] at hmm
        · exact h
      · intro idx t hsome
        rw [heq] at hsome
        rw [if_pos hb1] at hsome
        cases hsome
    · obtain ⟨k, hkL, hkeq, hvk⟩ : ∃ k ∈ L,
          best = (FVal.fin (val k), (k : ℤ)) ∧ 0 ≤ val k := by
        rcases hprov with h | h
        · rw [h] at hb1
          exact absurd rfl hb1
        · exact h
      constructor
      · intro hnone
        rw [heq, if_neg hb1] at hnone
        cases hnone
      · intro idx t hsome
        rw [heq, if_neg hb1] at hsome
        have hpair := Option.some.inj hsome
        have hidx : idx = best.2.toNat := (congrArg Prod.fst hpair).symm
        have ht : t = best.1 := (congrArg Prod.snd hpair).symm
        subst hidx
        subst ht
        have h2 : best.2.toNat = k := by
          rw [hkeq]
          simp
        have h1 : best.1 = FVal.fin (val k) := by
          rw [hkeq]
        rw [h2, h1]
        refine ⟨hfactB k hkL, ?_, ?_, ?_⟩
        · rw [hfval k]
        · rw [FVal.fle_fin]
          simpa using hvk
        · intro o n ho hh
          have hoL := hfactA o n ho hh
          have hvo : 0 ≤ val o := by
            rw [hfval o, FVal.fle_fin] at hh
            simpa using hh
          have hmo := hmin o hoL hvo
          rw [hkeq] at hmo
          rw [hfval o]
          exact hmo

end Octree

namespace Octree

/-- The redistribution loop never moves, relinks or reshapes nodes: it only
appends saved objects to the node or its fresh children. -/
theorem redistribute_getters (f : ℕ) :
    ∀ (rest : List ℕ) (s : Octree) (nodeIdx c : ℕ),
    s.np.getFirstChild nodeIdx = (c : ℤ) →
    nodeIdx < c →
    (∀ i, i < 8 → s.np.getFirstChild (c + i) = -1) →
    (s.np.node nodeIdx).objs.length +
      (∑ i in Finset.range 8, (s.np.node (c + i)).objs.length) + rest.length ≤ 8 →
    (redistribute f s nodeIdx rest).2 ≠ some Exn.fuelOut →
    (∀ j, (redistribute f s nodeIdx rest).1.np.getFirstChild j = s.np.getFirstChild j) ∧
    (∀ j, (redistribute f s nodeIdx rest).1.np.getParent j = s.np.getParent j) ∧
    (∀ j, (redistribute f s nodeIdx rest).1.np.getAABB j = s.np.getAABB j) := by
  intro rest
  induction rest with
  | nil =>
    intro s nodeIdx c _ _ _ _ _
    rw [redistribute]
    exact ⟨fun j => rfl, fun j => rfl, fun j => rfl⟩
  | cons obj rest ih =>
    intro s nodeIdx c hfc hnc hleaves hcount hfuel
    have hroom0 : (s.np.node nodeIdx).objs.length < MAX_OBJECTS_PER_NODE := by
      show _ < 8
      simp only [List.length_cons] at hcount
      omega
    have hsumle : ∀ i, i < 8 → (s.np.node (c + i)).objs.length ≤
        ∑ i in Finset.range 8, (s.np.node (c + i)).objs.length := by
      intro i hi
      exact Finset.single_le_sum (f := fun i => (s.np.node (c + i)).objs.length)
        (fun _ _ => Nat.zero_le _) (Finset.mem_range.2 hi)
    have hroomc : ∀ i, i < 8 → (s.np.node (c + i)).objs.length < MAX_OBJECTS_PER_NODE := by
      intro i hi
      show _ < 8
      have := hsumle i hi
      simp only [List.length_cons] at hcount
      omega
    rw [redistribute] at hfuel ⊢
    set s1 : Octree := { s with objectNodeMap := mapDelete s.objectNodeMap obj } with hs1
    have hsh := insert_shallow f s1 nodeIdx obj c hfc hleaves hroom0 hroomc
    rcases heq : insertIntoNode f s1 nodeIdx obj with ⟨s2, e2⟩
    rw [heq] at hsh hfuel
    match e2 with
    | some Exn.range => exact absurd rfl hsh.1
    | some Exn.fuelOut => exact absurd rfl hfuel
    | none =>
      obtain ⟨m, hs2eq, hroom_m, hm_loc⟩ := hsh.2.2 rfl
      obtain rfl : s2 = appendForm s1 m obj := by
        have h := congrArg Prod.fst hs2eq
        simpa using h
      obtain ⟨hgfc2, hgpar2, hgbox2⟩ := appendForm_getters s1 m obj
      have hcount2 : ((appendForm s1 m obj).np.node nodeIdx).objs.length +
          (∑ i in Finset.range 8, ((appendForm s1 m obj).np.node (c + i)).objs.length) +
          rest.length ≤ 8 := by
        simp only [List.length_cons] at hcount
        have hmblen : m < s1.np.buf.length ∨ s1.np.buf.length ≤ m := Nat.lt_or_ge _ _
        rcases hm_loc with rfl | ⟨i0, hi0, rfl, -⟩
        · rcases hmblen with hlt | hge
          · rw [appendForm_objs_self s1 obj hlt]
            have hsame : ∑ i in Finset.range 8,
                ((appendForm s1 m obj).np.node (c + i)).objs.length
                = ∑ i in Finset.range 8, (s.np.node (c + i)).objs.length :=
              Finset.sum_congr rfl fun i hi => by
                rw [appendForm_objs_other s1 obj (by omega)]
            rw [hsame]
            simp only [List.length_append, List.length_singleton]
            have hsame1 : (s1.np.node m).objs.length = (s.np.node m).objs.length := rfl
            omega
          · have hid : (appendForm s1 m obj).np = s1.np := by
              show s1.np.modifyNode m
                (fun nd => { nd with objs := nd.objs ++ [obj] }) = s1.np
              exact OctreeNodePool.modify_oob hge
            rw [hid]
            have hsame1 : (s1.np.node m).objs.length = (s.np.node m).objs.length := rfl
            have hsame : ∑ i in Finset.range 8, ((s1.np.node (c + i))).objs.length
                = ∑ i in Finset.range 8, (s.np.node (c + i)).objs.length := rfl
            omega
        · have hne_node : nodeIdx ≠ c + i0 := by omega
          rw [appendForm_objs_other s1 obj hne_node]
          rcases Nat.lt_or_ge (c + i0) s1.np.buf.length with hlt | hge
          · have hupd : ∑ i in Finset.range 8,
                ((appendForm s1 (c + i0) obj).np.node (c + i)).objs.length
                = (∑ i in Finset.range 8, (s.np.node (c + i)).objs.length) + 1 := by
              refine sum_range8_update hi0 ?_ ?_
              · rw [appendForm_objs_self s1 obj hlt]
                simp
              · intro i hi hne
                rw [appendForm_objs_other s1 obj (by omega)]
            rw [hupd]
            have hsame1 : (s1.np.node nodeIdx).objs.length
                = (s.np.node nodeIdx).objs.length := rfl
            omega
          · have hid : (appendForm s1 (c + i0) obj).np = s1.np := by
              show s1.np.modifyNode (c + i0)
                (fun nd => { nd with objs := nd.objs ++ [obj] }) = s1.np
              exact OctreeNodePool.modify_oob hge
            rw [hid]
            have hsame1 : (s1.np.node nodeIdx).objs.length
                = (s.np.node nodeIdx).objs.length := rfl
            have hsame : ∑ i in Finset.range 8, ((s1.np.node (c + i))).objs.length
                = ∑ i in Finset.range 8, (s.np.node (c + i)).objs.length := rfl
            omega
      have hres := ih (appendForm s1 m obj) nodeIdx c
        (by rw [hgfc2 nodeIdx]; exact hfc) hnc
        (fun i hi => by rw [hgfc2 (c + i)]; exact hleaves i hi) hcount2 hfuel
      refine ⟨?_, ?_, ?_⟩
      · intro j
        rw [hres.1 j, hgfc2 j]
      · intro j
        rw [hres.2.1 j, hgpar2 j]
      · intro j
        rw [hres.2.2 j, hgbox2 j]

/-- The translation of the specification's octant description (I5/P3): child
`i` takes the lower or upper half on each axis according to bits 0 (X),
1 (Y) and 2 (Z) of `i`, split at the midpoint. -/
def specOctantBox (b : Aabb) (i : ℕ) : Aabb :=
  let midX := (b.minX + b.maxX) / 2
  let midY := (b.minY + b.maxY) / 2
  let midZ := (b.minZ + b.maxZ) / 2
  ⟨if i % 2 = 1 then midX else b.minX,
   if i / 2 % 2 = 1 then midY else b.minY,
   if i / 4 % 2 = 1 then midZ else b.minZ,
   if i % 2 = 1 then b.maxX else midX,
   if i / 2 % 2 = 1 then b.maxY else midY,
   if i / 4 % 2 = 1 then b.maxZ else midZ⟩

theorem octantBox_eq_spec (b : Aabb) : ∀ i, i < 8 → octantBox b i = specOctantBox b i := by
  intro i hi
  interval_cases i <;> rfl

/-- Subdividing a full leaf under the invariant creates exactly eight children
at the next eight contiguous indices, linked back to the subdivided node, with
the midpoint-split octant AABBs. -/
theorem subdivide_structure (f : ℕ) (s : Octree) (nodeIdx : ℕ) (pend : List (ℕ × ℕ))
    (hinv : AuxInv s pend)
    (hn : nodeIdx < s.np.count)
    (hleaf : s.np.getFirstChild nodeIdx = -1)
    (hfull : (s.np.node nodeIdx).objs.length = 8)
    (hcap8 : s.np.count + 8 ≤ s.np.cap)
    (hfuel : (subdivide f s nodeIdx).2 ≠ some Exn.fuelOut) :
    (subdivide f s nodeIdx).1.np.count = s.np.count + 8 ∧
    (subdivide f s nodeIdx).1.np.getFirstChild nodeIdx = (s.np.count : ℤ) ∧
    ∀ i, i < 8 →
      (subdivide f s nodeIdx).1.np.getParent (s.np.count + i) = (nodeIdx : ℤ) ∧
      (subdivide f s nodeIdx).1.np.getAABB (s.np.count + i)
        = specOctantBox (s.np.getAABB nodeIdx) i := by
  obtain ⟨smid, hrun, hap, hroot, hstack, hmap, hcnt, hcap, hblen, hnode_self,
    hnode_child, hnode_old⟩ := subdivide_run f s nodeIdx hinv.buflen_np hcap8 hn
  have hg_fc_self : smid.np.getFirstChild nodeIdx = (s.np.count : ℤ) := by
    show (smid.np.node nodeIdx).firstChild = _
    rw [hnode_self]
  have hg_fc_child : ∀ i, i < 8 → smid.np.getFirstChild (s.np.count + i) = -1 := by
    intro i hi
    show (smid.np.node (s.np.count + i)).firstChild = _
    rw [hnode_child i hi]
  have hg_par_child : ∀ i, i < 8 → smid.np.getParent (s.np.count + i) = (nodeIdx : ℤ) := by
    intro i hi
    show (smid.np.node (s.np.count + i)).parent = _
    rw [hnode_child i hi]
  have hg_box_child : ∀ i, i < 8 →
      smid.np.getAABB (s.np.count + i) = octantBox (s.np.getAABB nodeIdx) i := by
    intro i hi
    show (smid.np.node (s.np.count + i)).box = _
    rw [hnode_child i hi]
  have hg_objs_child : ∀ i, i < 8 → (smid.np.node (s.np.count + i)).objs = [] := by
    intro i hi
    rw [hnode_child i hi]
  have hg_objs_self : (smid.np.node nodeIdx).objs = [] := by rw [hnode_self]
  have hcounting : (smid.np.node nodeIdx).objs.length +
      (∑ i in Finset.range 8, (smid.np.node (s.np.count + i)).objs.length) +
      (s.np.node nodeIdx).objs.length ≤ 8 := by
    have h1 : (smid.np.node nodeIdx).objs.length = 0 := by simp [hg_objs_self]
    have h2 : ∑ i in Finset.range 8, (smid.np.node (s.np.count + i)).objs.length = 0 :=
      Finset.sum_eq_zero fun i hi => by
        have h := hg_objs_child i (Finset.mem_range.1 hi)
        simp [h]
    rw [h1, h2, hfull]
  have hfuel' : (redistribute f smid nodeIdx (s.np.node nodeIdx).objs).2
      ≠ some Exn.fuelOut := by
    rw [← hrun]
    exact hfuel
  obtain ⟨hgfc, hgpar, hgbox⟩ := redistribute_getters f (s.np.node nodeIdx).objs smid
    nodeIdx s.np.count hg_fc_self hn hg_fc_child hcounting hfuel'
  have hspec := subdivide_spec f s nodeIdx pend hinv hn hleaf hfull hcap8 hfuel
  refine ⟨hspec.2.2.2.1, ?_, ?_⟩
  · rw [hrun, hgfc nodeIdx]
    exact hg_fc_self
  · intro i hi
    constructor
    · rw [hrun, hgpar (s.np.count + i)]
      exact hg_par_child i hi
    · rw [hrun, hgbox (s.np.count + i), hg_box_child i hi]
      exact octantBox_eq_spec _ i hi

end Octree

/-! ## Root tracking and `clear` -/

namespace AABBPool

theorem getAabb_set_self {p : AABBPool} {i : ℕ} (a : Aabb) (h : i < p.buf.length) :
    (p.set i a).getAabb i = a := by
  simp [getAabb, set, List.getD, List.getElem?_set_self h]

end AABBPool

namespace Octree

theorem update_root (s : Octree) (obj : ℕ) (a : Aabb) :
    (update s obj a).1.root = s.root := by
  rw [update]
  split
  · rfl
  · split
    · rfl
    · exact (insertIntoNode_frame _ _ _ _).root_eq

theorem remove_root (s : Octree) (obj : ℕ) : (remove s obj).root = s.root := by
  rw [remove]
  split
  · rfl
  · rfl

theorem raycast_root (s : Octree) (r : Ray) : (raycast s r).2.root = s.root := by
  rw [raycast]
  split
  · rfl
  · rfl

theorem queryBox_root (s : Octree) (q : Aabb) : (queryBox s q).2.root = s.root := by
  rw [queryBox]
  split
  · rfl
  · rfl

/-- Every reachable state keeps its root at slot `0` of the node pool. -/
theorem reach_root0 : ∀ s, Reach s → s.root = 0 := by
  intro s h
  induction h with
  | init npCap apCap bounds hcap hwf => rfl
  | writeAabb h i a hun ih => exact ih
  | insert h obj hun hwf hfits hfuel hcap ih =>
    exact (insertIntoNode_frame _ _ _ _).root_eq.trans ih
  | update h obj a hwf hfits hfuel hcap ih => exact (update_root _ _ _).trans ih
  | remove h obj ih => exact (remove_root _ _).trans ih
  | raycast h r ih => exact (raycast_root _ _).trans ih
  | queryBox h q ih => exact (queryBox_root _ _).trans ih

theorem clear_buflen (s : Octree) : (clear s).np.buf.length = s.np.buf.length := by
  simp [clear, OctreeNodePool.reset, OctreeNodePool.allocate, OctreeNodePool.modifyNode]

/-- After `clear` the root slot is a fresh leaf keeping the old slot-0 box. -/
theorem clear_node0 (s : Octree) (h : 0 < s.np.buf.length) :
    (clear s).np.node 0 =
      { box := (s.np.node 0).box, firstChild := -1, parent := -1, objs := [] } := by
  show (s.np.reset.modifyNode 0
    (fun nd => { nd with firstChild := -1, parent := -1, objs := [] })).node 0 = _
  rw [OctreeNodePool.node_modify_self (by exact h)]
  rfl

/-- `clear` re-establishes the invariant on the one-node tree. -/
theorem clear_inv {s : Octree} (hinv : Inv s) : Inv (clear s) := by
  have hb : 0 < s.np.buf.length := by
    have h1 := hinv.root_lt
    have h2 := hinv.count_le
    rw [hinv.buflen_np]
    omega
  have hn0 := clear_node0 s hb
  have hmap : ∀ o, mapGet (clear s).objectNodeMap o = none := fun o => rfl
  refine ⟨?_, ?_, ?_, ?_, ?_, ?_, ?_, ?_, ?_, ?_, ?_, ?_, ?_, ?_, ?_, ?_, ?_⟩
  · rw [clear_buflen, hinv.buflen_np]
    rfl
  · show 1 ≤ s.np.cap
    have h1 := hinv.root_lt
    have h2 := hinv.count_le
    omega
  · show (0 : ℕ) < 1
    omega
  · show ((clear s).np.node 0).parent = -1
    rw [hn0]
  · intro n hn
    have hc : (clear s).np.count = 1 := rfl
    rw [hc] at hn
    interval_cases n
    left
    show ((clear s).np.node 0).firstChild = -1
    rw [hn0]
  · intro m hm hne
    exfalso
    have hc : (clear s).np.count = 1 := rfl
    have hr : (clear s).root = 0 := rfl
    rw [hc] at hm
    rw [hr] at hne
    omega
  · intro n hn
    have hc : (clear s).np.count = 1 := rfl
    rw [hc] at hn
    interval_cases n
    show wfAabb ((clear s).np.node 0).box
    rw [hn0]
    have h0lt : 0 < s.np.count := by
      have := hinv.root_lt
      omega
    exact hinv.boxes_wf 0 h0lt
  · intro obj n h
    rw [hmap obj] at h
    cases h
  · intro obj n h
    rw [hmap obj] at h
    cases h
  · intro n hn obj hobj
    exfalso
    have hc : (clear s).np.count = 1 := rfl
    rw [hc] at hn
    interval_cases n
    rw [hn0] at hobj
    simp at hobj
  · intro n hn
    have hc : (clear s).np.count = 1 := rfl
    rw [hc] at hn
    interval_cases n
    rw [hn0]
    exact List.nodup_nil
  · intro n hn
    have hc : (clear s).np.count = 1 := rfl
    rw [hc] at hn
    interval_cases n
    show ((clear s).np.node 0).objs.length ≤ MAX_OBJECTS_PER_NODE
    rw [hn0]
    simp [MAX_OBJECTS_PER_NODE]
  · intro obj n h
    rw [hmap obj] at h
    cases h
  · intro obj n h
    rw [hmap obj] at h
    cases h
  · show (List.map Prod.fst ([] : List (ℕ × ℕ))).Nodup
    exact List.nodup_nil
  · show sumObjectCounts (clear s) = ([] : List (ℕ × ℕ)).length
    unfold sumObjectCounts
    rw [show (clear s).np.count = 1 from rfl, show List.range 1 = [0] from rfl]
    simp [hn0]
  · show s.stack = []
    exact hinv.stack_nil

end Octree

/-- Inclusive overlap of a well-formed box with itself. -/
theorem overlaps_self {a : Aabb} (h : wfAabb a) : aabbOverlapsBox a a = true := by
  obtain ⟨hx, hy, hz⟩ := h
  unfold aabbOverlapsBox
  simp only [Bool.and_eq_true, decide_eq_true_eq, ge_iff_le]
  exact ⟨⟨⟨⟨⟨hx, hx⟩, hy⟩, hy⟩, hz⟩, hz⟩

namespace Octree

/-- After `clear`, every `queryBox` returns the empty sequence. -/
theorem clear_query_empty {s : Octree} (hinv : Inv s) (q : Aabb) :
    (queryBox (clear s) q).1 = [] := by
  have h := queryBox_exact (clear_inv hinv) q
  rw [List.eq_nil_iff_forall_not_mem]
  intro o ho
  rcases (h.2 o).1 ho with ⟨⟨n, hn⟩, -⟩
  rw [show mapGet (clear s).objectNodeMap o = none from rfl] at hn
  cases hn

/-- A fresh insert right after `clear` lands in the root leaf. -/
theorem clear_insert_run {s : Octree} (hinv : Inv s) (obj : ℕ) (a : Aabb) :
    insert (writeAabb (clear s) obj a) obj =
      (appendForm (writeAabb (clear s) obj a) 0 obj, none) := by
  have hb : 0 < s.np.buf.length := by
    have h1 := hinv.root_lt
    have h2 := hinv.count_le
    rw [hinv.buflen_np]
    omega
  have hn0 := clear_node0 s hb
  have hfc : (writeAabb (clear s) obj a).np.getFirstChild 0 = -1 := by
    show ((clear s).np.node 0).firstChild = -1
    rw [hn0]
  have hroom : (writeAabb (clear s) obj a).np.getObjectCount 0 < MAX_OBJECTS_PER_NODE := by
    show ((clear s).np.node 0).objs.length < MAX_OBJECTS_PER_NODE
    rw [hn0]
    simp [MAX_OBJECTS_PER_NODE]
  exact insertIntoNode_leaf_add (2 * (writeAabb (clear s) obj a).np.cap + 1) hfc hroom

theorem writeAabb_clear_aabbAt {s : Octree} {obj : ℕ} (a : Aabb)
    (hlt : obj < s.ap.buf.length) :
    (writeAabb (clear s) obj a).aabbAt obj = a := by
  show ((clear s).ap.set obj a).getAabb obj = a
  exact AABBPool.getAabb_set_self a hlt

/-- The freshly inserted object is returned by a query with its own box. -/
theorem clear_insert_findable {s : Octree} (hinv : Inv s) {obj : ℕ} {a : Aabb}
    (hwf : wfAabb a) (hlt : obj < s.ap.buf.length)
    (hsub : aabbSub a ((clear s).np.getAABB 0)) :
    (insert (writeAabb (clear s) obj a) obj).2 = none ∧
    obj ∈ (queryBox (insert (writeAabb (clear s) obj a) obj).1 a).1 := by
  have hrun := clear_insert_run hinv obj a
  have haabb : (writeAabb (clear s) obj a).aabbAt obj = a := writeAabb_clear_aabbAt a hlt
  have hun : mapGet (writeAabb (clear s) obj a).objectNodeMap obj = none := rfl
  have hinv1 : Inv (writeAabb (clear s) obj a) := writeAabb_preserves (clear_inv hinv) a rfl
  have hwf1 : wfAabb ((writeAabb (clear s) obj a).aabbAt obj) := by
    rw [haabb]
    exact hwf
  have hfits1 : aabbSub ((writeAabb (clear s) obj a).aabbAt obj)
      ((writeAabb (clear s) obj a).np.getAABB (writeAabb (clear s) obj a).root) := by
    rw [haabb]
    exact hsub
  have hnf : (insert (writeAabb (clear s) obj a) obj).2 ≠ some Exn.fuelOut := by
    rw [hrun]
    simp
  have hcap : (insert (writeAabb (clear s) obj a) obj).1.np.count ≤
      (writeAabb (clear s) obj a).np.cap := by
    rw [hrun]
    show 1 ≤ s.np.cap
    have h1 := hinv.root_lt
    have h2 := hinv.count_le
    omega
  have hinv2 : Inv (insert (writeAabb (clear s) obj a) obj).1 :=
    insert_preserves hinv1 hun hwf1 hfits1 hnf hcap
  refine ⟨by rw [hrun], ?_⟩
  have hq := queryBox_exact hinv2 a
  apply (hq.2 obj).2
  constructor
  · refine ⟨0, ?_⟩
    rw [hrun]
    show mapGet (mapSet [] obj 0) obj = some 0
    simp [mapSet, mapGet]
  · have ha2 : (insert (writeAabb (clear s) obj a) obj).1.aabbAt obj = a := by
      rw [hrun]
      exact haabb
    rw [ha2]
    exact overlaps_self hwf

end Octree

/-! ## The queries are read-only: frame and stack-independence lemmas -/

namespace Octree

theorem rayLoop_stack_congr (s : Octree) (st : List ℕ) (r : Ray) :
    ∀ fuel stack best,
      rayLoop { s with stack := st } r fuel stack best = rayLoop s r fuel stack best := by
  intro fuel
  induction fuel with
  | zero => intro stack best; rfl
  | succ f ih =>
    intro stack best
    cases stack with
    | nil => rfl
    | cons n rest =>
      rw [rayLoop, rayLoop]
      exact ih _ _

theorem queryLoop_stack_congr (s : Octree) (st : List ℕ) (q : Aabb) :
    ∀ fuel stack acc,
      queryLoop { s with stack := st } q fuel stack acc = queryLoop s q fuel stack acc := by
  intro fuel
  induction fuel with
  | zero => intro stack acc; rfl
  | succ f ih =>
    intro stack acc
    cases stack with
    | nil => rfl
    | cons n rest =>
      rw [queryLoop, queryLoop]
      exact ih _ _

/-- The hit returned by `raycast` does not depend on the incoming contents of
the reused traversal stack. -/
theorem raycast_stack_irrel (s : Octree) (r : Ray) (st : List ℕ) :
    (raycast { s with stack := st } r).1 = (raycast s r).1 := by
  by_cases h : FVal.flt (rayIntersectsAABB r (s.np.getAABB s.root)) (FVal.fin 0) = true
  · rw [raycast, raycast, if_pos h, if_pos h]
  · rw [raycast, raycast, if_neg h, if_neg h, rayLoop_stack_congr]

/-- The result list of `queryBox` does not depend on the incoming contents of
the reused traversal stack. -/
theorem queryBox_stack_irrel (s : Octree) (q : Aabb) (st : List ℕ) :
    (queryBox { s with stack := st } q).1 = (queryBox s q).1 := by
  by_cases h : (!aabbOverlapsBox (s.np.getAABB s.root) q) = true
  · rw [queryBox, queryBox, if_pos h, if_pos h]
  · rw [queryBox, queryBox, if_neg h, if_neg h, queryLoop_stack_congr]

theorem raycast_frame (s : Octree) (r : Ray) :
    (raycast s r).2.np = s.np ∧ (raycast s r).2.ap = s.ap ∧
    (raycast s r).2.root = s.root ∧
    (raycast s r).2.objectNodeMap = s.objectNodeMap := by
  rw [raycast]
  split
  · exact ⟨rfl, rfl, rfl, rfl⟩
  · exact ⟨rfl, rfl, rfl, rfl⟩

theorem queryBox_frame (s : Octree) (q : Aabb) :
    (queryBox s q).2.np = s.np ∧ (queryBox s q).2.ap = s.ap ∧
    (queryBox s q).2.root = s.root ∧
    (queryBox s q).2.objectNodeMap = s.objectNodeMap := by
  rw [queryBox]
  split
  · exact ⟨rfl, rfl, rfl, rfl⟩
  · exact ⟨rfl, rfl, rfl, rfl⟩

end Octree

def cxFull : Aabb := ⟨0, 0, 0, 1, 1, 1⟩

def cxS : ℕ → Octree
  | 0 => Octree.initial 9 9 cxFull
  | n + 1 => appendForm (Octree.writeAabb (cxS n) n cxFull) 0 n

def cx8w : Octree := Octree.writeAabb (cxS 8) 8 cxFull

def cxMid : Octree :=
  let s := cx8w
  let box := s.np.getAABB 0
  let firstChild := s.np.allocate.2
  let np1 := s.np.allocate.1
  let np2 := (List.range 7).foldl (fun np _ => np.allocate.1) np1
  let np3 := np2.setFirstChild 0 (firstChild : ℤ)
  let np4 := (List.range 8).foldl
    (fun np i => ((np.setAABB (firstChild + i) (Octree.octantBox box i)).setParent
      (firstChild + i) ((0 : ℕ) : ℤ))) np3
  let np5 := np4.clearObjects 0
  { s with np := np5 }

def cxDel (s : Octree) (k : ℕ) : Octree :=
  { s with objectNodeMap := mapDelete s.objectNodeMap k }

def cxRed : ℕ → Octree
  | 0 => cxMid
  | k + 1 => appendForm (cxDel (cxRed k) k) 0 k

theorem redistribute_cons_straddle (f : ℕ) (s : Octree) (nodeIdx obj : ℕ) (rest : List ℕ)
    (hfc : s.np.getFirstChild nodeIdx ≠ -1)
    (hfind : (List.range 8).find?
      (fun i => ({ s with objectNodeMap := mapDelete s.objectNodeMap obj } : Octree).fitsInNode
        obj ((s.np.getFirstChild nodeIdx).toNat + i)) = none)
    (hroom : (s.np.node nodeIdx).objs.length < MAX_OBJECTS_PER_NODE) :
    redistribute (f + 1) s nodeIdx (obj :: rest) =
      redistribute (f + 1)
        (appendForm { s with objectNodeMap := mapDelete s.objectNodeMap obj } nodeIdx obj)
        nodeIdx rest := by
  rw [redistribute]
  rw [insertIntoNode_straddle (s := { s with objectNodeMap := mapDelete s.objectNodeMap obj })
    f hfc hfind hroom]

theorem cx_subdivide : subdivide 19 cx8w 0 = (cxRed 8, none) := by
  have h0 : subdivide 19 cx8w 0 = redistribute 19 cxMid 0 [0, 1, 2, 3, 4, 5, 6, 7] := by
    rw [subdivide]
    with_unfolding_all rfl
  rw [h0]
  rw [show (19 : ℕ) = 18 + 1 from rfl]
  rw [redistribute_cons_straddle 18 cxMid 0 0 _ (by with_unfolding_all decide)
    (by with_unfolding_all decide) (by with_unfolding_all decide)]
  show redistribute (18 + 1) (cxRed 1) 0 [1, 2, 3, 4, 5, 6, 7] = (cxRed 8, none)
  rw [redistribute_cons_straddle 18 (cxRed 1) 0 1 _ (by with_unfolding_all decide)
    (by with_unfolding_all decide) (by with_unfolding_all decide)]
  show redistribute (18 + 1) (cxRed 2) 0 [2, 3, 4, 5, 6, 7] = (cxRed 8, none)
  rw [redistribute_cons_straddle 18 (cxRed 2) 0 2 _ (by with_unfolding_all decide)
    (by with_unfolding_all decide) (by with_unfolding_all decide)]
  show redistribute (18 + 1) (cxRed 3) 0 [3, 4, 5, 6, 7] = (cxRed 8, none)
  rw [redistribute_cons_straddle 18 (cxRed 3) 0 3 _ (by with_unfolding_all decide)
    (by with_unfolding_all decide) (by with_unfolding_all decide)]
  show redistribute (18 + 1) (cxRed 4) 0 [4, 5, 6, 7] = (cxRed 8, none)
  rw [redistribute_cons_straddle 18 (cxRed 4) 0 4 _ (by with_unfolding_all decide)
    (by with_unfolding_all decide) (by with_unfolding_all decide)]
  show redistribute (18 + 1) (cxRed 5) 0 [5, 6, 7] = (cxRed 8, none)
  rw [redistribute_cons_straddle 18 (cxRed 5) 0 5 _ (by with_unfolding_all decide)
    (by with_unfolding_all decide) (by with_unfolding_all decide)]
  show redistribute (18 + 1) (cxRed 6) 0 [6, 7] = (cxRed 8, none)
  rw [redistribute_cons_straddle 18 (cxRed 6) 0 6 _ (by with_unfolding_all decide)
    (by with_unfolding_all decide) (by with_unfolding_all decide)]
  show redistribute (18 + 1) (cxRed 7) 0 [7] = (cxRed 8, none)
  rw [redistribute_cons_straddle 18 (cxRed 7) 0 7 _ (by with_unfolding_all decide)
    (by with_unfolding_all decide) (by with_unfolding_all decide)]
  show redistribute (18 + 1) (cxRed 8) 0 [] = (cxRed 8, none)
  rw [redistribute]

theorem cxS_insert (i : ℕ) (hi : i < 8) :
    Octree.insert (Octree.writeAabb (cxS i) i cxFull) i = (cxS (i + 1), none) := by
  interval_cases i <;>
    exact insertIntoNode_leaf_add 19 (by with_unfolding_all decide)
      (by with_unfolding_all decide)

theorem cxS_reach8 : Reach (cxS 8) := by
  have h0 : Reach (cxS 0) := Reach.init 9 9 cxFull (by decide) (by with_unfolding_all decide)
  have h1 : Reach (cxS 1) := by
    have h := Reach.insert (Reach.writeAabb h0 0 cxFull (by with_unfolding_all decide)) 0
      (by with_unfolding_all decide) (by with_unfolding_all decide)
      (by with_unfolding_all decide) (by rw [cxS_insert 0 (by omega)]; decide)
      (by rw [cxS_insert 0 (by omega)]; with_unfolding_all decide)
    rw [cxS_insert 0 (by omega)] at h
    exact h
  have h2 : Reach (cxS 2) := by
    have h := Reach.insert (Reach.writeAabb h1 1 cxFull (by with_unfolding_all decide)) 1
      (by with_unfolding_all decide) (by with_unfolding_all decide)
      (by with_unfolding_all decide) (by rw [cxS_insert 1 (by omega)]; decide)
      (by rw [cxS_insert 1 (by omega)]; with_unfolding_all decide)
    rw [cxS_insert 1 (by omega)] at h
    exact h
  have h3 : Reach (cxS 3) := by
    have h := Reach.insert (Reach.writeAabb h2 2 cxFull (by with_unfolding_all decide)) 2
      (by with_unfolding_all decide) (by with_unfolding_all decide)
      (by with_unfolding_all decide) (by rw [cxS_insert 2 (by omega)]; decide)
      (by rw [cxS_insert 2 (by omega)]; with_unfolding_all decide)
    rw [cxS_insert 2 (by omega)] at h
    exact h
  have h4 : Reach (cxS 4) := by
    have h := Reach.insert (Reach.writeAabb h3 3 cxFull (by with_unfolding_all decide)) 3
      (by with_unfolding_all decide) (by with_unfolding_all decide)
      (by with_unfolding_all decide) (by rw [cxS_insert 3 (by omega)]; decide)
      (by rw [cxS_insert 3 (by omega)]; with_unfolding_all decide)
    rw [cxS_insert 3 (by omega)] at h
    exact h
  have h5 : Reach (cxS 5) := by
    have h := Reach.insert (Reach.writeAabb h4 4 cxFull (by with_unfolding_all decide)) 4
      (by with_unfolding_all decide) (by with_unfolding_all decide)
      (by with_unfolding_all decide) (by rw [cxS_insert 4 (by omega)]; decide)
      (by rw [cxS_insert 4 (by omega)]; with_unfolding_all decide)
    rw [cxS_insert 4 (by omega)] at h
    exact h
  have h6 : Reach (cxS 6) := by
    have h := Reach.insert (Reach.writeAabb h5 5 cxFull (by with_unfolding_all decide)) 5
      (by with_unfolding_all decide) (by with_unfolding_all decide)
      (by with_unfolding_all decide) (by rw [cxS_insert 5 (by omega)]; decide)
      (by rw [cxS_insert 5 (by omega)]; with_unfolding_all decide)
    rw [cxS_insert 5 (by omega)] at h
    exact h
  have h7 : Reach (cxS 7) := by
    have h := Reach.insert (Reach.writeAabb h6 6 cxFull (by with_unfolding_all decide)) 6
      (by with_unfolding_all decide) (by with_unfolding_all decide)
      (by with_unfolding_all decide) (by rw [cxS_insert 6 (by omega)]; decide)
      (by rw [cxS_insert 6 (by omega)]; with_unfolding_all decide)
    rw [cxS_insert 6 (by omega)] at h
    exact h
  have h := Reach.insert (Reach.writeAabb h7 7 cxFull (by with_unfolding_all decide)) 7
    (by with_unfolding_all decide) (by with_unfolding_all decide)
    (by with_unfolding_all decide) (by rw [cxS_insert 7 (by omega)]; decide)
    (by rw [cxS_insert 7 (by omega)]; with_unfolding_all decide)
  rw [cxS_insert 7 (by omega)] at h
  exact h

theorem cx8w_reach : Reach cx8w :=
  Reach.writeAabb cxS_reach8 8 cxFull (by with_unfolding_all decide)

theorem cx_insert9 : Octree.insert cx8w 8 = (cxRed 8, none) := by
  have hstep : insertIntoNode (19 + 1) cx8w 0 8 =
      match subdivide 19 cx8w 0 with
      | (s1, some Exn.range) => (s1, none)
      | (s1, some Exn.fuelOut) => (s1, some Exn.fuelOut)
      | (s1, none) =>
        match insertIntoNode 19 s1 0 8 with
        | (s2, some Exn.range) => (s2, none)
        | (s2, e) => (s2, e) :=
    insertIntoNode_leaf_full_sub 19 cx8w 0 8 (by with_unfolding_all decide)
      (by with_unfolding_all decide)
  have hfull : insertIntoNode 19 (cxRed 8) 0 8 = (cxRed 8, some Exn.range) :=
    insertIntoNode_straddle_full 18 (by with_unfolding_all decide)
      (by with_unfolding_all decide) (by with_unfolding_all decide)
  show insertIntoNode (19 + 1) cx8w 0 8 = (cxRed 8, none)
  rw [hstep, cx_subdivide]
  show (match insertIntoNode 19 (cxRed 8) 0 8 with
        | (s2, some Exn.range) => (s2, none)
        | (s2, e) => (s2, e)) = (cxRed 8, none)
  rw [hfull]

theorem cx9_reach : Reach (Octree.insert cx8w 8).1 :=
  Reach.insert cx8w_reach 8 (by with_unfolding_all decide) (by with_unfolding_all decide)
    (by with_unfolding_all decide) (by rw [cx_insert9]; decide)
    (by rw [cx_insert9]; with_unfolding_all decide)


def cxOne : Octree := (Octree.insert (Octree.writeAabb (Octree.initial 4 4 cxFull) 0 cxFull) 0).1
def cxZeroRay : Ray := ⟨1/2, 1/2, 1/2, 0, 0, 0⟩

theorem cxOne_eq : Octree.insert (Octree.writeAabb (Octree.initial 4 4 cxFull) 0 cxFull) 0 =
    (appendForm (Octree.writeAabb (Octree.initial 4 4 cxFull) 0 cxFull) 0 0, none) :=
  insertIntoNode_leaf_add 9 (by with_unfolding_all decide) (by with_unfolding_all decide)

theorem cxOne_reach : Reach cxOne :=
  Reach.insert (Reach.writeAabb (Reach.init 4 4 cxFull (by decide) (by with_unfolding_all decide))
      0 cxFull (by with_unfolding_all decide)) 0
    (by with_unfolding_all decide) (by with_unfolding_all decide) (by with_unfolding_all decide)
    (by rw [cxOne_eq]; decide) (by rw [cxOne_eq]; with_unfolding_all decide)



theorem cxOne_map : mapGet cxOne.objectNodeMap 0 = some 0 := by
  show mapGet
    (Octree.insert (Octree.writeAabb (Octree.initial 4 4 cxFull) 0 cxFull) 0).1.objectNodeMap
    0 = some 0
  rw [cxOne_eq]
  with_unfolding_all decide

/-- An axis-aligned test ray: origin `(1/2, 1/2, -5)`, direction `(0, 0, 1)`,
hitting the unit box at `t = 5`. -/
def cxAxisRay : Ray := ⟨1/2, 1/2, -5, 0, 0, 1⟩

/-- A two-slot AABB pool with one released slot on its free-list. -/
def cxPoolR : AABBPool := ((AABBPool.mk' 2).allocate.1.release 0).1

/-- The return value of `rayIntersectsAABB` written exactly as the
specification states it (§4.1): per-axis division formulas, `tmin`/`tmax` as
max of minima and min of maxima, `-1` when `tmax < 0` or NOT `tmin ≤ tmax`,
otherwise `tmin` when `tmin ≥ 0`, else `tmax`. -/
def specRayIntersects (r : Ray) (b : Aabb) : FVal :=
  if FVal.flt (slabTmax r b) (FVal.fin 0) || !(FVal.fle (slabTmin r b) (slabTmax r b))
  then FVal.fin (-1)
  else if FVal.fle (FVal.fin 0) (slabTmin r b) then slabTmin r b else slabTmax r b

/-! ## The ray kernel for a general nonzero direction

The exactness of `raycast` extends beyond rays with all direction components
nonzero: provided the direction is not the zero vector, every kernel value is
finite and hit-nonnegativity is monotone in box inclusion.  A zero direction
component contributes `±∞`/`NaN` per the IEEE semantics; the slab bounds of
the remaining axes are tracked as optional rationals. -/

namespace FVal

theorem mul_fin_pinf (c : ℚ) :
    mul (fin c) pinf = if c = 0 then nan else if 0 < c then pinf else ninf := rfl

theorem fmax_nan_left (y : FVal) : fmax nan y = nan := by simp [fmax]

theorem fmax_nan_right (x : FVal) : fmax x nan = nan := by simp [fmax]

theorem fmin_nan_left (y : FVal) : fmin nan y = nan := by simp [fmin]

theorem fmin_nan_right (x : FVal) : fmin x nan = nan := by simp [fmin]

theorem fmax_pinf_or (y : FVal) : fmax pinf y = pinf ∨ fmax pinf y = nan := by
  cases y <;> simp [fmax, flt]

theorem fmax_or_pinf (x : FVal) : fmax x pinf = pinf ∨ fmax x pinf = nan := by
  cases x <;> simp [fmax, flt]

theorem fmin_ninf_or (y : FVal) : fmin ninf y = ninf ∨ fmin ninf y = nan := by
  cases y <;> simp [fmin, flt]

theorem fmin_or_ninf (x : FVal) : fmin x ninf = ninf ∨ fmin x ninf = nan := by
  cases x <;> simp [fmin, flt]

theorem fle_nan_left (y : FVal) : fle nan y = false := by cases y <;> simp [fle]

theorem fle_nan_right (x : FVal) : fle x nan = false := by cases x <;> simp [fle]

theorem fle_right_ne_nan {x y : FVal} (h : fle x y = true) : y ≠ nan := by
  intro he
  rw [he, fle_nan_right] at h
  cases h

theorem fle_pinf_false {y : FVal} (h : y ≠ pinf) : fle pinf y = false := by
  cases y <;> simp_all [fle]

theorem flt_ninf_zero : flt ninf (fin 0) = true := by simp [flt]

theorem fmin_fin_left_ne_pinf (q : ℚ) (y : FVal) : fmin (fin q) y ≠ pinf := by
  cases y <;> simp [fmin, flt] <;> split <;> simp

theorem fmin_fin_right_ne_pinf (x : FVal) (q : ℚ) : fmin x (fin q) ≠ pinf := by
  cases x <;> simp [fmin, flt] <;> split <;> simp

theorem fmin_ne_pinf_left {x : FVal} (y : FVal) (h : x ≠ pinf) : fmin x y ≠ pinf := by
  cases x <;> cases y <;> simp_all [fmin, flt] <;> split <;> simp

end FVal

/-- Max of two optional slab bounds (`none`: the axis imposes none). -/
def oMax : Option ℚ → Option ℚ → Option ℚ
  | none, y => y
  | some a, none => some a
  | some a, some b => some (max a b)

/-- Min of two optional slab bounds. -/
def oMin : Option ℚ → Option ℚ → Option ℚ
  | none, y => y
  | some a, none => some a
  | some a, some b => some (min a b)

/-- An optional lower slab bound as the kernel value it stands for. -/
def encLo : Option ℚ → FVal
  | none => FVal.ninf
  | some q => FVal.fin q

/-- An optional upper slab bound as the kernel value it stands for. -/
def encHi : Option ℚ → FVal
  | none => FVal.pinf
  | some q => FVal.fin q

/-- Pointwise order on matching optional bounds. -/
def oLe : Option ℚ → Option ℚ → Prop
  | none, none => True
  | some a, some b => a ≤ b
  | _, _ => False

theorem fmax_encLo (x y : Option ℚ) : FVal.fmax (encLo x) (encLo y) = encLo (oMax x y) := by
  cases x with
  | none =>
    cases y with
    | none => simp [encLo, oMax, FVal.fmax, FVal.flt]
    | some b => simp [encLo, oMax, FVal.fmax, FVal.flt]
  | some a =>
    cases y with
    | none => simp [encLo, oMax, FVal.fmax, FVal.flt]
    | some b =>
      show FVal.fmax (FVal.fin a) (FVal.fin b) = encLo (some (max a b))
      rw [FVal.fmax_fin]
      rfl

theorem fmin_encHi (x y : Option ℚ) : FVal.fmin (encHi x) (encHi y) = encHi (oMin x y) := by
  cases x with
  | none =>
    cases y with
    | none => simp [encHi, oMin, FVal.fmin, FVal.flt]
    | some b => simp [encHi, oMin, FVal.fmin, FVal.flt]
  | some a =>
    cases y with
    | none => simp [encHi, oMin, FVal.fmin, FVal.flt]
    | some b =>
      show FVal.fmin (FVal.fin a) (FVal.fin b) = encHi (some (min a b))
      rw [FVal.fmin_fin]
      rfl

theorem oMax_ne_none_of_left {x : Option ℚ} (y : Option ℚ) (h : x ≠ none) :
    oMax x y ≠ none := by
  cases x <;> cases y <;> simp_all [oMax]

theorem oMax_ne_none_of_right (x : Option ℚ) {y : Option ℚ} (h : y ≠ none) :
    oMax x y ≠ none := by
  cases x <;> cases y <;> simp_all [oMax]

theorem oMin_ne_none_of_left {x : Option ℚ} (y : Option ℚ) (h : x ≠ none) :
    oMin x y ≠ none := by
  cases x <;> cases y <;> simp_all [oMin]

theorem oMin_ne_none_of_right (x : Option ℚ) {y : Option ℚ} (h : y ≠ none) :
    oMin x y ≠ none := by
  cases x <;> cases y <;> simp_all [oMin]

theorem oMax_mono {x x' y y' : Option ℚ} (h1 : oLe x x') (h2 : oLe y y') :
    oLe (oMax x y) (oMax x' y') := by
  cases x <;> cases x' <;> cases y <;> cases y'
  all_goals first
    | exact h1.elim
    | exact h2.elim
    | trivial
    | exact h1
    | exact h2
    | exact max_le_max h1 h2

theorem oMin_mono {x x' y y' : Option ℚ} (h1 : oLe x x') (h2 : oLe y y') :
    oLe (oMin x y) (oMin x' y') := by
  cases x <;> cases x' <;> cases y <;> cases y'
  all_goals first
    | exact h1.elim
    | exact h2.elim
    | trivial
    | exact h1
    | exact h2
    | exact min_le_min h1 h2

/-- The lower slab bound an axis contributes when its direction component is
nonzero (`none` for the parallel axis). -/
def axLo (o mn mx d : ℚ) : Option ℚ :=
  if d = 0 then none else some (min ((mn - o) * d⁻¹) ((mx - o) * d⁻¹))

/-- The upper slab bound of one axis (`none` for the parallel axis). -/
def axHi (o mn mx d : ℚ) : Option ℚ :=
  if d = 0 then none else some (max ((mn - o) * d⁻¹) ((mx - o) * d⁻¹))

/-- Combined optional lower bound over the three axes. -/
def qLoM (r : Ray) (b : Aabb) : Option ℚ :=
  oMax (oMax (axLo r.ox b.minX b.maxX r.dx) (axLo r.oy b.minY b.maxY r.dy))
       (axLo r.oz b.minZ b.maxZ r.dz)

/-- Combined optional upper bound over the three axes. -/
def qHiM (r : Ray) (b : Aabb) : Option ℚ :=
  oMin (oMin (axHi r.ox b.minX b.maxX r.dx) (axHi r.oy b.minY b.maxY r.dy))
       (axHi r.oz b.minZ b.maxZ r.dz)

/-- Every axis the ray is parallel to has the origin strictly inside its
slab. -/
def zeroAxesInterior (r : Ray) (b : Aabb) : Prop :=
  (r.dx = 0 → b.minX < r.ox ∧ r.ox < b.maxX) ∧
  (r.dy = 0 → b.minY < r.oy ∧ r.oy < b.maxY) ∧
  (r.dz = 0 → b.minZ < r.oz ∧ r.oz < b.maxZ)

/-- On an axis that is either nonparallel or strictly interior, the kernel's
per-axis min/max are the encoded optional bounds. -/
theorem axis_enc_interior {o mn mx d : ℚ} (hint : d = 0 → mn < o ∧ o < mx) :
    FVal.fmin (FVal.mul (FVal.fin (mn - o)) (FVal.recip d))
        (FVal.mul (FVal.fin (mx - o)) (FVal.recip d)) = encLo (axLo o mn mx d) ∧
    FVal.fmax (FVal.mul (FVal.fin (mn - o)) (FVal.recip d))
        (FVal.mul (FVal.fin (mx - o)) (FVal.recip d)) = encHi (axHi o mn mx d) := by
  by_cases hd : d = 0
  · obtain ⟨h1, h2⟩ := hint hd
    subst hd
    have hr0 : FVal.recip 0 = FVal.pinf := by simp [FVal.recip]
    have ht1 : FVal.mul (FVal.fin (mn - o)) (FVal.recip 0) = FVal.ninf := by
      rw [hr0, FVal.mul_fin_pinf, if_neg (by linarith), if_neg (by linarith)]
    have ht2 : FVal.mul (FVal.fin (mx - o)) (FVal.recip 0) = FVal.pinf := by
      rw [hr0, FVal.mul_fin_pinf, if_neg (by linarith), if_pos (by linarith)]
    rw [ht1, ht2]
    rw [show axLo o mn mx 0 = none from by simp [axLo]]
    rw [show axHi o mn mx 0 = none from by simp [axHi]]
    constructor
    · simp [FVal.fmin, FVal.flt, encLo]
    · simp [FVal.fmax, FVal.flt, encHi]
  · rw [FVal.recip_ne hd]
    simp only [FVal.mul_fin_fin, FVal.fmin_fin, FVal.fmax_fin]
    constructor
    · simp [axLo, hd, encLo]
    · simp [axHi, hd, encHi]

/-- For an interior ray–box pair the kernel computes the encoded masked slab
test. -/
theorem ray_eval_interior {r : Ray} {b : Aabb} (hint : zeroAxesInterior r b) :
    rayIntersectsAABB r b =
      if FVal.flt (encHi (qHiM r b)) (FVal.fin 0) ||
         !(FVal.fle (encLo (qLoM r b)) (encHi (qHiM r b)))
      then FVal.fin (-1)
      else if FVal.fle (FVal.fin 0) (encLo (qLoM r b)) then encLo (qLoM r b)
      else encHi (qHiM r b) := by
  obtain ⟨hix, hiy, hiz⟩ := hint
  obtain ⟨hx1, hx2⟩ := axis_enc_interior hix
  obtain ⟨hy1, hy2⟩ := axis_enc_interior hiy
  obtain ⟨hz1, hz2⟩ := axis_enc_interior hiz
  unfold rayIntersectsAABB qLoM qHiM
  simp only [hx1, hx2, hy1, hy2, hz1, hz2, fmax_encLo, fmin_encHi]

theorem qLoM_some {r : Ray} (h : ¬(r.dx = 0 ∧ r.dy = 0 ∧ r.dz = 0)) (b : Aabb) :
    ∃ q, qLoM r b = some q := by
  have h3 : r.dx ≠ 0 ∨ r.dy ≠ 0 ∨ r.dz ≠ 0 := by tauto
  have hne : qLoM r b ≠ none := by
    unfold qLoM
    rcases h3 with hd | hd | hd
    · exact oMax_ne_none_of_left _ (oMax_ne_none_of_left _ (by simp [axLo, hd]))
    · exact oMax_ne_none_of_left _ (oMax_ne_none_of_right _ (by simp [axLo, hd]))
    · exact oMax_ne_none_of_right _ (by simp [axLo, hd])
  cases hq : qLoM r b with
  | none => exact absurd hq hne
  | some q => exact ⟨q, rfl⟩

theorem qHiM_some {r : Ray} (h : ¬(r.dx = 0 ∧ r.dy = 0 ∧ r.dz = 0)) (b : Aabb) :
    ∃ q, qHiM r b = some q := by
  have h3 : r.dx ≠ 0 ∨ r.dy ≠ 0 ∨ r.dz ≠ 0 := by tauto
  have hne : qHiM r b ≠ none := by
    unfold qHiM
    rcases h3 with hd | hd | hd
    · exact oMin_ne_none_of_left _ (oMin_ne_none_of_left _ (by simp [axHi, hd]))
    · exact oMin_ne_none_of_left _ (oMin_ne_none_of_right _ (by simp [axHi, hd]))
    · exact oMin_ne_none_of_right _ (by simp [axHi, hd])
  cases hq : qHiM r b with
  | none => exact absurd hq hne
  | some q => exact ⟨q, rfl⟩

/-- For a non-zero-vector direction and an interior pair the kernel value is
the rational masked slab test. -/
theorem ray_eval_gen {r : Ray} (h : ¬(r.dx = 0 ∧ r.dy = 0 ∧ r.dz = 0)) {b : Aabb}
    (hint : zeroAxesInterior r b) :
    ∃ ql qh : ℚ, qLoM r b = some ql ∧ qHiM r b = some qh ∧
      rayIntersectsAABB r b =
        (if qh < 0 ∨ ¬ (ql ≤ qh) then FVal.fin (-1)
         else if 0 ≤ ql then FVal.fin ql else FVal.fin qh) := by
  obtain ⟨ql, hql⟩ := qLoM_some h b
  obtain ⟨qh, hqh⟩ := qHiM_some h b
  refine ⟨ql, qh, hql, hqh, ?_⟩
  rw [ray_eval_interior hint, hql, hqh]
  show (if FVal.flt (FVal.fin qh) (FVal.fin 0) || !(FVal.fle (FVal.fin ql) (FVal.fin qh))
        then FVal.fin (-1)
        else if FVal.fle (FVal.fin 0) (FVal.fin ql) then FVal.fin ql else FVal.fin qh) = _
  exact fin_branch ql qh

theorem axLo_mono {o mn mx mn' mx' : ℚ} (d : ℚ) (hw : mn ≤ mx) (h1 : mn' ≤ mn)
    (h2 : mx ≤ mx') : oLe (axLo o mn' mx' d) (axLo o mn mx d) := by
  by_cases hd : d = 0
  · simp [axLo, hd, oLe]
  · simp only [axLo, if_neg hd]
    show min ((mn' - o) * d⁻¹) ((mx' - o) * d⁻¹) ≤ min ((mn - o) * d⁻¹) ((mx - o) * d⁻¹)
    exact slab_lo_mono hd hw h1 h2

theorem axHi_mono {o mn mx mn' mx' : ℚ} (d : ℚ) (hw : mn ≤ mx) (h1 : mn' ≤ mn)
    (h2 : mx ≤ mx') : oLe (axHi o mn mx d) (axHi o mn' mx' d) := by
  by_cases hd : d = 0
  · simp [axHi, hd, oLe]
  · simp only [axHi, if_neg hd]
    show max ((mn - o) * d⁻¹) ((mx - o) * d⁻¹) ≤ max ((mn' - o) * d⁻¹) ((mx' - o) * d⁻¹)
    exact slab_hi_mono hd hw h1 h2

theorem qLoM_mono (r : Ray) {a b : Aabb} (hwa : wfAabb a) (hsub : aabbSub a b) :
    oLe (qLoM r b) (qLoM r a) := by
  obtain ⟨wx, wy, wz⟩ := hwa
  obtain ⟨s1, s2, s3, s4, s5, s6⟩ := hsub
  exact oMax_mono (oMax_mono (axLo_mono r.dx wx s1 s4) (axLo_mono r.dy wy s2 s5))
    (axLo_mono r.dz wz s3 s6)

theorem qHiM_mono (r : Ray) {a b : Aabb} (hwa : wfAabb a) (hsub : aabbSub a b) :
    oLe (qHiM r a) (qHiM r b) := by
  obtain ⟨wx, wy, wz⟩ := hwa
  obtain ⟨s1, s2, s3, s4, s5, s6⟩ := hsub
  exact oMin_mono (oMin_mono (axHi_mono r.dx wx s1 s4) (axHi_mono r.dy wy s2 s5))
    (axHi_mono r.dz wz s3 s6)

/-- The kernel's per-axis lower value (before masking). -/
def axFmin (o mn mx d : ℚ) : FVal :=
  FVal.fmin (FVal.mul (FVal.fin (mn - o)) (FVal.recip d))
            (FVal.mul (FVal.fin (mx - o)) (FVal.recip d))

/-- The kernel's per-axis upper value (before masking). -/
def axFmax (o mn mx d : ℚ) : FVal :=
  FVal.fmax (FVal.mul (FVal.fin (mn - o)) (FVal.recip d))
            (FVal.mul (FVal.fin (mx - o)) (FVal.recip d))

/-- The kernel's `tmin`. -/
def rayT (r : Ray) (b : Aabb) : FVal :=
  FVal.fmax (FVal.fmax (axFmin r.ox b.minX b.maxX r.dx) (axFmin r.oy b.minY b.maxY r.dy))
            (axFmin r.oz b.minZ b.maxZ r.dz)

/-- The kernel's `tmax`. -/
def rayM (r : Ray) (b : Aabb) : FVal :=
  FVal.fmin (FVal.fmin (axFmax r.ox b.minX b.maxX r.dx) (axFmax r.oy b.minY b.maxY r.dy))
            (axFmax r.oz b.minZ b.maxZ r.dz)

/-- The kernel's final branch on `tmin`/`tmax`. -/
def rayIf (T M : FVal) : FVal :=
  if FVal.flt M (FVal.fin 0) || !(FVal.fle T M) then FVal.fin (-1)
  else if FVal.fle (FVal.fin 0) T then T else M

theorem ray_unfold (r : Ray) (b : Aabb) :
    rayIntersectsAABB r b = rayIf (rayT r b) (rayM r b) := rfl

/-- With a non-zero direction vector `tmax` is never `+∞`: some axis
contributes a finite upper bound. -/
theorem rayM_ne_pinf {r : Ray} (h : ¬(r.dx = 0 ∧ r.dy = 0 ∧ r.dz = 0)) (b : Aabb) :
    rayM r b ≠ FVal.pinf := by
  have h3 : r.dx ≠ 0 ∨ r.dy ≠ 0 ∨ r.dz ≠ 0 := by tauto
  unfold rayM
  rcases h3 with hd | hd | hd
  · have hfx : axFmax r.ox b.minX b.maxX r.dx =
        FVal.fin (max ((b.minX - r.ox) * r.dx⁻¹) ((b.maxX - r.ox) * r.dx⁻¹)) := by
      unfold axFmax
      rw [FVal.recip_ne hd]
      simp only [FVal.mul_fin_fin, FVal.fmax_fin]
    rw [hfx]
    exact FVal.fmin_ne_pinf_left _ (FVal.fmin_fin_left_ne_pinf _ _)
  · have hfy : axFmax r.oy b.minY b.maxY r.dy =
        FVal.fin (max ((b.minY - r.oy) * r.dy⁻¹) ((b.maxY - r.oy) * r.dy⁻¹)) := by
      unfold axFmax
      rw [FVal.recip_ne hd]
      simp only [FVal.mul_fin_fin, FVal.fmax_fin]
    rw [hfy]
    exact FVal.fmin_ne_pinf_left _ (FVal.fmin_fin_right_ne_pinf _ _)
  · have hfz : axFmax r.oz b.minZ b.maxZ r.dz =
        FVal.fin (max ((b.minZ - r.oz) * r.dz⁻¹) ((b.maxZ - r.oz) * r.dz⁻¹)) := by
      unfold axFmax
      rw [FVal.recip_ne hd]
      simp only [FVal.mul_fin_fin, FVal.fmax_fin]
    rw [hfz]
    exact FVal.fmin_fin_right_ne_pinf _ _

/-- The final branch always yields a finite value when `tmax ≠ +∞`. -/
theorem rayIf_shape (T M : FVal) (hMne : M ≠ FVal.pinf) :
    ∃ q : ℚ, rayIf T M = FVal.fin q := by
  unfold rayIf
  cases hgb : (FVal.flt M (FVal.fin 0) || !(FVal.fle T M)) with
  | true => exact ⟨-1, by simp⟩
  | false =>
    have hgb0 := hgb
    rw [Bool.or_eq_false_iff] at hgb
    obtain ⟨hflt, hfle'⟩ := hgb
    have hfle : FVal.fle T M = true := by
      rcases Bool.eq_false_or_eq_true (FVal.fle T M) with hx | hx
      · exact hx
      · rw [hx] at hfle'
        simp at hfle'
    have hMnan : M ≠ FVal.nan := FVal.fle_right_ne_nan hfle
    have hMninf : M ≠ FVal.ninf := by
      intro he
      rw [he, FVal.flt_ninf_zero] at hflt
      simp at hflt
    obtain ⟨qm, rfl⟩ : ∃ qm, M = FVal.fin qm := by
      cases M with
      | fin q => exact ⟨q, rfl⟩
      | pinf => exact absurd rfl hMne
      | ninf => exact absurd rfl hMninf
      | nan => exact absurd rfl hMnan
    rw [if_neg (by simp)]
    cases T with
    | fin qt =>
      by_cases h0 : FVal.fle (FVal.fin 0) (FVal.fin qt) = true
      · rw [if_pos h0]
        exact ⟨qt, rfl⟩
      · rw [if_neg h0]
        exact ⟨qm, rfl⟩
    | ninf =>
      rw [if_neg (by simp [FVal.fle])]
      exact ⟨qm, rfl⟩
    | pinf =>
      exfalso
      have hp : FVal.fle FVal.pinf (FVal.fin qm) = false :=
        FVal.fle_pinf_false (by simp)
      rw [hp] at hfle
      simp at hfle
    | nan =>
      exfalso
      rw [FVal.fle_nan_left] at hfle
      simp at hfle

/-- The general value extractor: with a non-zero direction vector the kernel
always returns a finite value. -/
def rayValG (r : Ray) (b : Aabb) : ℚ :=
  match rayIntersectsAABB r b with
  | FVal.fin q => q
  | _ => -1

theorem ray_fin_gen {r : Ray} (h : ¬(r.dx = 0 ∧ r.dy = 0 ∧ r.dz = 0)) (b : Aabb) :
    rayIntersectsAABB r b = FVal.fin (rayValG r b) := by
  obtain ⟨q, hq⟩ := rayIf_shape (rayT r b) (rayM r b) (rayM_ne_pinf h b)
  have he : rayIntersectsAABB r b = rayIf (rayT r b) (rayM r b) := ray_unfold r b
  unfold rayValG
  rw [he, hq]

/-- The shapes a parallel axis can take when the origin is not strictly
inside its slab: both extremes NaN (boundary), both `+∞` (strictly below) or
both `-∞` (strictly above). -/
theorem zero_axis_cases (o mn mx d : ℚ) (hd : d = 0) (hw : mn ≤ mx)
    (hno : ¬ (mn < o ∧ o < mx)) :
    (axFmin o mn mx d = FVal.nan ∧ axFmax o mn mx d = FVal.nan) ∨
    (axFmin o mn mx d = FVal.pinf ∧ axFmax o mn mx d = FVal.pinf) ∨
    (axFmin o mn mx d = FVal.ninf ∧ axFmax o mn mx d = FVal.ninf) := by
  subst hd
  push_neg at hno
  have hr0 : FVal.recip 0 = FVal.pinf := by simp [FVal.recip]
  unfold axFmin axFmax
  rw [hr0]
  by_cases h1 : mn - o = 0
  · have ht1 : FVal.mul (FVal.fin (mn - o)) FVal.pinf = FVal.nan := by
      rw [FVal.mul_fin_pinf, if_pos h1]
    rw [ht1, FVal.fmin_nan_left, FVal.fmax_nan_left]
    exact Or.inl ⟨rfl, rfl⟩
  · by_cases h2 : mx - o = 0
    · have ht2 : FVal.mul (FVal.fin (mx - o)) FVal.pinf = FVal.nan := by
        rw [FVal.mul_fin_pinf, if_pos h2]
      rw [ht2, FVal.fmin_nan_right, FVal.fmax_nan_right]
      exact Or.inl ⟨rfl, rfl⟩
    · by_cases hb : mn < o
      · have hab : mx < o := by
          have hle := hno hb
          rcases lt_or_eq_of_le hle with hlt | heq
          · exact hlt
          · exact absurd (by rw [← heq]; ring) h2
        have ht1 : FVal.mul (FVal.fin (mn - o)) FVal.pinf = FVal.ninf := by
          rw [FVal.mul_fin_pinf, if_neg h1, if_neg (by linarith)]
        have ht2 : FVal.mul (FVal.fin (mx - o)) FVal.pinf = FVal.ninf := by
          rw [FVal.mul_fin_pinf, if_neg h2, if_neg (by linarith)]
        rw [ht1, ht2]
        refine Or.inr (Or.inr ⟨?_, ?_⟩)
        · simp [FVal.fmin, FVal.flt]
        · simp [FVal.fmax, FVal.flt]
      · have hbo : o < mn := by
          rcases lt_or_eq_of_le (le_of_not_lt hb) with hlt | heq
          · exact hlt
          · exact absurd (by rw [heq]; ring) h1
        have ht1 : FVal.mul (FVal.fin (mn - o)) FVal.pinf = FVal.pinf := by
          rw [FVal.mul_fin_pinf, if_neg h1, if_pos (by linarith)]
        have ht2 : FVal.mul (FVal.fin (mx - o)) FVal.pinf = FVal.pinf := by
          rw [FVal.mul_fin_pinf, if_neg h2, if_pos (by linarith)]
        rw [ht1, ht2]
        refine Or.inr (Or.inl ⟨?_, ?_⟩)
        · simp [FVal.fmin, FVal.flt]
        · simp [FVal.fmax, FVal.flt]

/-- A ray parallel to the X axis whose origin is not strictly inside the X
slab misses the box. -/
theorem ray_miss_x {r : Ray} (h : ¬(r.dx = 0 ∧ r.dy = 0 ∧ r.dz = 0)) {b : Aabb}
    (hw : wfAabb b) (hdx : r.dx = 0) (hno : ¬ (b.minX < r.ox ∧ r.ox < b.maxX)) :
    rayIntersectsAABB r b = FVal.fin (-1) := by
  have hMne : rayM r b ≠ FVal.pinf := rayM_ne_pinf h b
  rw [ray_unfold]
  rcases zero_axis_cases r.ox b.minX b.maxX r.dx hdx hw.1 hno with
    ⟨hL, hH⟩ | ⟨hL, hH⟩ | ⟨hL, hH⟩
  · unfold rayIf rayT rayM
    rw [hL, hH, FVal.fmax_nan_left, FVal.fmax_nan_left, FVal.fmin_nan_left,
      FVal.fmin_nan_left]
    simp [FVal.flt, FVal.fle]
  · unfold rayIf rayT
    rw [hL]
    rcases FVal.fmax_pinf_or (axFmin r.oy b.minY b.maxY r.dy) with h1 | h1 <;> rw [h1]
    · rcases FVal.fmax_pinf_or (axFmin r.oz b.minZ b.maxZ r.dz) with h2 | h2 <;> rw [h2]
      · rw [FVal.fle_pinf_false hMne]
        simp
      · rw [FVal.fle_nan_left]
        simp
    · rw [FVal.fmax_nan_left, FVal.fle_nan_left]
      simp
  · unfold rayIf rayM
    rw [hH]
    rcases FVal.fmin_ninf_or (axFmax r.oy b.minY b.maxY r.dy) with h1 | h1 <;> rw [h1]
    · rcases FVal.fmin_ninf_or (axFmax r.oz b.minZ b.maxZ r.dz) with h2 | h2 <;> rw [h2]
      · rw [FVal.flt_ninf_zero]
        simp
      · rw [FVal.fle_nan_right]
        simp
    · rw [FVal.fmin_nan_left, FVal.fle_nan_right]
      simp

/-- A ray parallel to the Y axis whose origin is not strictly inside the Y
slab misses the box. -/
theorem ray_miss_y {r : Ray} (h : ¬(r.dx = 0 ∧ r.dy = 0 ∧ r.dz = 0)) {b : Aabb}
    (hw : wfAabb b) (hdy : r.dy = 0) (hno : ¬ (b.minY < r.oy ∧ r.oy < b.maxY)) :
    rayIntersectsAABB r b = FVal.fin (-1) := by
  have hMne : rayM r b ≠ FVal.pinf := rayM_ne_pinf h b
  rw [ray_unfold]
  rcases zero_axis_cases r.oy b.minY b.maxY r.dy hdy hw.2.1 hno with
    ⟨hL, hH⟩ | ⟨hL, hH⟩ | ⟨hL, hH⟩
  · unfold rayIf rayT rayM
    rw [hL, hH, FVal.fmax_nan_right, FVal.fmax_nan_left, FVal.fmin_nan_right,
      FVal.fmin_nan_left]
    simp [FVal.flt, FVal.fle]
  · unfold rayIf rayT
    rw [hL]
    rcases FVal.fmax_or_pinf (axFmin r.ox b.minX b.maxX r.dx) with h1 | h1 <;> rw [h1]
    · rcases FVal.fmax_pinf_or (axFmin r.oz b.minZ b.maxZ r.dz) with h2 | h2 <;> rw [h2]
      · rw [FVal.fle_pinf_false hMne]
        simp
      · rw [FVal.fle_nan_left]
        simp
    · rw [FVal.fmax_nan_left, FVal.fle_nan_left]
      simp
  · unfold rayIf rayM
    rw [hH]
    rcases FVal.fmin_or_ninf (axFmax r.ox b.minX b.maxX r.dx) with h1 | h1 <;> rw [h1]
    · rcases FVal.fmin_ninf_or (axFmax r.oz b.minZ b.maxZ r.dz) with h2 | h2 <;> rw [h2]
      · rw [FVal.flt_ninf_zero]
        simp
      · rw [FVal.fle_nan_right]
        simp
    · rw [FVal.fmin_nan_left, FVal.fle_nan_right]
      simp

/-- A ray parallel to the Z axis whose origin is not strictly inside the Z
slab misses the box. -/
theorem ray_miss_z {r : Ray} (h : ¬(r.dx = 0 ∧ r.dy = 0 ∧ r.dz = 0)) {b : Aabb}
    (hw : wfAabb b) (hdz : r.dz = 0) (hno : ¬ (b.minZ < r.oz ∧ r.oz < b.maxZ)) :
    rayIntersectsAABB r b = FVal.fin (-1) := by
  have hMne : rayM r b ≠ FVal.pinf := rayM_ne_pinf h b
  rw [ray_unfold]
  rcases zero_axis_cases r.oz b.minZ b.maxZ r.dz hdz hw.2.2 hno with
    ⟨hL, hH⟩ | ⟨hL, hH⟩ | ⟨hL, hH⟩
  · unfold rayIf rayT rayM
    rw [hL, hH, FVal.fmax_nan_right, FVal.fmin_nan_right]
    simp [FVal.flt, FVal.fle]
  · unfold rayIf rayT
    rw [hL]
    rcases FVal.fmax_or_pinf (FVal.fmax (axFmin r.ox b.minX b.maxX r.dx)
        (axFmin r.oy b.minY b.maxY r.dy)) with h1 | h1 <;> rw [h1]
    · rw [FVal.fle_pinf_false hMne]
      simp
    · rw [FVal.fle_nan_left]
      simp
  · unfold rayIf rayM
    rw [hH]
    rcases FVal.fmin_or_ninf (FVal.fmin (axFmax r.ox b.minX b.maxX r.dx)
        (axFmax r.oy b.minY b.maxY r.dy)) with h1 | h1 <;> rw [h1]
    · rw [FVal.flt_ninf_zero]
      simp
    · rw [FVal.fle_nan_right]
      simp

/-- A box the ray meets at `t ≥ 0` has the origin strictly inside the slab of
every parallel axis. -/
theorem ray_hit_interior {r : Ray} (h : ¬(r.dx = 0 ∧ r.dy = 0 ∧ r.dz = 0)) {b : Aabb}
    (hw : wfAabb b)
    (hh : FVal.fle (FVal.fin 0) (rayIntersectsAABB r b) = true) :
    zeroAxesInterior r b := by
  have hne : ¬ rayIntersectsAABB r b = FVal.fin (-1) := by
    intro he
    rw [he, FVal.fle_fin] at hh
    simp only [decide_eq_true_eq] at hh
    linarith
  refine ⟨?_, ?_, ?_⟩
  · intro hd
    by_contra hno
    exact hne (ray_miss_x h hw hd hno)
  · intro hd
    by_contra hno
    exact hne (ray_miss_y h hw hd hno)
  · intro hd
    by_contra hno
    exact hne (ray_miss_z h hw hd hno)

/-- A ray with a non-zero direction vector that meets a box at `t ≥ 0` also
meets every enclosing box at `t ≥ 0`. -/
theorem ray_hit_mono_gen {r : Ray} (h : ¬(r.dx = 0 ∧ r.dy = 0 ∧ r.dz = 0))
    {a b : Aabb} (hwa : wfAabb a) (hsub : aabbSub a b)
    (hha : FVal.fle (FVal.fin 0) (rayIntersectsAABB r a) = true) :
    FVal.fle (FVal.fin 0) (rayIntersectsAABB r b) = true := by
  have hintA : zeroAxesInterior r a := ray_hit_interior h hwa hha
  have hintB : zeroAxesInterior r b := by
    obtain ⟨hx, hy, hz⟩ := hintA
    obtain ⟨s1, s2, s3, s4, s5, s6⟩ := hsub
    refine ⟨fun hd => ?_, fun hd => ?_, fun hd => ?_⟩
    · obtain ⟨u1, u2⟩ := hx hd
      exact ⟨by linarith, by linarith⟩
    · obtain ⟨u1, u2⟩ := hy hd
      exact ⟨by linarith, by linarith⟩
    · obtain ⟨u1, u2⟩ := hz hd
      exact ⟨by linarith, by linarith⟩
  obtain ⟨qlA, qhA, hlA, hhA, heA⟩ := ray_eval_gen h hintA
  obtain ⟨qlB, qhB, hlB, hhB, heB⟩ := ray_eval_gen h hintB
  rw [heA] at hha
  by_cases hgA : qhA < 0 ∨ ¬ (qlA ≤ qhA)
  · rw [if_pos hgA, FVal.fle_fin] at hha
    simp only [decide_eq_true_eq] at hha
    linarith
  · push_neg at hgA
    obtain ⟨h1, h2⟩ := hgA
    have hmlo := qLoM_mono r hwa hsub
    have hmhi := qHiM_mono r hwa hsub
    rw [hlA, hlB] at hmlo
    rw [hhA, hhB] at hmhi
    have hlo : qlB ≤ qlA := hmlo
    have hhi : qhA ≤ qhB := hmhi
    rw [heB]
    have hgB : ¬ (qhB < 0 ∨ ¬ (qlB ≤ qhB)) := by
      push_neg
      constructor
      · linarith
      · linarith
    rw [if_neg hgB]
    by_cases h0 : 0 ≤ qlB
    · rw [if_pos h0, FVal.fle_fin]
      simpa using h0
    · rw [if_neg h0, FVal.fle_fin]
      simp only [decide_eq_true_eq]
      linarith

namespace Octree

/-- Exactness of `raycast` for every ray whose direction is not the zero
vector, on invariant states: a `none` result means no tracked object is met
at `t ≥ 0`; a hit reports a tracked object, its exact kernel value,
nonnegative and minimal among all tracked objects met at `t ≥ 0`. -/
theorem raycast_exact_gen {s : Octree} (hinv : Inv s) {r : Ray}
    (hd : ¬(r.dx = 0 ∧ r.dy = 0 ∧ r.dz = 0)) :
    ((raycast s r).1 = none →
      ∀ o n, mapGet s.objectNodeMap o = some n →
        FVal.fle (FVal.fin 0) (rayIntersectsAABB r (s.aabbAt o)) = false) ∧
    (∀ idx t, (raycast s r).1 = some (idx, t) →
      (∃ n, mapGet s.objectNodeMap idx = some n) ∧
      t = rayIntersectsAABB r (s.aabbAt idx) ∧
      FVal.fle (FVal.fin 0) t = true ∧
      ∀ o n, mapGet s.objectNodeMap o = some n →
        FVal.fle (FVal.fin 0) (rayIntersectsAABB r (s.aabbAt o)) = true →
        FVal.fle t (rayIntersectsAABB r (s.aabbAt o)) = true) := by
  have hhit_chain : ∀ o n, mapGet s.objectNodeMap o = some n →
      FVal.fle (FVal.fin 0) (rayIntersectsAABB r (s.aabbAt o)) = true →
      ∀ m, m < s.np.count → aabbSub (s.aabbAt o) (s.np.getAABB m) →
      FVal.fle (FVal.fin 0) (rayIntersectsAABB r (s.np.getAABB m)) = true := by
    intro o n ho hh m hm hsub
    exact ray_hit_mono_gen hd (hinv.aabb_wf o n ho) hsub hh
  rcases raycast_cases hinv r with ⟨hrt, heq⟩ | ⟨hrt, visits, hiff, hnd, hlt, heq⟩
  · constructor
    · intro _ o n ho
      rcases Bool.eq_false_or_eq_true
          (FVal.fle (FVal.fin 0) (rayIntersectsAABB r (s.aabbAt o))) with h | h
      · exfalso
        have hnlt := hinv.map_node_lt o n ho
        have hsub := aabbSub_trans (hinv.fits_inv o n ho) (node_sub_root hinv n hnlt)
        have hroot := hhit_chain o n ho h s.root hinv.root_lt hsub
        rw [FVal.flt_zero_of_fle hroot] at hrt
        cases hrt
      · exact h
    · intro idx t hsome
      rw [heq] at hsome
      cases hsome
  · set val : ℕ → ℚ := fun o => rayValG r (s.ap.getAabb o) with hval
    set L : List ℕ := visits.bind (fun n => (s.np.node n).objs) with hL
    have hfval : ∀ o, rayIntersectsAABB r (s.aabbAt o) = FVal.fin (val o) := by
      intro o
      exact ray_fin_gen hd _
    have hbest : (visits.foldl (fun b nodeIdx => (s.np.node nodeIdx).objs.foldl
          (fun (b : FVal × ℤ) objIdx =>
            if FVal.fle (FVal.fin 0) (rayIntersectsAABB r (s.ap.getAabb objIdx)) &&
               FVal.flt (rayIntersectsAABB r (s.ap.getAabb objIdx)) b.1
            then (rayIntersectsAABB r (s.ap.getAabb objIdx), (objIdx : ℤ)) else b) b)
          (FVal.pinf, -1))
        = L.foldl (rayStep val) (FVal.pinf, -1) := by
      rw [foldl_foldl_bind]
      rw [← hL]
      refine foldl_ext' L (FVal.pinf, -1) ?_
      intro b o ho
      show _ = rayStep val b o
      unfold rayStep
      rw [show rayIntersectsAABB r (s.ap.getAabb o) = FVal.fin (val o) from hfval o]
    obtain ⟨hprov, hmin, hdesc⟩ := rayFold_run val L (FVal.pinf, -1) (Or.inl rfl)
    have hmemL : ∀ o, o ∈ L ↔ ∃ n ∈ visits, o ∈ (s.np.node n).objs := by
      intro o
      rw [hL]
      exact List.mem_bind
    have hfactA : ∀ o n, mapGet s.objectNodeMap o = some n →
        FVal.fle (FVal.fin 0) (rayIntersectsAABB r (s.aabbAt o)) = true → o ∈ L := by
      intro o n ho hh
      have hnlt := hinv.map_node_lt o n ho
      have hpath := path_to_node hinv
        (fun m => FVal.fle (FVal.fin 0) (rayIntersectsAABB r (s.np.getAABB m)))
        (fun m hm hsubm => hhit_chain o n ho hh m hm hsubm) n hnlt (hinv.fits_inv o n ho)
      exact (hmemL o).2 ⟨n, (hiff n).2 hpath, hinv.map_in_list o n ho⟩
    have hfactB : ∀ o, o ∈ L → ∃ n, mapGet s.objectNodeMap o = some n := by
      intro o ho
      obtain ⟨n, hn, hmem⟩ := (hmemL o).1 ho
      exact ⟨n, hinv.list_in_map n (hlt n hn) o hmem⟩
    rw [hbest] at heq
    set best := L.foldl (rayStep val) (FVal.pinf, -1) with hbdef
    by_cases hb1 : best.2 = -1
    · have hbeq : best = (FVal.pinf, -1) := by
        rcases hprov with h | ⟨k, hk, h, hvk⟩
        · exact h
        · rw [h] at hb1
          exact absurd hb1 (by simp)
      constructor
      · intro _ o n ho
        rcases Bool.eq_false_or_eq_true
            (FVal.fle (FVal.fin 0) (rayIntersectsAABB r (s.aabbAt o))) with h | h
        · exfalso
          have hoL := hfactA o n ho h
          have hvo : 0 ≤ val o := by
            rw [hfval o, FVal.fle_fin] at h
            simpa using h
          have hmm := hmin o hoL hvo
          rw [hbeq] at hmm
          simp [FVal.fle, beq_iff_eq] at hmm
        · exact h
      · intro idx t hsome
        rw [heq] at hsome
        rw [if_pos hb1] at hsome
        cases hsome
    · obtain ⟨k, hkL, hkeq, hvk⟩ : ∃ k ∈ L,
          best = (FVal.fin (val k), (k : ℤ)) ∧ 0 ≤ val k := by
        rcases hprov with h | h
        · rw [h] at hb1
          exact absurd rfl hb1
        · exact h
      constructor
      · intro hnone
        rw [heq, if_neg hb1] at hnone
        cases hnone
      · intro idx t hsome
        rw [heq, if_neg hb1] at hsome
        have hpair := Option.some.inj hsome
        have hidx : idx = best.2.toNat := (congrArg Prod.fst hpair).symm
        have ht : t = best.1 := (congrArg Prod.snd hpair).symm
        subst hidx
        subst ht
        have h2 : best.2.toNat = k := by
          rw [hkeq]
          simp
        have h1 : best.1 = FVal.fin (val k) := by
          rw [hkeq]
        rw [h2, h1]
        refine ⟨hfactB k hkL, ?_, ?_, ?_⟩
        · rw [hfval k]
        · rw [FVal.fle_fin]
          simpa using hvk
        · intro o n ho hh
          have hoL := hfactA o n ho hh
          have hvo : 0 ≤ val o := by
            rw [hfval o, FVal.fle_fin] at hh
            simpa using hh
          have hmo := hmin o hoL hvo
          rw [hkeq] at hmo
          rw [hfval o]
          exact hmo

end Octree

/-! ## The claims -/

/-- C1 (amended): for every reachable octree state and every ray whose
direction is not the zero vector, `raycast` returns `none` only when no
tracked object has a nonnegative `rayIntersectsAABB` value, and a returned
hit `(idx, t)` is a tracked object whose stored AABB intersects the ray at
exactly `t ≥ 0`, minimal among the nonnegative intersection values of all
tracked objects.  (Excluding exactly the zero direction vector is forced by
`C1_counterexample`: only for direction `(0, 0, 0)` can the kernel return
`+∞`, which the traversal's strict `t < bestT` filter drops, so `raycast`
answers `none` although a live object is intersected at a nonnegative
value; with any nonzero component the kernel value is always finite and
the property holds, including for axis-aligned rays.) -/
theorem C1_raycast_min {s : Octree} (hreach : Reach s) {r : Ray}
    (hd : ¬(r.dx = 0 ∧ r.dy = 0 ∧ r.dz = 0)) :
    ((raycast s r).1 = none →
      ∀ o n, mapGet s.objectNodeMap o = some n →
        FVal.fle (FVal.fin 0) (rayIntersectsAABB r (s.aabbAt o)) = false) ∧
    (∀ idx t, (raycast s r).1 = some (idx, t) →
      (∃ n, mapGet s.objectNodeMap idx = some n) ∧
      t = rayIntersectsAABB r (s.aabbAt idx) ∧
      FVal.fle (FVal.fin 0) t = true ∧
      ∀ o n, mapGet s.objectNodeMap o = some n →
        FVal.fle (FVal.fin 0) (rayIntersectsAABB r (s.aabbAt o)) = true →
        FVal.fle t (rayIntersectsAABB r (s.aabbAt o)) = true) :=
  Octree.raycast_exact_gen (reach_inv s hreach) hd

/-- C1 witness: the amended theorem instantiated at the reachable one-object
state and the axis-aligned ray with direction `(0, 0, 1)`. -/
theorem C1_witness :
    ((raycast cxOne cxAxisRay).1 = none →
      ∀ o n, mapGet cxOne.objectNodeMap o = some n →
        FVal.fle (FVal.fin 0)
          (rayIntersectsAABB cxAxisRay (cxOne.aabbAt o)) = false) ∧
    (∀ idx t, (raycast cxOne cxAxisRay).1 = some (idx, t) →
      (∃ n, mapGet cxOne.objectNodeMap idx = some n) ∧
      t = rayIntersectsAABB cxAxisRay (cxOne.aabbAt idx) ∧
      FVal.fle (FVal.fin 0) t = true ∧
      ∀ o n, mapGet cxOne.objectNodeMap o = some n →
        FVal.fle (FVal.fin 0)
          (rayIntersectsAABB cxAxisRay (cxOne.aabbAt o)) = true →
        FVal.fle t
          (rayIntersectsAABB cxAxisRay (cxOne.aabbAt o)) = true) :=
  C1_raycast_min cxOne_reach (by with_unfolding_all decide)

/-- C1 counterexample: in the reachable state holding one object with the
unit box, the axis-parallel ray starting inside the box with direction
`(0, 0, 0)` has `rayIntersectsAABB = +∞`, a nonnegative intersection value
for a live object, yet `raycast` returns `none` — the claim's "if no live
object is intersected at `t ≥ 0`, raycast returns NONE" direction fails. -/
theorem C1_counterexample :
    Reach cxOne ∧
    mapGet cxOne.objectNodeMap 0 = some 0 ∧
    FVal.fle (FVal.fin 0) (rayIntersectsAABB cxZeroRay (cxOne.aabbAt 0)) = true ∧
    (raycast cxOne cxZeroRay).1 = none := by
  refine ⟨cxOne_reach, cxOne_map, ?_, ?_⟩
  · show FVal.fle (FVal.fin 0) (rayIntersectsAABB cxZeroRay
      ((Octree.insert (Octree.writeAabb (Octree.initial 4 4 cxFull) 0 cxFull) 0).1.aabbAt 0))
      = true
    rw [cxOne_eq]
    with_unfolding_all decide
  · show (raycast
      (Octree.insert (Octree.writeAabb (Octree.initial 4 4 cxFull) 0 cxFull) 0).1
      cxZeroRay).1 = none
    rw [cxOne_eq]
    with_unfolding_all decide

/-- C2: on every reachable state, `queryBox q` returns a duplicate-free
sequence holding exactly the live (map-tracked) object indices whose stored
AABB overlaps `q` under the inclusive per-axis comparison
`aabbOverlapsBox`. -/
theorem C2_queryBox_exact {s : Octree} (hreach : Reach s) (q : Aabb) :
    (queryBox s q).1.Nodup ∧
    ∀ o, o ∈ (queryBox s q).1 ↔
      Octree.live s o ∧ aabbOverlapsBox (s.aabbAt o) q = true := by
  have h := Octree.queryBox_exact (reach_inv s hreach) q
  refine ⟨h.1, fun o => ?_⟩
  rw [h.2 o]
  constructor
  · rintro ⟨⟨n, hn⟩, hov⟩
    refine ⟨?_, hov⟩
    show (mapGet s.objectNodeMap o).isSome = true
    rw [hn]
    rfl
  · rintro ⟨hl, hov⟩
    have hs : (mapGet s.objectNodeMap o).isSome = true := hl
    rcases Option.isSome_iff_exists.1 hs with ⟨n, hn⟩
    exact ⟨⟨n, hn⟩, hov⟩

/-- C2 witness: the theorem instantiated at the freshly constructed octree
and the unit query box. -/
theorem C2_witness :
    (queryBox (Octree.initial 4 4 cxFull) cxFull).1.Nodup ∧
    ∀ o, o ∈ (queryBox (Octree.initial 4 4 cxFull) cxFull).1 ↔
      Octree.live (Octree.initial 4 4 cxFull) o ∧
      aabbOverlapsBox ((Octree.initial 4 4 cxFull).aabbAt o) cxFull = true :=
  C2_queryBox_exact (Reach.init 4 4 cxFull (by decide) (by with_unfolding_all decide)) cxFull

/-- C3: `rayIntersectsAABB` computes exactly the specification's slab
formula — per-axis `t1/t2` by IEEE division, `tmin` the max of the per-axis
minima, `tmax` the min of the per-axis maxima, `-1` exactly when `tmax < 0`
or NOT `tmin ≤ tmax` (rejecting the NaN of a parallel-and-outside case),
else `tmin` when `tmin ≥ 0` and `tmax` otherwise — and the parallel miss
`origin (1/2, 5, 1/2), direction +z` against the unit box returns `-1`. -/
theorem C3_slab_formula :
    (∀ r b, rayIntersectsAABB r b = specRayIntersects r b) ∧
    rayIntersectsAABB ⟨1/2, 5, 1/2, 0, 0, 1⟩ ⟨0, 0, 0, 1, 1, 1⟩ = FVal.fin (-1) := by
  constructor
  · intro r b
    unfold rayIntersectsAABB specRayIntersects slabTmin slabTmax
    simp only [fdiv_eq_mul_recip]
  · with_unfolding_all decide

/-- C4 (amended): on every reachable state the sum of `objectCount` over all
allocated nodes equals the number of objects tracked by the object-to-node
map.  (The claim's stronger reading — that every successfully *inserted*
object stays accounted for — fails: `C4_counterexample` shows the ninth
degenerate insert reports success while the object lands in no node list and
no map entry, so "live" must be read as "tracked by the map", not "inserted
and not removed".) -/
theorem C4_sum_tracked {s : Octree} (hreach : Reach s) :
    Octree.sumObjectCounts s = s.objectNodeMap.length :=
  (reach_inv s hreach).sum_eq

/-- C4 witness: the amended theorem at the freshly constructed octree. -/
theorem C4_witness :
    Octree.sumObjectCounts (Octree.initial 4 4 cxFull) =
      (Octree.initial 4 4 cxFull).objectNodeMap.length :=
  C4_sum_tracked (Reach.init 4 4 cxFull (by decide) (by with_unfolding_all decide))

/-- C4 counterexample: after eight inserts of root-sized objects the ninth
insert subdivides, every object straddles the fresh octants, the retried
insertion throws the swallowed `RangeError`, and the call reports success
(`none`) — yet object `8` is tracked nowhere and held by no node, so nine
objects were inserted, none removed, and the node counts sum to `8 ≠ 9`. -/
theorem C4_counterexample :
    Reach (Octree.insert cx8w 8).1 ∧
    ((List.range 8).all fun i =>
      Octree.insert (Octree.writeAabb (cxS i) i cxFull) i == (cxS (i + 1), none)) = true ∧
    (Octree.insert cx8w 8).2 = none ∧
    Octree.sumObjectCounts (Octree.insert cx8w 8).1 = 8 ∧
    mapGet (Octree.insert cx8w 8).1.objectNodeMap 8 = none ∧
    ((List.range (Octree.insert cx8w 8).1.np.count).all fun n =>
      !((Octree.insert cx8w 8).1.np.node n).objs.contains 8) = true := by
  refine ⟨cx9_reach, ?_, ?_, ?_, ?_, ?_⟩
  · rw [List.all_eq_true]
    intro i hi
    rw [List.mem_range] at hi
    rw [cxS_insert i hi]
    simp
  · rw [cx_insert9]
  · rw [cx_insert9]
    with_unfolding_all decide
  · rw [cx_insert9]
    with_unfolding_all decide
  · rw [cx_insert9]
    with_unfolding_all decide

/-- C5: subdividing a full leaf of a reachable state (within fuel and
capacity) allocates exactly the next eight contiguous node indices as its
children, points their parent links back at the subdivided node, and assigns
the octant AABBs of the axis-aligned midpoint split with bit 0 of the child
index selecting the X half, bit 1 the Y half and bit 2 the Z half (bit clear
= lower half, bit set = upper half), exactly as `specOctantBox` states. -/
theorem C5_subdivide_structure {s : Octree} (hreach : Reach s) (f : ℕ) {nodeIdx : ℕ}
    (hn : nodeIdx < s.np.count)
    (hleaf : s.np.getFirstChild nodeIdx = -1)
    (hfull : (s.np.node nodeIdx).objs.length = 8)
    (hcap8 : s.np.count + 8 ≤ s.np.cap)
    (hfuel : (subdivide f s nodeIdx).2 ≠ some Exn.fuelOut) :
    (subdivide f s nodeIdx).1.np.count = s.np.count + 8 ∧
    (subdivide f s nodeIdx).1.np.getFirstChild nodeIdx = (s.np.count : ℤ) ∧
    ∀ i, i < 8 →
      (subdivide f s nodeIdx).1.np.getParent (s.np.count + i) = (nodeIdx : ℤ) ∧
      (subdivide f s nodeIdx).1.np.getAABB (s.np.count + i)
        = Octree.specOctantBox (s.np.getAABB nodeIdx) i :=
  Octree.subdivide_structure f s nodeIdx [] (reach_inv s hreach).toAux
    hn hleaf hfull hcap8 hfuel

/-- C5 witness: the theorem at the reachable state whose root leaf holds
eight objects, with fuel `19`. -/
theorem C5_witness :
    (subdivide 19 cx8w 0).1.np.count = cx8w.np.count + 8 ∧
    (subdivide 19 cx8w 0).1.np.getFirstChild 0 = (cx8w.np.count : ℤ) ∧
    ∀ i, i < 8 →
      (subdivide 19 cx8w 0).1.np.getParent (cx8w.np.count + i) = ((0 : ℕ) : ℤ) ∧
      (subdivide 19 cx8w 0).1.np.getAABB (cx8w.np.count + i)
        = Octree.specOctantBox (cx8w.np.getAABB 0) i :=
  C5_subdivide_structure cx8w_reach 19 (by with_unfolding_all decide)
    (by with_unfolding_all decide) (by with_unfolding_all decide)
    (by with_unfolding_all decide) (by rw [cx_subdivide]; decide)

/-- C6: for a tracked object, `update` keeps the object at its current node
whenever the new bounds still fit it (the write happens, nothing moves — in
particular it is never pushed down into a now-fitting descendant), and
otherwise removes it from that node, walks the parent links upward, and
re-inserts from the found ancestor — the walk ends either at `-1` (the root
fallback) or at a node whose AABB fully contains the new bounds. -/
theorem C6_update_placement {s : Octree} (hreach : Reach s) {obj m : ℕ} (a : Aabb)
    (hm : mapGet s.objectNodeMap obj = some m) :
    (({ s with ap := s.ap.set obj a } : Octree).fitsInNode obj m = true →
      Octree.update s obj a = ({ s with ap := s.ap.set obj a }, none) ∧
      mapGet (Octree.update s obj a).1.objectNodeMap obj = some m) ∧
    (({ s with ap := s.ap.set obj a } : Octree).fitsInNode obj m = false →
      Octree.update s obj a =
        insertIntoNode (insertFuel (upd2 s obj m a)) (upd2 s obj m a)
          (if walkUp (upd2 s obj m a) obj ((upd2 s obj m a).np.count + 1)
              ((upd2 s obj m a).np.getParent m) = -1
           then (upd2 s obj m a).root
           else (walkUp (upd2 s obj m a) obj ((upd2 s obj m a).np.count + 1)
              ((upd2 s obj m a).np.getParent m)).toNat) obj ∧
      (walkUp (upd2 s obj m a) obj ((upd2 s obj m a).np.count + 1)
          ((upd2 s obj m a).np.getParent m) = -1 ∨
        ∃ k : ℕ, walkUp (upd2 s obj m a) obj ((upd2 s obj m a).np.count + 1)
            ((upd2 s obj m a).np.getParent m) = (k : ℤ) ∧
          (upd2 s obj m a).fitsInNode obj k = true)) := by
  have hinv := reach_inv s hreach
  constructor
  · intro hfit
    refine ⟨Octree.update_tracked_fits a hm hfit, ?_⟩
    rw [Octree.update_tracked_fits a hm hfit]
    exact hm
  · intro hnofit
    have hnofit' : ¬ ({ s with ap := s.ap.set obj a } : Octree).fitsInNode obj m = true := by
      rw [hnofit]
      simp
    refine ⟨Octree.update_tracked_nofits a hm hnofit', ?_⟩
    obtain ⟨hinvR0, hfreeR0⟩ := remove_tracked_inv hinv hm
    have hinv2 : Inv (upd2 s obj m a) :=
      writeAabb_preserves hinvR0 a hfreeR0.1
    have hcnt2 : (upd2 s obj m a).np.count = s.np.count :=
      OctreeNodePool.removeObject_count s.np m obj
    have hmlt : m < s.np.count := hinv.map_node_lt obj m hm
    have hwalk := Octree.walkUp_spec hinv2 obj ((upd2 s obj m a).np.count + 1)
      ((upd2 s obj m a).np.getParent m) ?hstart
    case hstart =>
      rcases eq_or_ne m s.root with hmr | hmr
      · refine Or.inl ?_
        have hroot2 : (upd2 s obj m a).np.getParent (upd2 s obj m a).root = -1 :=
          hinv2.root_parent
        rw [show (upd2 s obj m a).root = s.root from rfl, ← hmr] at hroot2
        exact hroot2
      · obtain ⟨p, hp, hpm, -⟩ := hinv2.parent_spec m (by rw [hcnt2]; exact hmlt)
          (by show m ≠ s.root; exact hmr)
        exact Or.inr ⟨p, hp, by rw [hcnt2]; omega, by rw [hcnt2]; omega⟩
    rcases hwalk with hminus | ⟨mw, hmw, hmwlt, hmwfit⟩
    · exact Or.inl hminus
    · exact Or.inr ⟨mw, hmw, hmwfit⟩

/-- C6 witness: the theorem at the one-object state `cxOne` with the unit
box as the new bounds. -/
theorem C6_witness :
    (({ cxOne with ap := cxOne.ap.set 0 cxFull } : Octree).fitsInNode 0 0 = true →
      Octree.update cxOne 0 cxFull = ({ cxOne with ap := cxOne.ap.set 0 cxFull }, none) ∧
      mapGet (Octree.update cxOne 0 cxFull).1.objectNodeMap 0 = some 0) ∧
    (({ cxOne with ap := cxOne.ap.set 0 cxFull } : Octree).fitsInNode 0 0 = false →
      Octree.update cxOne 0 cxFull =
        insertIntoNode (insertFuel (upd2 cxOne 0 0 cxFull)) (upd2 cxOne 0 0 cxFull)
          (if walkUp (upd2 cxOne 0 0 cxFull) 0 ((upd2 cxOne 0 0 cxFull).np.count + 1)
              ((upd2 cxOne 0 0 cxFull).np.getParent 0) = -1
           then (upd2 cxOne 0 0 cxFull).root
           else (walkUp (upd2 cxOne 0 0 cxFull) 0 ((upd2 cxOne 0 0 cxFull).np.count + 1)
              ((upd2 cxOne 0 0 cxFull).np.getParent 0)).toNat) 0 ∧
      (walkUp (upd2 cxOne 0 0 cxFull) 0 ((upd2 cxOne 0 0 cxFull).np.count + 1)
          ((upd2 cxOne 0 0 cxFull).np.getParent 0) = -1 ∨
        ∃ k : ℕ, walkUp (upd2 cxOne 0 0 cxFull) 0 ((upd2 cxOne 0 0 cxFull).np.count + 1)
            ((upd2 cxOne 0 0 cxFull).np.getParent 0) = (k : ℤ) ∧
          (upd2 cxOne 0 0 cxFull).fitsInNode 0 k = true)) :=
  C6_update_placement cxOne_reach cxFull cxOne_map

/-- C7: `clear()` — modelled from the spec, its implementation being absent
from the sources — resets the node pool's bump allocator, re-allocates a
fresh root at slot `0` with an empty tracking map, a `queryBox` over the
root bounds then returns the empty sequence, and a fresh insert succeeds and
is returned by the query with its own (well-formed, in-bounds) box. -/
theorem C7_clear_roundtrip {s : Octree} (hreach : Reach s) {obj : ℕ} {a : Aabb}
    (hwf : wfAabb a) (hlt : obj < s.ap.buf.length)
    (hsub : aabbSub a ((Octree.clear s).np.getAABB (Octree.clear s).root)) :
    (Octree.clear s).np.count = 1 ∧
    (Octree.clear s).root = 0 ∧
    (Octree.clear s).objectNodeMap = [] ∧
    (queryBox (Octree.clear s) ((Octree.clear s).np.getAABB (Octree.clear s).root)).1 = [] ∧
    (Octree.insert (Octree.writeAabb (Octree.clear s) obj a) obj).2 = none ∧
    obj ∈ (queryBox (Octree.insert (Octree.writeAabb (Octree.clear s) obj a) obj).1 a).1 := by
  have hinv := reach_inv s hreach
  obtain ⟨h1, h2⟩ := Octree.clear_insert_findable hinv hwf hlt hsub
  exact ⟨rfl, rfl, rfl, Octree.clear_query_empty hinv _, h1, h2⟩

/-- C7 witness: the theorem at a cleared fresh octree, inserting object `0`
with the unit box. -/
theorem C7_witness :
    (Octree.clear (Octree.initial 2 2 cxFull)).np.count = 1 ∧
    (Octree.clear (Octree.initial 2 2 cxFull)).root = 0 ∧
    (Octree.clear (Octree.initial 2 2 cxFull)).objectNodeMap = [] ∧
    (queryBox (Octree.clear (Octree.initial 2 2 cxFull))
      ((Octree.clear (Octree.initial 2 2 cxFull)).np.getAABB
        (Octree.clear (Octree.initial 2 2 cxFull)).root)).1 = [] ∧
    (Octree.insert
      (Octree.writeAabb (Octree.clear (Octree.initial 2 2 cxFull)) 0 cxFull) 0).2 = none ∧
    0 ∈ (queryBox (Octree.insert
      (Octree.writeAabb (Octree.clear (Octree.initial 2 2 cxFull)) 0 cxFull) 0).1 cxFull).1 :=
  C7_clear_roundtrip (Reach.init 2 2 cxFull (by decide) (by with_unfolding_all decide))
    (by with_unfolding_all decide) (by decide) (by with_unfolding_all decide)

/-- C8 (amended): neither pool allocator can fail — `AABBPool.allocate`
recycles the top of the free-list when one is available and otherwise
returns the current bump counter and increments it with no capacity check
(so at capacity it hands out an index outside `[0, capacity)`), and
`OctreeNodePool.allocate` always bump-allocates, so subdivision never
reports a capacity failure either.  (Forced by `C8_counterexample`.) -/
theorem C8_pool_allocation (p : AABBPool) (q : OctreeNodePool) :
    (p.freeList.freeStack = [] →
      p.allocate = ({ p with count := p.count + 1 }, p.count)) ∧
    (∀ i rest, p.freeList.freeStack = i :: rest →
      p.allocate = ({ p with freeList := ⟨p.freeList.capacity, rest⟩ }, i)) ∧
    q.allocate.2 = q.count ∧
    (q.allocate.1).count = q.count + 1 := by
  refine ⟨?_, ?_, rfl, rfl⟩
  · intro h
    unfold AABBPool.allocate
    rw [show p.freeList.acquire = (p.freeList, none) from by
      unfold ObjectPool.acquire
      rw [h]]
  · intro i rest h
    unfold AABBPool.allocate
    rw [show p.freeList.acquire = (⟨p.freeList.capacity, rest⟩, some i) from by
      unfold ObjectPool.acquire
      rw [h]]

/-- C8 witness: the amended theorem at a one-slot pool with a drained
free-list and at the pool `cxPoolR` holding slot `0` on its free-list. -/
theorem C8_witness :
    (AABBPool.mk' 1).allocate =
      ({ AABBPool.mk' 1 with count := (AABBPool.mk' 1).count + 1 }, (AABBPool.mk' 1).count) ∧
    cxPoolR.allocate = ({ cxPoolR with freeList := ⟨cxPoolR.freeList.capacity, []⟩ }, 0) ∧
    (OctreeNodePool.mk' 3).allocate.2 = (OctreeNodePool.mk' 3).count ∧
    ((OctreeNodePool.mk' 3).allocate.1).count = (OctreeNodePool.mk' 3).count + 1 := by
  refine ⟨(C8_pool_allocation (AABBPool.mk' 1) (OctreeNodePool.mk' 3)).1 rfl,
    (C8_pool_allocation cxPoolR (OctreeNodePool.mk' 3)).2.1 0 [] ?hfl,
    (C8_pool_allocation (AABBPool.mk' 1) (OctreeNodePool.mk' 3)).2.2.1,
    (C8_pool_allocation (AABBPool.mk' 1) (OctreeNodePool.mk' 3)).2.2.2⟩
  case hfl => rfl

/-- C8 counterexample: on a pool of capacity `1` with an empty free-list the
second `allocate` returns index `1`, outside `[0, 1)`, with no failure — and
the node pool's allocator behaves the same — refuting "fails with
CapacityExceeded exactly when the free-list is empty and the bump counter
has reached the construction capacity (it never returns an index outside
`[0, capacity)`)". -/
theorem C8_counterexample :
    ((AABBPool.mk' 1).allocate.1).allocate.2 = 1 ∧
    ¬ ((AABBPool.mk' 1).allocate.1).allocate.2 < 1 ∧
    ((OctreeNodePool.mk' 1).allocate.1).allocate.2 = 1 ∧
    (OctreeNodePool.mk' 1).cap = 1 := by
  exact ⟨rfl, by decide, rfl, rfl⟩

/-- C9 (amended): `remove` of an untracked object is a strict no-op, and
`update` of an untracked object returns silently without touching the node
pool or the map — but it *does* write the new bounds into the AABB pool
before the map lookup, so the AABB pool contents are modified (forced by
`C9_counterexample`). -/
theorem C9_unknown_noop {s : Octree} {obj : ℕ}
    (h : mapGet s.objectNodeMap obj = none) (a : Aabb) :
    Octree.remove s obj = s ∧
    (Octree.update s obj a).2 = none ∧
    (Octree.update s obj a).1 = { s with ap := s.ap.set obj a } ∧
    (Octree.update s obj a).1.np = s.np ∧
    (Octree.update s obj a).1.objectNodeMap = s.objectNodeMap := by
  refine ⟨remove_untracked h, ?_, ?_, ?_, ?_⟩ <;> rw [Octree.update_untracked a h]

/-- C9 witness: the amended theorem at the fresh octree and the untracked
object `5`. -/
theorem C9_witness :
    Octree.remove (Octree.initial 1 1 cxFull) 5 = Octree.initial 1 1 cxFull ∧
    (Octree.update (Octree.initial 1 1 cxFull) 5 cxFull).2 = none ∧
    (Octree.update (Octree.initial 1 1 cxFull) 5 cxFull).1 =
      { Octree.initial 1 1 cxFull with ap := (Octree.initial 1 1 cxFull).ap.set 5 cxFull } ∧
    (Octree.update (Octree.initial 1 1 cxFull) 5 cxFull).1.np =
      (Octree.initial 1 1 cxFull).np ∧
    (Octree.update (Octree.initial 1 1 cxFull) 5 cxFull).1.objectNodeMap =
      (Octree.initial 1 1 cxFull).objectNodeMap :=
  C9_unknown_noop
    (show mapGet (Octree.initial 1 1 cxFull).objectNodeMap 5 = none from rfl) cxFull

/-- C9 counterexample: `update` on the untracked object `0` of a fresh
octree changes the AABB pool contents, refuting "neither the node pool, the
object-to-node map, nor the AABB pool contents are modified". -/
theorem C9_counterexample :
    mapGet (Octree.initial 1 1 cxFull).objectNodeMap 0 = none ∧
    (Octree.update (Octree.initial 1 1 cxFull) 0 cxFull).1.ap ≠
      (Octree.initial 1 1 cxFull).ap := by
  refine ⟨rfl, ?_⟩
  with_unfolding_all decide

/-- C10: `raycast` and `queryBox` are read-only over the index — the node
pool (AABBs, links, object counts and slots), the AABB pool and the
object-to-node map of the returned state equal the input's, and the value
each query computes is independent of the incoming contents of the reused
traversal stack, the only field they overwrite. -/
theorem C10_queries_readonly (s : Octree) (r : Ray) (q : Aabb) :
    (raycast s r).2.np = s.np ∧ (raycast s r).2.ap = s.ap ∧
    (raycast s r).2.root = s.root ∧ (raycast s r).2.objectNodeMap = s.objectNodeMap ∧
    (queryBox s q).2.np = s.np ∧ (queryBox s q).2.ap = s.ap ∧
    (queryBox s q).2.root = s.root ∧ (queryBox s q).2.objectNodeMap = s.objectNodeMap ∧
    (∀ st, (raycast { s with stack := st } r).1 = (raycast s r).1) ∧
    (∀ st, (queryBox { s with stack := st } q).1 = (queryBox s q).1) := by
  obtain ⟨h1, h2, h3, h4⟩ := Octree.raycast_frame s r
  obtain ⟨h5, h6, h7, h8⟩ := Octree.queryBox_frame s q
  exact ⟨h1, h2, h3, h4, h5, h6, h7, h8,
    fun st => Octree.raycast_stack_irrel s r st,
    fun st => Octree.queryBox_stack_irrel s q st⟩

end SpatialEngine

























